import Mathlib

/-! Thread pool (`tpool.c`): embedding and verified properties

The pool of `src/tpool.c` is embedded in two layers.

* A sequential layer: the queue functions `tpool_work_create`, `tpool_work_get`,
  `tpool_add_work` and `tpool_create` as state-passing functions over the
  pool record and a heap of work items.  Pointers are `Option Nat`
  (`none` is `NULL`).
* A concurrent layer: one transition per statement of `tpool_worker`,
  `tpool_add_work`, `tpool_wait` and `tpool_destroy`, indexed by the source
  line, over a state holding the pool, the heap, the mutex, the condition
  variable and one program counter per thread.
-/

namespace Tpool

/-! ## Data model -/

/-- Function pointer `thread_func_t`; `none` is `NULL`. -/
abbrev thread_func_t := Option Nat

/-- Work item `struct tpool_work` (tpool.c:9-13). -/
structure tpool_work where
  func : thread_func_t
  arg : Nat
  next : Option Nat
deriving DecidableEq

/-- Memory of work items: the contents stored at each address. -/
abbrev Heap := Nat → tpool_work

/-- Store `v` at address `a`. -/
def Heap.set (heap : Heap) (a : Nat) (v : tpool_work) : Heap :=
  fun b => if b = a then v else heap b

/-- Pool record `struct tpool` (tpool.c:18-26).  The mutex and the condition
variable are synchronisation objects and live in the concurrent state. -/
structure tpool where
  work_first : Option Nat
  work_last : Option Nat
  thread_cnt : Nat
  active_cnt : Nat
  stop : Bool
deriving DecidableEq

/-- Number of values of a `size_t`: 2^64. -/
def SIZE_MOD : Nat := 18446744073709551616

/-- Increment `x++` on a `size_t`. -/
def size_inc (x : Nat) : Nat := (x + 1) % SIZE_MOD

/-- Decrement `x--` on a `size_t` (wraps at zero). -/
def size_dec (x : Nat) : Nat := (SIZE_MOD + x - 1) % SIZE_MOD

/-- Payload of a work item: the action and its argument. -/
abbrev Item := thread_func_t × Nat

/-- Payload stored in the work item at address `w`. -/
def item (heap : Heap) (w : Nat) : Item := ((heap w).func, (heap w).arg)

/-! ## Sequential layer -/

/-- Function `tpool_work_create` (tpool.c:29-40).  `m` is the result of `malloc`:
`none` when the allocation fails, otherwise the address of the new block. -/
def tpool_work_create (heap : Heap) (m : Option Nat) (func : thread_func_t) (arg : Nat) :
    Heap × Option Nat :=
  match m with
  | none => (heap, none)
  | some work => (heap.set work { func := func, arg := arg, next := none }, some work)

/-- Function `tpool_work_get` (tpool.c:51-64).  `tm = none` is the null handle. -/
def tpool_work_get (tm : Option tpool) (heap : Heap) : Option tpool × Option Nat :=
  match tm with
  | none => (none, none)
  | some p =>
    match p.work_first with
    | none => (some p, none)
    | some work =>
      let p1 := { p with work_first := (heap work).next }
      let p2 := if p1.work_first = none then { p1 with work_last := none } else p1
      (some p2, some work)

/-- Queue update of `tpool_add_work` under the lock (tpool.c:162-168).  The result
is `none` when `tm->work_last->next` dereferences a null `work_last`. -/
def enqueue (p : tpool) (heap : Heap) (work : Nat) : Option (tpool × Heap) :=
  match p.work_first with
  | none => some ({ p with work_first := some work, work_last := some work }, heap)
  | some _ =>
    match p.work_last with
    | none => none
    | some last =>
      some ({ p with work_last := some work },
            heap.set last { heap last with next := some work })

/-- Function `tpool_add_work` (tpool.c:150-172), run without interference.  `m` is
what `malloc` returns if it is called.  The result is the handle's pool, the heap
and the returned boolean; `none` is a null dereference. -/
def tpool_add_work (tm : Option tpool) (heap : Heap) (func : thread_func_t) (arg : Nat)
    (m : Option Nat) : Option (Option tpool × Heap × Bool) :=
  match tm, func with
  | none, _ => some (none, heap, false)
  | some p, none => some (some p, heap, false)
  | some p, some f =>
    match tpool_work_create heap m (some f) arg with
    | (heap1, none) => some (some p, heap1, false)
    | (heap1, some work) =>
      match enqueue p heap1 work with
      | none => none
      | some (p2, heap2) => some (some p2, heap2, true)

/-- Linked list segment: following `next` from `p` visits exactly the addresses
`l` and then reaches `NULL`. -/
def lseg (heap : Heap) : Option Nat → List Nat → Prop
  | p, [] => p = none
  | p, a :: l => p = some a ∧ lseg heap (heap a).next l

instance lsegDecidable (heap : Heap) : (p : Option Nat) → (l : List Nat) →
    Decidable (lseg heap p l)
  | p, [] => inferInstanceAs (Decidable (p = none))
  | _, a :: l => @instDecidableAnd _ _ _ (lsegDecidable heap (heap a).next l)

/-- The pool's queue holds exactly the work items at addresses `l`, oldest first:
`work_first` starts the list, `work_last` is its last node. -/
def queue_is (p : tpool) (heap : Heap) (l : List Nat) : Prop :=
  lseg heap p.work_first l ∧ l.Nodup ∧ p.work_last = l.getLast?

instance (p : tpool) (heap : Heap) (l : List Nat) : Decidable (queue_is p heap l) := by
  unfold queue_is; infer_instance

/-- Queue well-formedness in the words of the specification: `work_first` is null
exactly when `work_last` is null, and when the queue is not empty `work_last` is
the last node reached from `work_first` through `next`, and its `next` is null. -/
def queue_wf (p : tpool) (heap : Heap) : Prop :=
  (p.work_first = none ↔ p.work_last = none) ∧
  (p.work_first ≠ none →
    ∃ l last, lseg heap p.work_first l ∧ l.getLast? = some last ∧
      p.work_last = some last ∧ (heap last).next = none)

/-- One step of the client interleavings of C1: a call of `tpool_add_work` with a
non-null handle (with the block `m` that `malloc` hands out), or a call of
`tpool_work_get`. -/
inductive QOp where
  | enq (func : thread_func_t) (arg : Nat) (m : Option Nat)
  | deq
deriving DecidableEq

/-- Outcome of a sequence of queue operations: final pool and heap, payloads
accepted by `tpool_add_work` (in order) and payloads of the items returned by
`tpool_work_get` (in order). -/
structure QRun where
  tm : tpool
  heap : Heap
  accepted : List Item
  returned : List Item

/-- Run a sequence of queue operations; `none` is a null dereference. -/
def runOps : List QOp → tpool → Heap → Option QRun
  | [], p, heap => some { tm := p, heap := heap, accepted := [], returned := [] }
  | QOp.enq func arg m :: ops, p, heap =>
    match tpool_add_work (some p) heap func arg m with
    | some (some p1, heap1, ok) =>
      (runOps ops p1 heap1).map fun r =>
        { r with accepted := (if ok then [(func, arg)] else []) ++ r.accepted }
    | _ => none
  | QOp.deq :: ops, p, heap =>
    match tpool_work_get (some p) heap with
    | (some p1, some work) =>
      (runOps ops p1 heap).map fun r => { r with returned := item heap work :: r.returned }
    | (some p1, none) => runOps ops p1 heap
    | (none, _) => none

/-- The blocks handed out by `malloc` along a sequence of operations are not
nodes of the queue at that moment (`q` is the queue before the sequence). -/
def FreshOps : List Nat → List QOp → Prop
  | _, [] => True
  | q, QOp.enq func _ m :: ops =>
    match func, m with
    | some _, some w => w ∉ q ∧ FreshOps (q ++ [w]) ops
    | _, _ => FreshOps q ops
  | q, QOp.deq :: ops => FreshOps q.tail ops

/-! ## Concurrent layer -/

/-- Program counter of a thread: the source line of its next statement.
`w..` is `tpool_worker`, `a..` is `tpool_add_work`, `t..` is `tpool_wait`,
`d..` is `tpool_destroy`.  A suffix `b` is a thread blocked inside
`pthread_cond_wait`, a suffix `r` a woken thread re-acquiring the mutex
inside `pthread_cond_wait`.  Local variables are arguments: `work` in the worker,
`work`, `func` and `arg` in `tpool_add_work`.  Every statement is one step, with
lines 79-82 taken together.  Line 98, `tm->thread_cnt--`, runs after the unlock
of line 76, without the mutex: its load (`w98`) and its store of the loaded
value minus one (`w98s v`) are two steps.  So are the load (`w91`) and the store
(`w91s v`) of line 91, `tm->active_cnt--`: once a worker on its exit path has run
the unlock of line 102 on a mutex that another worker holds, two workers can be
between lines 90 and 95 together.  The dequeue of lines 79-82 is only reached
while `stop` is false, when at most one thread holds the mutex. -/
inductive Pc where
  | idle
  | w71 | w72 | w73 | w73b | w73r | w75 | w79
  | w83 (work : Option Nat) | w85 (work : Option Nat) | w87 (work : Nat)
  | w90 | w91 | w91s (v : Nat) | w92 | w95
  | w98 | w98s (v : Nat) | w99 | w102 | w103
  | a161 (work : Nat) (func : thread_func_t) (arg : Nat)
  | a162 (work : Nat) (func : thread_func_t) (arg : Nat) | a169 | a170
  | t178 | t179 | t180 | t180b | t180r | t182
  | d136 | d137 | d138 | d139 | d140 | d140b | d140r | d142 | d143 | d146
deriving DecidableEq

/-- Set the program counter of thread `t`. -/
def setPc (pcs : Nat → Pc) (t : Nat) (pc : Pc) : Nat → Pc :=
  fun u => if u = t then pc else pcs u

/-- Threads created by the loop of `tpool_create` (tpool.c:124-128): `k` more
iterations starting at index `i`.  `created i` tells whether the `pthread_create`
of iteration `i` succeeds; the loop ignores its result.  A new thread starts
`tpool_worker`; after a failed `pthread_create` there is no thread `i`, and the
slot stays outside the pool. -/
def spawn (created : Nat → Bool) (pcs : Nat → Pc) : Nat → Nat → (Nat → Pc)
  | _, 0 => pcs
  | i, k + 1 =>
    spawn created (if created i = true then setPc pcs i Pc.w71 else pcs) (i + 1) k

/-- Function `tpool_create` (tpool.c:107-130).  `calloc_ok` tells whether the
allocation of the pool succeeds and `created i` whether the `pthread_create` of
iteration `i` does.  The result is the pool record and the table of threads,
where thread `i` is the worker created by iteration `i`. -/
def tpool_create (num : Nat) (calloc_ok : Bool) (created : Nat → Bool) :
    Option (tpool × (Nat → Pc)) :=
  let num := if num = 0 then 2 else num
  if calloc_ok then
    some ({ work_first := none, work_last := none, thread_cnt := num,
            active_cnt := 0, stop := false },
          spawn created (fun _ => Pc.idle) 0 num)
  else none

/-- Shared state of a running pool together with its threads.  `work_mutex` is
the owner of the mutex, `work_cond` the threads blocked on the condition
variable, `live` the set of allocated work items and `freed` tells that
`tpool_destroy` has destroyed the mutex and the condition variable and released
the pool.  `accepted` and `executed` are history variables: the payloads
enqueued so far and the payloads whose action has run, in order. -/
structure State where
  tm : tpool
  heap : Heap
  live : Nat → Bool
  work_mutex : Option Nat
  work_cond : List Nat
  freed : Bool
  pcs : Nat → Pc
  accepted : List Item
  executed : List Item

/-- Entry of a client thread into one of the pool's public functions. -/
inductive Call where
  | add (func : thread_func_t) (arg : Nat) (m : Option Nat)
  | wait
  | destroy
deriving DecidableEq

/-- Scheduler choice: an idle thread `t` enters a public function, or thread `t`
runs its next statement.  `wake` is used when that statement is a
`pthread_cond_signal`: the blocked thread that the signal wakes, `none` when no
thread is blocked on the condition variable. -/
inductive Label where
  | call (t : Nat) (c : Call)
  | exec (t : Nat) (wake : Option Nat)
deriving DecidableEq

/-- Pool state right after `tpool_create num` has returned a pool, `created`
telling which calls of `pthread_create` succeeded. -/
def initWith (num : Nat) (created : Nat → Bool) : State :=
  match tpool_create num true created with
  | some (p, pcs) =>
    { tm := p, heap := fun _ => { func := none, arg := 0, next := none },
      live := fun _ => false, work_mutex := none, work_cond := [], freed := false,
      pcs := pcs, accepted := [], executed := [] }
  | none =>
    { tm := { work_first := none, work_last := none, thread_cnt := 0, active_cnt := 0,
              stop := false },
      heap := fun _ => { func := none, arg := 0, next := none },
      live := fun _ => false, work_mutex := none, work_cond := [], freed := true,
      pcs := fun _ => Pc.idle, accepted := [], executed := [] }

/-- Pool state right after `tpool_create num` has returned a pool, every
`pthread_create` having succeeded.  A worker whose `pthread_create` failed
behaves in every schedule as a worker that is never scheduled. -/
def init (num : Nat) : State := initWith num (fun _ => true)

/-- Move thread `t` to `pc`. -/
def goto (s : State) (t : Nat) (pc : Pc) : State :=
  { s with pcs := setPc s.pcs t pc }

/-- Call `pthread_mutex_lock` by thread `t`: enabled only while the mutex is free. -/
def lock (s : State) (t : Nat) (pc : Pc) : Option State :=
  if s.work_mutex = none then some (goto { s with work_mutex := some t } t pc) else none

/-- Call `pthread_mutex_unlock`: the mutex becomes free.  A default mutex does
not check that the caller owns it. -/
def unlock (s : State) : State :=
  { s with work_mutex := none }

/-- Call `pthread_cond_wait` by thread `t`: the mutex is released and the thread
joins the threads blocked on the condition variable, as one atomic action. -/
def cond_wait (s : State) (t : Nat) (pc : Pc) : State :=
  goto { s with work_mutex := none, work_cond := s.work_cond ++ [t] } t pc

/-- Program counter of a blocked thread once it is woken. -/
def wake : Pc → Pc
  | Pc.w73b => Pc.w73r
  | Pc.t180b => Pc.t180r
  | Pc.d140b => Pc.d140r
  | pc => pc

/-- Call `pthread_cond_signal`: with no blocked thread nothing happens, otherwise
the chosen blocked thread `u` is woken. -/
def cond_signal (s : State) (u : Option Nat) : Option State :=
  match u with
  | none => if s.work_cond = [] then some s else none
  | some u =>
    if u ∈ s.work_cond then
      some { s with work_cond := s.work_cond.erase u, pcs := setPc s.pcs u (wake (s.pcs u)) }
    else none

/-- Call `pthread_cond_broadcast`: every blocked thread is woken. -/
def cond_broadcast (s : State) : State :=
  { s with work_cond := [],
           pcs := fun u => if u ∈ s.work_cond then wake (s.pcs u) else s.pcs u }

/-- The next statement at this program counter reads or writes the pool: one of
its fields, its mutex or its condition variable. -/
def touches : Pc → Bool
  | Pc.idle | Pc.w85 _ | Pc.w87 _ | Pc.w103 | Pc.d146 => false
  | _ => true

/-- Next statement of thread `t` at program counter `pc`; `u` is the thread woken
when that statement is a signal.  `none`: the statement is not enabled (the mutex
is taken, the thread is blocked or has finished) or the choice `u` does not fit. -/
def stmt (s : State) (t : Nat) : Pc → Option Nat → Option State
  -- tpool_worker
  | Pc.w71, none => lock s t Pc.w72
  | Pc.w72, none =>
    some (goto s t (if s.tm.work_first = none ∧ s.tm.stop = false then Pc.w73 else Pc.w75))
  | Pc.w73, none => some (cond_wait s t Pc.w73b)
  | Pc.w73r, none => lock s t Pc.w72
  | Pc.w75, none =>
    some (if s.tm.stop = true then goto (unlock s) t Pc.w98 else goto s t Pc.w79)
  | Pc.w79, none =>
    match tpool_work_get (some s.tm) s.heap with
    | (some p, some work) =>
      some (goto { s with tm := { p with active_cnt := size_inc p.active_cnt } } t
        (Pc.w83 (some work)))
    | (some p, none) => some (goto { s with tm := p } t (Pc.w83 none))
    | (none, _) => none
  | Pc.w83 work, none => some (goto (unlock s) t (Pc.w85 work))
  | Pc.w85 none, none => some (goto s t Pc.w90)
  | Pc.w85 (some w), none =>
    some (goto { s with executed := s.executed ++ [item s.heap w] } t (Pc.w87 w))
  | Pc.w87 w, none =>
    some (goto { s with live := fun a => if a = w then false else s.live a } t Pc.w90)
  | Pc.w90, none => lock s t Pc.w91
  | Pc.w91, none => some (goto s t (Pc.w91s s.tm.active_cnt))
  | Pc.w91s v, none =>
    some (goto { s with tm := { s.tm with active_cnt := size_dec v } } t Pc.w92)
  | Pc.w92, u =>
    if s.tm.stop = false ∧ s.tm.work_first = none ∧ s.tm.active_cnt = 0 then
      (cond_signal s u).map fun s1 => goto s1 t Pc.w95
    else if u = none then some (goto s t Pc.w95) else none
  | Pc.w95, none => some (goto (unlock s) t Pc.w71)
  | Pc.w98, none => some (goto s t (Pc.w98s s.tm.thread_cnt))
  | Pc.w98s v, none =>
    some (goto { s with tm := { s.tm with thread_cnt := size_dec v } } t Pc.w99)
  | Pc.w99, u =>
    if s.tm.thread_cnt = 0 then (cond_signal s u).map fun s1 => goto s1 t Pc.w102
    else if u = none then some (goto s t Pc.w102) else none
  | Pc.w102, none => some (goto (unlock s) t Pc.w103)
  -- tpool_add_work
  | Pc.a161 work func arg, none => lock s t (Pc.a162 work func arg)
  | Pc.a162 work func arg, none =>
    match enqueue s.tm s.heap work with
    | none => none
    | some (p, heap) =>
      some (goto { s with tm := p, heap := heap,
                          accepted := s.accepted ++ [(func, arg)] } t Pc.a169)
  | Pc.a169, u => (cond_signal s u).map fun s1 => goto s1 t Pc.a170
  | Pc.a170, none => some (goto (unlock s) t Pc.idle)
  -- tpool_wait
  | Pc.t178, none => lock s t Pc.t179
  | Pc.t179, none =>
    some (goto s t (if s.tm.work_first ≠ none ∨ s.tm.active_cnt > 0 then Pc.t180 else Pc.t182))
  | Pc.t180, none => some (cond_wait s t Pc.t180b)
  | Pc.t180r, none => lock s t Pc.t179
  | Pc.t182, none => some (goto (unlock s) t Pc.idle)
  -- tpool_destroy
  | Pc.d136, none => lock s t Pc.d137
  | Pc.d137, none => some (goto { s with tm := { s.tm with stop := true } } t Pc.d138)
  | Pc.d138, none => some (goto (cond_broadcast s) t Pc.d139)
  | Pc.d139, none => some (goto s t (if s.tm.thread_cnt > 0 then Pc.d140 else Pc.d142))
  | Pc.d140, none => some (cond_wait s t Pc.d140b)
  | Pc.d140r, none => lock s t Pc.d139
  | Pc.d142, none => some (goto (unlock s) t Pc.d143)
  | Pc.d143, none => some (goto { s with freed := true } t Pc.d146)
  | _, _ => none

/-- Entry of idle thread `t` into a public function with a non-null handle.
`tpool_add_work` runs its argument check and `tpool_work_create` (tpool.c:152-159)
before it touches the pool; `malloc` only hands out a block that is not allocated. -/
def enter (s : State) (t : Nat) : Call → Option State
  | Call.add func arg m =>
    match func with
    | none => some s
    | some f =>
      match tpool_work_create s.heap m (some f) arg with
      | (_, none) => some s
      | (heap, some work) =>
        if s.live work = false then
          some (goto { s with heap := heap,
                              live := fun a => if a = work then true else s.live a } t
            (Pc.a161 work (some f) arg))
        else none
  | Call.wait => some (goto s t Pc.t178)
  | Call.destroy => some (goto s t Pc.d136)

/-- Transition function of the pool.  A statement that touches a pool that has
been released has no defined behaviour. -/
def step (s : State) : Label → Option State
  | Label.call t c => if s.pcs t = Pc.idle then enter s t c else none
  | Label.exec t u =>
    if s.freed = true ∧ touches (s.pcs t) = true then none else stmt s t (s.pcs t) u

/-- Run a schedule from state `s`. -/
def run (s : State) : List Label → Option State
  | [] => some s
  | lab :: labs => (step s lab).bind fun s1 => run s1 labs

/-- State `s` is reached by some schedule from the state after `tpool_create num`. -/
def Reachable (num : Nat) (s : State) : Prop :=
  ∃ labs, run (init num) labs = some s

/-- Number of workers that `tpool_create num` starts (tpool.c:109-111). -/
def nworkers (num : Nat) : Nat := if num = 0 then 2 else num

/-- Thread that takes the step. -/
def Label.tid : Label → Nat
  | Label.call t _ => t
  | Label.exec t _ => t

/-! ## Classification of the statements

The tables below sort the statements of `stmt` by what they do to the shared
state: nothing but a jump, a `pthread_mutex_lock`, a `pthread_mutex_unlock`, a
`pthread_cond_wait`, a `pthread_cond_signal`.  `Effect` lists every transition of
`step` in that form; `step_effect` proves that `step` has no other transition. -/

/-- The program counter belongs to `tpool_worker`. -/
def isWorker : Pc → Bool
  | Pc.w71 | Pc.w72 | Pc.w73 | Pc.w73b | Pc.w73r | Pc.w75 | Pc.w79 | Pc.w83 _ | Pc.w85 _
  | Pc.w87 _ | Pc.w90 | Pc.w91 | Pc.w91s _ | Pc.w92 | Pc.w95 | Pc.w98 | Pc.w98s _ | Pc.w99
  | Pc.w102
  | Pc.w103 => true
  | _ => false

/-- Statements that only read the pool and jump: the target of the jump. -/
def pureNext (s : State) : Pc → Option Pc
  | Pc.w72 => some (if s.tm.work_first = none ∧ s.tm.stop = false then Pc.w73 else Pc.w75)
  | Pc.w75 => if s.tm.stop = true then none else some Pc.w79
  | Pc.w85 none => some Pc.w90
  | Pc.w91 => some (Pc.w91s s.tm.active_cnt)
  | Pc.w92 =>
    if s.tm.stop = false ∧ s.tm.work_first = none ∧ s.tm.active_cnt = 0 then none
    else some Pc.w95
  | Pc.w98 => some (Pc.w98s s.tm.thread_cnt)
  | Pc.w99 => if s.tm.thread_cnt = 0 then none else some Pc.w102
  | Pc.t179 =>
    some (if s.tm.work_first ≠ none ∨ s.tm.active_cnt > 0 then Pc.t180 else Pc.t182)
  | Pc.d139 => some (if s.tm.thread_cnt > 0 then Pc.d140 else Pc.d142)
  | _ => none

/-- Statements that take the mutex: the program counter after the lock. -/
def lockNext : Pc → Option Pc
  | Pc.w71 => some Pc.w72
  | Pc.w73r => some Pc.w72
  | Pc.w90 => some Pc.w91
  | Pc.a161 work func arg => some (Pc.a162 work func arg)
  | Pc.t178 => some Pc.t179
  | Pc.t180r => some Pc.t179
  | Pc.d136 => some Pc.d137
  | Pc.d140r => some Pc.d139
  | _ => none

/-- Statements that release the mutex: the program counter after the unlock. -/
def unlockNext (s : State) : Pc → Option Pc
  | Pc.w75 => if s.tm.stop = true then some Pc.w98 else none
  | Pc.w83 work => some (Pc.w85 work)
  | Pc.w95 => some Pc.w71
  | Pc.w102 => some Pc.w103
  | Pc.a170 => some Pc.idle
  | Pc.t182 => some Pc.idle
  | Pc.d142 => some Pc.d143
  | _ => none

/-- Calls of `pthread_cond_wait`: the blocked program counter. -/
def waitNext : Pc → Option Pc
  | Pc.w73 => some Pc.w73b
  | Pc.t180 => some Pc.t180b
  | Pc.d140 => some Pc.d140b
  | _ => none

/-- Calls of `pthread_cond_signal` that are executed: the program counter after
the signal. -/
def signalNext (s : State) : Pc → Option Pc
  | Pc.w92 =>
    if s.tm.stop = false ∧ s.tm.work_first = none ∧ s.tm.active_cnt = 0 then some Pc.w95
    else none
  | Pc.w99 => if s.tm.thread_cnt = 0 then some Pc.w102 else none
  | Pc.a169 => some Pc.a170
  | _ => none

/-- Transitions of `step`, one constructor per kind of statement. -/
inductive Effect (s : State) : Label → State → Prop where
  | add_reject (t : Nat) (func : thread_func_t) (arg : Nat) (m : Option Nat)
      (hpc : s.pcs t = Pc.idle) (hrej : func = none ∨ m = none) :
      Effect s (Label.call t (Call.add func arg m)) s
  | add_alloc (t f arg w : Nat) (hpc : s.pcs t = Pc.idle) (hlive : s.live w = false) :
      Effect s (Label.call t (Call.add (some f) arg (some w)))
        (goto { s with heap := s.heap.set w { func := some f, arg := arg, next := none },
                       live := fun a => if a = w then true else s.live a } t
          (Pc.a161 w (some f) arg))
  | enter_wait (t : Nat) (hpc : s.pcs t = Pc.idle) :
      Effect s (Label.call t Call.wait) (goto s t Pc.t178)
  | enter_destroy (t : Nat) (hpc : s.pcs t = Pc.idle) :
      Effect s (Label.call t Call.destroy) (goto s t Pc.d136)
  | pure (t : Nat) (pc : Pc) (hnext : pureNext s (s.pcs t) = some pc) :
      Effect s (Label.exec t none) (goto s t pc)
  | lock (t : Nat) (pc : Pc) (hnext : lockNext (s.pcs t) = some pc)
      (hfree : s.work_mutex = none) :
      Effect s (Label.exec t none) (goto { s with work_mutex := some t } t pc)
  | unlock (t : Nat) (pc : Pc) (hnext : unlockNext s (s.pcs t) = some pc) :
      Effect s (Label.exec t none) (goto (unlock s) t pc)
  | wait (t : Nat) (pc : Pc) (hnext : waitNext (s.pcs t) = some pc) :
      Effect s (Label.exec t none) (cond_wait s t pc)
  | signal_none (t : Nat) (pc : Pc) (hnext : signalNext s (s.pcs t) = some pc)
      (hempty : s.work_cond = []) :
      Effect s (Label.exec t none) (goto s t pc)
  | signal_wake (t : Nat) (pc : Pc) (v : Nat) (hnext : signalNext s (s.pcs t) = some pc)
      (hv : v ∈ s.work_cond) :
      Effect s (Label.exec t (some v))
        (goto { s with work_cond := s.work_cond.erase v,
                       pcs := setPc s.pcs v (wake (s.pcs v)) } t pc)
  | get_some (t : Nat) (p : tpool) (work : Nat) (hpc : s.pcs t = Pc.w79)
      (hget : tpool_work_get (some s.tm) s.heap = (some p, some work)) :
      Effect s (Label.exec t none)
        (goto { s with tm := { p with active_cnt := size_inc p.active_cnt } } t
          (Pc.w83 (some work)))
  | get_none (t : Nat) (p : tpool) (hpc : s.pcs t = Pc.w79)
      (hget : tpool_work_get (some s.tm) s.heap = (some p, none)) :
      Effect s (Label.exec t none) (goto { s with tm := p } t (Pc.w83 none))
  | action (t w : Nat) (hpc : s.pcs t = Pc.w85 (some w)) :
      Effect s (Label.exec t none)
        (goto { s with executed := s.executed ++ [item s.heap w] } t (Pc.w87 w))
  | free (t w : Nat) (hpc : s.pcs t = Pc.w87 w) :
      Effect s (Label.exec t none)
        (goto { s with live := fun a => if a = w then false else s.live a } t Pc.w90)
  | dec_active (t v : Nat) (hpc : s.pcs t = Pc.w91s v) :
      Effect s (Label.exec t none)
        (goto { s with tm := { s.tm with active_cnt := size_dec v } } t Pc.w92)
  | dec_thread (t v : Nat) (hpc : s.pcs t = Pc.w98s v) :
      Effect s (Label.exec t none)
        (goto { s with tm := { s.tm with thread_cnt := size_dec v } } t Pc.w99)
  | enq (t work : Nat) (func : thread_func_t) (arg : Nat) (p : tpool) (heap : Heap)
      (hpc : s.pcs t = Pc.a162 work func arg)
      (henq : enqueue s.tm s.heap work = some (p, heap)) :
      Effect s (Label.exec t none)
        (goto { s with tm := p, heap := heap,
                       accepted := s.accepted ++ [(func, arg)] } t Pc.a169)
  | set_stop (t : Nat) (hpc : s.pcs t = Pc.d137) :
      Effect s (Label.exec t none)
        (goto { s with tm := { s.tm with stop := true } } t Pc.d138)
  | broadcast (t : Nat) (hpc : s.pcs t = Pc.d138) :
      Effect s (Label.exec t none) (goto (cond_broadcast s) t Pc.d139)
  | release (t : Nat) (hpc : s.pcs t = Pc.d143) :
      Effect s (Label.exec t none) (goto { s with freed := true } t Pc.d146)

/-! ## Invariants -/

/-- The thread holds the mutex at this program counter when every lock and unlock
is matched: the positions between a `pthread_mutex_lock` (or the return from
`pthread_cond_wait`) and the next release. -/
def inCS : Pc → Bool
  | Pc.w72 | Pc.w73 | Pc.w75 | Pc.w79 | Pc.w83 _ | Pc.w91 | Pc.w91s _ | Pc.w92 | Pc.w95
  | Pc.a162 _ _ _ | Pc.a169 | Pc.a170 | Pc.t179 | Pc.t180 | Pc.t182
  | Pc.d137 | Pc.d138 | Pc.d139 | Pc.d140 | Pc.d142 => true
  | _ => false

/-- Program counters that occur while `stop` is still false: not the exit path
of the worker (lines 98-103), not `tpool_destroy` after line 137, and no worker
past line 79 without a work item. -/
def okPc : Pc → Bool
  | Pc.w83 none | Pc.w85 none
  | Pc.w98 | Pc.w98s _ | Pc.w99 | Pc.w102 | Pc.w103
  | Pc.d138 | Pc.d139 | Pc.d140 | Pc.d140b | Pc.d140r | Pc.d142 | Pc.d143 | Pc.d146 => false
  | _ => true

/-- Positions reached only through a test of the queue: after the wait loop of
the worker, and after the wait loop of `tpool_wait`. -/
def guarded : Pc → Bool
  | Pc.w75 | Pc.w79 | Pc.t182 => true
  | _ => false

/-- Worker positions from the top of the loop up to the test of `stop` on
line 75, or on the exit path of lines 98-103: the positions from which a worker
reaches line 79 only through a test that finds `stop` false. -/
def onExitWay : Pc → Bool
  | Pc.w71 | Pc.w72 | Pc.w73 | Pc.w73b | Pc.w73r | Pc.w75
  | Pc.w98 | Pc.w98s _ | Pc.w99 | Pc.w102 | Pc.w103 => true
  | _ => false

/-- Positions of the wait loop of `tpool_destroy` (tpool.c:139-141). -/
def inDestroyLoop : Pc → Bool
  | Pc.d139 | Pc.d140 | Pc.d140b | Pc.d140r => true
  | _ => false

/-- Control invariant of the pool before shutdown: every thread is at a position
allowed before `stop` is set, the threads inside a critical section are exactly
the owner of the mutex, a worker that has passed the wait loop of line 72 sees a
non-empty queue, a thread that has passed the loop of `tpool_wait` sees a drained
pool, and the pool has not been released. -/
structure CtlInv (s : State) : Prop where
  ok : ∀ t, okPc (s.pcs t) = true
  mutex : ∀ t, inCS (s.pcs t) = true ↔ s.work_mutex = some t
  nonempty : ∀ t, s.pcs t = Pc.w75 ∨ s.pcs t = Pc.w79 → s.tm.work_first ≠ none
  drained : ∀ t, s.pcs t = Pc.t182 → s.tm.work_first = none ∧ s.tm.active_cnt = 0
  notfreed : s.freed = false

/-- How a step moves the mutex: it keeps it, acquires it for the stepping thread,
or releases it. -/
inductive MutexMove (s s1 : State) (t : Nat) : Prop where
  | keep (hm : s1.work_mutex = s.work_mutex) (hcs : inCS (s1.pcs t) = inCS (s.pcs t))
  | acquire (hfree : s.work_mutex = none) (hm : s1.work_mutex = some t)
      (hout : inCS (s.pcs t) = false) (hin : inCS (s1.pcs t) = true)
  | release (hin : inCS (s.pcs t) = true) (hm : s1.work_mutex = none)
      (hout : inCS (s1.pcs t) = false)

/-- Work item that the thread owns at this program counter: a worker between
the dequeue of line 79 and the `free` of line 87, a submitter between
`tpool_work_create` and the enqueue. -/
def owns : Pc → Option Nat
  | Pc.w83 (some w) | Pc.w85 (some w) | Pc.w87 w | Pc.a161 w _ _ | Pc.a162 w _ _ => some w
  | _ => none

/-- Work item in flight: dequeued by this worker, its action not yet run. -/
def held : Pc → Option Nat
  | Pc.w83 (some w) | Pc.w85 (some w) => some w
  | _ => none

/-- The worker is between its `active_cnt++` (line 81) and its `active_cnt--`
(line 91). -/
def active : Pc → Bool
  | Pc.w83 _ | Pc.w85 _ | Pc.w87 _ | Pc.w90 | Pc.w91 | Pc.w91s _ => true
  | _ => false

/-- Contribution of a thread to the number of active workers. -/
def activeNum (pc : Pc) : Nat := if active pc = true then 1 else 0

/-- Payload in flight at a thread, as a multiset with at most one element. -/
def heldItems (heap : Heap) (pc : Pc) : Multiset Item :=
  match held pc with
  | some w => {item heap w}
  | none => 0

/-- Payload in flight at a thread, as a list with at most one element. -/
def heldList (heap : Heap) (pc : Pc) : List Item :=
  match held pc with
  | some w => [item heap w]
  | none => []

/-- Work item allocated by a submitter and not yet enqueued, with the action and
the argument of the call. -/
def pend : Pc → Option (Nat × Item)
  | Pc.a161 w func arg | Pc.a162 w func arg => some (w, (func, arg))
  | _ => none

/-- What the data invariant looks at in a program counter. -/
def sig (pc : Pc) : Option Nat × Option Nat × Bool × Bool × Option (Nat × Item) :=
  (owns pc, held pc, active pc, isWorker pc, pend pc)

/-- Sum of `f` over the program counters of the threads `0 .. n-1`. -/
def threadSum {α : Type} [AddCommMonoid α] (f : Pc → α) (pcs : Nat → Pc) : Nat → α
  | 0 => 0
  | k + 1 => threadSum f pcs k + f (pcs k)

/-- Data invariant of a pool with `n` workers whose queue is `l`: the workers
are the threads below `n`; the queue is a well-formed list of allocated items;
every owned item is allocated, outside the queue and owned by one thread only; an
item not yet enqueued has a null link and holds the action and the argument of
its call; every accepted payload is executed, in flight or queued,
with its multiplicity; and with a single worker the accepted payloads are, in
order, the executed ones, the one in flight and the queued ones. -/
structure DataInv (n : Nat) (s : State) (l : List Nat) : Prop where
  role : ∀ t, isWorker (s.pcs t) = decide (t < n)
  nlt : n < SIZE_MOD
  queue : queue_is s.tm s.heap l
  qlive : ∀ w ∈ l, s.live w = true
  own_out : ∀ t w, owns (s.pcs t) = some w → w ∉ l
  own_live : ∀ t w, owns (s.pcs t) = some w → s.live w = true
  own_inj : ∀ t t1 w, owns (s.pcs t) = some w → owns (s.pcs t1) = some w → t = t1
  pending : ∀ t w, owns (s.pcs t) = some w → isWorker (s.pcs t) = false →
    (s.heap w).next = none
  pending_item : ∀ t w i, pend (s.pcs t) = some (w, i) → item s.heap w = i
  account : (s.accepted : Multiset Item)
    = (s.executed : Multiset Item) + threadSum (heldItems s.heap) s.pcs n
      + ((l.map (item s.heap) : List Item) : Multiset Item)
  fifo : n = 1 →
    s.accepted = s.executed ++ heldList s.heap (s.pcs 0) ++ l.map (item s.heap)

/-- Counting invariant of a pool with `n` workers while `stop` is false:
`active_cnt` is the number of workers between increment and decrement, and a
worker between the load and the store of line 91 has loaded the current value. -/
structure ActInv (n : Nat) (s : State) : Prop where
  eq : s.tm.active_cnt = threadSum activeNum s.pcs n
  loaded : ∀ t v, s.pcs t = Pc.w91s v → v = s.tm.active_cnt

/-- How a step changes the queue: not at all, by one item appended at the end, or,
at the dequeue of line 79, by the removal of its head. -/
inductive QueueMove (s : State) (t : Nat) (l l1 : List Nat) : Prop where
  | same (h : l1 = l)
  | push (w : Nat) (h : l1 = l ++ [w])
  | pop (w : Nat) (h : l = w :: l1) (hpc : s.pcs t = Pc.w79)

/-- The next statement at this program counter reads or writes the queue,
`active_cnt`, `thread_cnt` or `stop`: lines 72, 75, 79-82, 91, 92, 98, 99, 162-168,
179, 137 and 139. -/
def accessesShared : Pc → Bool
  | Pc.w72 | Pc.w75 | Pc.w79 | Pc.w91 | Pc.w91s _ | Pc.w92 | Pc.w98 | Pc.w98s _ | Pc.w99
  | Pc.a162 _ _ _ | Pc.t179 | Pc.d137 | Pc.d139 => true
  | _ => false

/-- The next statement at this program counter is a `pthread_mutex_unlock`:
lines 83, 95, 102, 170, 182 and 142 (the unlock of line 76 is part of the step at
line 75). -/
def isUnlock : Pc → Bool
  | Pc.w83 _ | Pc.w95 | Pc.w102 | Pc.a170 | Pc.t182 | Pc.d142 => true
  | _ => false

/-- The worker is past line 79 without a work item: the `work == NULL` branches
of lines 80 and 85. -/
def nullWork : Pc → Bool
  | Pc.w83 none | Pc.w85 none => true
  | _ => false

/-- The worker has run its `thread_cnt--` of line 98. -/
def exited : Pc → Bool
  | Pc.w99 | Pc.w102 | Pc.w103 => true
  | _ => false

/-- Contribution of a thread to the number of workers past line 98. -/
def exitedNum (pc : Pc) : Nat := if exited pc = true then 1 else 0

/-- Counter invariant of a pool with `n` workers: no worker is in a
`work == NULL` branch; `thread_cnt` is at most `n` and at least `n` minus the
number of workers past line 98; and so is every value of `thread_cnt` that a
worker has loaded on line 98 and not yet stored. -/
structure CntInv (n : Nat) (s : State) : Prop where
  nonull : ∀ t, nullWork (s.pcs t) = false
  le : s.tm.thread_cnt ≤ n
  ge : n ≤ s.tm.thread_cnt + threadSum exitedNum s.pcs n
  stale : ∀ t v, s.pcs t = Pc.w98s v → v ≤ n ∧ n ≤ v + threadSum exitedNum s.pcs n

/-- Bounds on `active_cnt` in a pool with `n` workers, with or without `stop`:
`active_cnt` is at most `n` and at least the number of workers between increment
and decrement, and so is every value of `active_cnt` that a worker has loaded on
line 91 and not yet stored. -/
structure ActBound (n : Nat) (s : State) : Prop where
  le : s.tm.active_cnt ≤ n
  ge : threadSum activeNum s.pcs n ≤ s.tm.active_cnt
  stale : ∀ t v, s.pcs t = Pc.w91s v → threadSum activeNum s.pcs n ≤ v ∧ v ≤ n

/-! ## Sample states and schedules -/

/-- Sample pool with one queued item at address 5. -/
def demoPool : tpool :=
  { work_first := some 5, work_last := some 5, thread_cnt := 2, active_cnt := 0, stop := false }

/-- Heap in which every block holds action 1 with argument 0 and a null link. -/
def demoHeap : Heap := fun _ => { func := some 1, arg := 0, next := none }

/-- Schedule on a pool of one worker: client 1 submits action 7 with argument 3
in block 10, then worker 0 dequeues it. -/
def submitSchedule : List Label :=
  [Label.call 1 (Call.add (some 7) 3 (some 10)), Label.exec 1 none, Label.exec 1 none,
   Label.exec 1 none, Label.exec 1 none,
   Label.exec 0 none, Label.exec 0 none, Label.exec 0 none, Label.exec 0 none]

/-- State reached by `submitSchedule`: the submitted item is in flight. -/
def submitState : State := (run (init 1) submitSchedule).getD (init 1)

/-- Schedule on a pool of one worker: client 1 submits action 7 with argument 3
in block 10; then it calls `tpool_destroy`, which sets `stop`, broadcasts and
blocks on line 140 while the item is still queued and worker 0 is at line 71. -/
def stopSchedule : List Label :=
  [Label.call 1 (Call.add (some 7) 3 (some 10)), Label.exec 1 none, Label.exec 1 none,
   Label.exec 1 none, Label.exec 1 none,
   Label.call 1 Call.destroy, Label.exec 1 none, Label.exec 1 none, Label.exec 1 none,
   Label.exec 1 none, Label.exec 1 none]

/-- State reached by `stopSchedule`. -/
def stopState : State := (run (init 1) stopSchedule).getD (init 1)

/-- Schedule for `tpool_create(1)` followed at once by `tpool_destroy`: thread 1
runs `tpool_destroy` until it blocks on line 140, worker 0 takes its exit path
(lines 71-76, 98-100) and its signal wakes thread 1, which then finishes
`tpool_destroy` while worker 0 has not yet run line 102. -/
def destroyRaceSchedule : List Label :=
  [Label.call 1 Call.destroy, Label.exec 1 none, Label.exec 1 none, Label.exec 1 none,
   Label.exec 1 none, Label.exec 1 none,
   Label.exec 0 none, Label.exec 0 none, Label.exec 0 none, Label.exec 0 none,
   Label.exec 0 none, Label.exec 0 (some 1),
   Label.exec 1 none, Label.exec 1 none, Label.exec 1 none, Label.exec 1 none]

/-- Schedule for `tpool_create(2)` followed at once by `tpool_destroy`: thread 2
runs `tpool_destroy` until it blocks on line 140, both workers leave their loop
(lines 71-76), both load `thread_cnt` on line 98 before either stores it, and then
both finish. -/
def lostUpdateSchedule : List Label :=
  [Label.call 2 Call.destroy, Label.exec 2 none, Label.exec 2 none, Label.exec 2 none,
   Label.exec 2 none, Label.exec 2 none,
   Label.exec 0 none, Label.exec 0 none, Label.exec 0 none,
   Label.exec 1 none, Label.exec 1 none, Label.exec 1 none,
   Label.exec 0 none, Label.exec 1 none, Label.exec 0 none, Label.exec 1 none,
   Label.exec 0 none, Label.exec 1 none, Label.exec 0 none, Label.exec 1 none]

/-- State reached by `lostUpdateSchedule`. -/
def lostUpdateState : State := (run (init 2) lostUpdateSchedule).getD (init 2)

/-- Schedule for `tpool_create(3)` followed at once by `tpool_destroy`: thread 3
runs `tpool_destroy` until it blocks on line 140 and the three workers leave
their loop (lines 71-76).  Worker 0 loads `thread_cnt` (3) on line 98; worker 1
loads 3 and stores 2; worker 2 loads 2 and stores 1. -/
def staleStoreSchedule : List Label :=
  [Label.call 3 Call.destroy, Label.exec 3 none, Label.exec 3 none, Label.exec 3 none,
   Label.exec 3 none, Label.exec 3 none,
   Label.exec 0 none, Label.exec 0 none, Label.exec 0 none,
   Label.exec 1 none, Label.exec 1 none, Label.exec 1 none,
   Label.exec 2 none, Label.exec 2 none, Label.exec 2 none,
   Label.exec 0 none,
   Label.exec 1 none, Label.exec 1 none,
   Label.exec 2 none, Label.exec 2 none]

/-- State reached by `staleStoreSchedule`: worker 0 is about to store the stale
value. -/
def staleStoreState : State := (run (init 3) staleStoreSchedule).getD (init 3)

/-- State after worker 0 has run its store of line 98 in `staleStoreState`. -/
def staleStoreNext : State :=
  (step staleStoreState (Label.exec 0 none)).getD staleStoreState

/-- Schedule for `tpool_create(1)` followed at once by `tpool_destroy`: thread 1
runs `tpool_destroy` until it blocks on line 140, then worker 0 runs lines 71-76
and stands before line 98. -/
def exitPathSchedule : List Label :=
  [Label.call 1 Call.destroy, Label.exec 1 none, Label.exec 1 none, Label.exec 1 none,
   Label.exec 1 none, Label.exec 1 none,
   Label.exec 0 none, Label.exec 0 none, Label.exec 0 none]

/-- State reached by `exitPathSchedule`. -/
def exitPathState : State := (run (init 1) exitPathSchedule).getD (init 1)

/-- State `k` statements of worker 0 after `exitPathState`; the signal of line
100 wakes thread 1. -/
def exitPathAfter : Nat → State
  | 0 => exitPathState
  | 1 => (run exitPathState [Label.exec 0 none]).getD exitPathState
  | 2 => (run exitPathState [Label.exec 0 none, Label.exec 0 none]).getD exitPathState
  | 3 => (run exitPathState
      [Label.exec 0 none, Label.exec 0 none, Label.exec 0 (some 1)]).getD exitPathState
  | _ => (run exitPathState
      [Label.exec 0 none, Label.exec 0 none, Label.exec 0 (some 1),
       Label.exec 0 none]).getD exitPathState

/-- Schedule on a pool of two workers.  Client 2 submits action 7 with argument 3
in block 10; worker 1 dequeues it and starts it; worker 0 finds the queue empty
and blocks on line 73; client 3 calls `tpool_wait` and blocks on line 180.  Worker
1 finishes the item, and its signal of line 93 wakes worker 0.  Both workers then
find the queue empty and block on line 73. -/
def lostWakeupSchedule : List Label :=
  [Label.call 2 (Call.add (some 7) 3 (some 10)), Label.exec 2 none, Label.exec 2 none,
   Label.exec 2 none, Label.exec 2 none,
   Label.exec 1 none, Label.exec 1 none, Label.exec 1 none, Label.exec 1 none,
   Label.exec 1 none,
   Label.exec 0 none, Label.exec 0 none, Label.exec 0 none,
   Label.call 3 Call.wait, Label.exec 3 none, Label.exec 3 none, Label.exec 3 none,
   Label.exec 1 none, Label.exec 1 none, Label.exec 1 none, Label.exec 1 none,
   Label.exec 1 none, Label.exec 1 (some 0), Label.exec 1 none,
   Label.exec 0 none, Label.exec 0 none, Label.exec 0 none,
   Label.exec 1 none, Label.exec 1 none, Label.exec 1 none]

/-- State reached by `lostWakeupSchedule`. -/
def lostWakeupState : State := (run (init 2) lostWakeupSchedule).getD (init 2)

/-- Schedule on a pool of one worker: client 1 submits action 7 with argument 3
in block 10, then worker 0 takes the mutex and passes the wait loop and the test
of `stop`, and stands before the dequeue of line 79. -/
def dequeueSchedule : List Label :=
  [Label.call 1 (Call.add (some 7) 3 (some 10)), Label.exec 1 none, Label.exec 1 none,
   Label.exec 1 none, Label.exec 1 none,
   Label.exec 0 none, Label.exec 0 none, Label.exec 0 none]

/-- State reached by `dequeueSchedule`. -/
def dequeueState : State := (run (init 1) dequeueSchedule).getD (init 1)

/-- Schedule on a pool of three workers.  Client 3 submits two items (blocks 10 and
11); workers 0 and 1 dequeue one each, run its action and free it (lines 71-88).
Thread 4 calls `tpool_destroy`, sets `stop`, broadcasts and blocks on line 140.
Worker 2 leaves its loop through the unlock of line 76, runs lines 98-100 and
stands before the unlock of line 102.  Worker 1 takes the mutex on line 90;
worker 2 runs the unlock of line 102, which frees the mutex that worker 1 holds;
worker 0 takes the mutex on line 90. -/
def lostDecrementPrefix : List Label :=
  [Label.call 3 (Call.add (some 7) 3 (some 10)), Label.exec 3 none, Label.exec 3 none,
   Label.exec 3 none, Label.exec 3 none,
   Label.call 3 (Call.add (some 7) 4 (some 11)), Label.exec 3 none, Label.exec 3 none,
   Label.exec 3 none, Label.exec 3 none,
   Label.exec 0 none, Label.exec 0 none, Label.exec 0 none, Label.exec 0 none,
   Label.exec 0 none, Label.exec 0 none, Label.exec 0 none,
   Label.exec 1 none, Label.exec 1 none, Label.exec 1 none, Label.exec 1 none,
   Label.exec 1 none, Label.exec 1 none, Label.exec 1 none,
   Label.call 4 Call.destroy, Label.exec 4 none, Label.exec 4 none, Label.exec 4 none,
   Label.exec 4 none, Label.exec 4 none,
   Label.exec 2 none, Label.exec 2 none, Label.exec 2 none, Label.exec 2 none,
   Label.exec 2 none, Label.exec 2 none,
   Label.exec 1 none,
   Label.exec 2 none,
   Label.exec 0 none]

/-- The race on line 91 after `lostDecrementPrefix`: workers 0 and 1 both load
`active_cnt`, then both store the loaded value minus one. -/
def lostDecrementRace : List Label :=
  [Label.exec 0 none, Label.exec 1 none, Label.exec 0 none, Label.exec 1 none]

/-- Rest of the shutdown after the race: workers 0 and 1 run lines 92-95, find
`stop` set on line 75 and leave through lines 76 and 98-103; the last
`thread_cnt--` gives 0 and its signal wakes thread 4, which leaves the loop of
line 139 and runs the unlock of line 142. -/
def lostDecrementRest : List Label :=
  [Label.exec 0 none, Label.exec 0 none, Label.exec 0 none, Label.exec 0 none,
   Label.exec 0 none, Label.exec 0 none, Label.exec 0 none, Label.exec 0 none,
   Label.exec 0 none,
   Label.exec 1 none, Label.exec 1 none, Label.exec 1 none, Label.exec 1 none,
   Label.exec 1 none, Label.exec 1 none, Label.exec 1 none, Label.exec 1 (some 4),
   Label.exec 1 none,
   Label.exec 4 none, Label.exec 4 none, Label.exec 4 none]

/-- State reached by `lostDecrementPrefix`: workers 0 and 1 both stand before
line 91. -/
def lostDecrementBefore : State := (run (init 3) lostDecrementPrefix).getD (init 3)

/-- State reached by `lostDecrementPrefix` and `lostDecrementRace`. -/
def lostDecrementAfter : State :=
  (run lostDecrementBefore lostDecrementRace).getD lostDecrementBefore

/-- State reached by `lostDecrementPrefix`, `lostDecrementRace` and
`lostDecrementRest`. -/
def lostDecrementEnd : State :=
  (run lostDecrementAfter lostDecrementRest).getD lostDecrementAfter

/-- Schedule on a pool of one worker: client 1 submits action 7 with argument 3
in block 10; worker 0 dequeues it, runs it and goes through lines 90-95 back to
line 71. -/
def servedSchedule : List Label :=
  [Label.call 1 (Call.add (some 7) 3 (some 10)), Label.exec 1 none, Label.exec 1 none,
   Label.exec 1 none, Label.exec 1 none,
   Label.exec 0 none, Label.exec 0 none, Label.exec 0 none, Label.exec 0 none,
   Label.exec 0 none, Label.exec 0 none, Label.exec 0 none, Label.exec 0 none,
   Label.exec 0 none, Label.exec 0 none, Label.exec 0 none, Label.exec 0 none]

/-- State reached by `servedSchedule`: the submitted item has run. -/
def servedState : State := (run (init 1) servedSchedule).getD (init 1)

/-- Schedule `servedSchedule` followed by a call of `tpool_wait` by client 1,
which takes the mutex and passes the test of line 179. -/
def drainedSchedule : List Label :=
  servedSchedule ++ [Label.call 1 Call.wait, Label.exec 1 none, Label.exec 1 none]

/-- State reached by `drainedSchedule`. -/
def drainedState : State := (run (init 1) drainedSchedule).getD (init 1)

/-- Schedule for a pool returned by `tpool_create(1)` whose only `pthread_create`
failed: thread 1 calls `tpool_destroy`, sets `stop`, broadcasts, reads
`thread_cnt == 1` and blocks on line 140. -/
def unbornSchedule : List Label :=
  [Label.call 1 Call.destroy, Label.exec 1 none, Label.exec 1 none, Label.exec 1 none,
   Label.exec 1 none, Label.exec 1 none]

/-- State reached by `unbornSchedule` from a pool without any worker thread. -/
def unbornState : State :=
  (run (initWith 1 (fun _ => false)) unbornSchedule).getD (initWith 1 (fun _ => false))

/-! ## Queue lemmas -/

theorem heap_set_same (heap : Heap) (a : Nat) (v : tpool_work) : heap.set a v a = v := by
  simp [Heap.set]

theorem heap_set_other (heap : Heap) (a b : Nat) (v : tpool_work) (h : b ≠ a) :
    heap.set a v b = heap b := by
  simp [Heap.set, h]

theorem lseg_nil (heap : Heap) (p : Option Nat) : lseg heap p [] ↔ p = none := Iff.rfl

theorem lseg_cons (heap : Heap) (p : Option Nat) (a : Nat) (l : List Nat) :
    lseg heap p (a :: l) ↔ p = some a ∧ lseg heap (heap a).next l := Iff.rfl

/-- A list segment only depends on the `next` fields of its own nodes. -/
theorem lseg_congr (heap heap1 : Heap) : ∀ (l : List Nat) (p : Option Nat),
    (∀ a ∈ l, (heap1 a).next = (heap a).next) → lseg heap p l → lseg heap1 p l
  | [], _, _, h => h
  | a :: l, p, hn, h => by
    rw [lseg_cons] at h ⊢
    refine ⟨h.1, ?_⟩
    rw [hn a (List.mem_cons_self a l)]
    exact lseg_congr heap heap1 l _ (fun b hb => hn b (List.mem_cons_of_mem a hb)) h.2

/-- The node list of a segment is determined by the heap and the start pointer. -/
theorem lseg_unique (heap : Heap) : ∀ (l1 l2 : List Nat) (p : Option Nat),
    lseg heap p l1 → lseg heap p l2 → l1 = l2
  | [], [], _, _, _ => rfl
  | [], b :: l2, p, h1, h2 => by
    rw [lseg_nil] at h1; rw [lseg_cons] at h2; rw [h1] at h2; exact absurd h2.1 (by simp)
  | a :: l1, [], p, h1, h2 => by
    rw [lseg_nil] at h2; rw [lseg_cons] at h1; rw [h2] at h1; exact absurd h1.1 (by simp)
  | a :: l1, b :: l2, p, h1, h2 => by
    rw [lseg_cons] at h1 h2
    have hab : a = b := by
      have := h1.1.symm.trans h2.1
      exact Option.some.inj this
    subst hab
    rw [lseg_unique heap l1 l2 _ h1.2 h2.2]

/-- Linking a new last node behind the old last node extends the segment. -/
theorem lseg_snoc (heap : Heap) (m last : Nat) : ∀ (l : List Nat) (p : Option Nat),
    lseg heap p l → l.Nodup → l.getLast? = some last → m ∉ l → (heap m).next = none →
    lseg (heap.set last { heap last with next := some m }) p (l ++ [m])
  | [], _, _, _, hl, _, _ => by simp at hl
  | [a], p, h, _, hl, hm, hnext => by
    have hla : a = last := by simpa using hl
    subst hla
    have hma : m ≠ a := by
      intro e; exact hm (by simp [e])
    rw [lseg_cons] at h
    show lseg _ p (a :: [m])
    rw [lseg_cons, lseg_cons, lseg_nil]
    refine ⟨h.1, ?_, ?_⟩
    · rw [heap_set_same]
    · rw [heap_set_other _ _ _ _ hma]; exact hnext
  | a :: b :: l, p, h, hnd, hl, hm, hnext => by
    rw [lseg_cons] at h
    have hl2 : (b :: l).getLast? = some last := by
      rw [List.getLast?_cons_cons] at hl; exact hl
    have hlast_mem : last ∈ b :: l := List.mem_of_getLast?_eq_some hl2
    have hnd2 := List.nodup_cons.mp hnd
    have hne : a ≠ last := by
      intro e; exact hnd2.1 (e ▸ hlast_mem)
    have hm2 : m ∉ b :: l := fun hc => hm (List.mem_cons_of_mem a hc)
    show lseg _ p (a :: ((b :: l) ++ [m]))
    rw [lseg_cons]
    refine ⟨h.1, ?_⟩
    rw [heap_set_other _ _ _ _ hne]
    exact lseg_snoc heap m last (b :: l) _ h.2 hnd2.2 hl2 hm2 hnext

theorem queue_is_first_none (p : tpool) (heap : Heap) (l : List Nat)
    (h : queue_is p heap l) : p.work_first = none ↔ l = [] := by
  obtain ⟨hs, _, _⟩ := h
  cases l with
  | nil => simpa using hs
  | cons a l => rw [lseg_cons] at hs; simp [hs.1]

/-- Function `enqueue` on a well-formed queue appends the new node. -/
theorem enqueue_queue_is (p : tpool) (heap : Heap) (l : List Nat) (m : Nat)
    (hq : queue_is p heap l) (hm : m ∉ l) (hnext : (heap m).next = none) :
    ∃ p1 heap1, enqueue p heap m = some (p1, heap1) ∧ queue_is p1 heap1 (l ++ [m]) ∧
      (∀ a, item heap1 a = item heap a) ∧ (∀ a, a ∉ l → heap1 a = heap a) ∧
      p1.thread_cnt = p.thread_cnt ∧ p1.active_cnt = p.active_cnt ∧ p1.stop = p.stop := by
  have hnd : (l ++ [m]).Nodup := by
    rw [List.nodup_append]
    refine ⟨hq.2.1, by simp, ?_⟩
    intro a ha hb
    have : a = m := by simpa using hb
    exact hm (this ▸ ha)
  cases l with
  | nil =>
    have hf : p.work_first = none := (queue_is_first_none p heap [] hq).2 rfl
    refine ⟨{ p with work_first := some m, work_last := some m }, heap, ?_, ?_, ?_⟩
    · simp [enqueue, hf]
    · refine ⟨?_, hnd, rfl⟩
      show lseg heap (some m) [m]
      rw [lseg_cons, lseg_nil]; exact ⟨rfl, hnext⟩
    · simp
  | cons a l =>
    obtain ⟨hs, hnd0, hlast⟩ := hq
    have hfirst : p.work_first = some a := ((lseg_cons heap _ a l).1 hs).1
    obtain ⟨last, hlast2⟩ : ∃ last, (a :: l).getLast? = some last := by
      cases h : (a :: l).getLast? with
      | none => simp at h
      | some x => exact ⟨x, rfl⟩
    have hlast3 : p.work_last = some last := by rw [hlast, hlast2]
    refine ⟨{ p with work_last := some m }, heap.set last { heap last with next := some m },
      ?_, ?_, ?_, ?_, rfl, rfl, rfl⟩
    · simp [enqueue, hfirst, hlast3]
    · refine ⟨lseg_snoc heap m last (a :: l) _ hs hnd0 hlast2 hm hnext, hnd, ?_⟩
      exact (List.getLast?_concat (a :: l)).symm
    · intro b
      by_cases hb : b = last
      · subst hb; simp [item, heap_set_same]
      · simp [item, heap_set_other _ _ _ _ hb]
    · intro b hb
      have : b ≠ last := by
        intro e; exact hb (e ▸ List.mem_of_getLast?_eq_some hlast2)
      exact heap_set_other _ _ _ _ this

theorem queue_is_congr (p : tpool) (heap heap1 : Heap) (l : List Nat)
    (h : ∀ a ∈ l, heap1 a = heap a) (hq : queue_is p heap l) : queue_is p heap1 l :=
  ⟨lseg_congr heap heap1 l _ (fun a ha => by rw [h a ha]) hq.1, hq.2.1, hq.2.2⟩

/-- A successful `tpool_add_work` appends the new node and leaves the other
payloads and the counters alone. -/
theorem add_work_enqueues (p : tpool) (heap : Heap) (l : List Nat) (f arg m : Nat)
    (hq : queue_is p heap l) (hm : m ∉ l) :
    ∃ p1 heap1, tpool_add_work (some p) heap (some f) arg (some m) = some (some p1, heap1, true) ∧
      queue_is p1 heap1 (l ++ [m]) ∧ item heap1 m = (some f, arg) ∧
      (∀ a ∈ l, item heap1 a = item heap a) ∧
      p1.thread_cnt = p.thread_cnt ∧ p1.active_cnt = p.active_cnt ∧ p1.stop = p.stop := by
  have hne : ∀ a ∈ l, a ≠ m := fun a ha e => hm (e ▸ ha)
  have hq0 : queue_is p (heap.set m { func := some f, arg := arg, next := none }) l :=
    queue_is_congr p heap _ l (fun a ha => heap_set_other _ _ _ _ (hne a ha)) hq
  obtain ⟨p1, heap1, he, hq1, hitem, _, h1, h2, h3⟩ :=
    enqueue_queue_is p _ l m hq0 hm (by rw [heap_set_same])
  refine ⟨p1, heap1, ?_, hq1, ?_, ?_, h1, h2, h3⟩
  · simp [tpool_add_work, tpool_work_create, he]
  · rw [hitem]; simp [item, heap_set_same]
  · intro a ha
    rw [hitem]; simp [item, heap_set_other _ _ _ _ (hne a ha)]

/-- Function `tpool_work_get` on a non-empty well-formed queue removes the head. -/
theorem work_get_cons (p : tpool) (heap : Heap) (a : Nat) (l : List Nat)
    (hq : queue_is p heap (a :: l)) :
    ∃ p1, tpool_work_get (some p) heap = (some p1, some a) ∧ queue_is p1 heap l ∧
      p1.thread_cnt = p.thread_cnt ∧ p1.active_cnt = p.active_cnt ∧ p1.stop = p.stop := by
  obtain ⟨hs, hnd, hlast⟩ := hq
  rw [lseg_cons] at hs
  obtain ⟨hfirst, hrest⟩ := hs
  cases l with
  | nil =>
    rw [lseg_nil] at hrest
    refine ⟨{ p with work_first := none, work_last := none }, ?_, ⟨rfl, by simp, rfl⟩, rfl, rfl, rfl⟩
    simp [tpool_work_get, hfirst, hrest]
  | cons b l =>
    have hb : (heap a).next = some b := ((lseg_cons heap _ b l).1 hrest).1
    refine ⟨{ p with work_first := some b }, ?_, ⟨?_, (List.nodup_cons.mp hnd).2, ?_⟩, rfl, rfl, rfl⟩
    · simp [tpool_work_get, hfirst, hb]
    · show lseg heap (some b) (b :: l)
      rw [← hb]; exact hrest
    · show p.work_last = (b :: l).getLast?
      rw [hlast, List.getLast?_cons_cons]

theorem work_get_nil (p : tpool) (heap : Heap) (hq : queue_is p heap []) :
    tpool_work_get (some p) heap = (some p, none) := by
  have hf : p.work_first = none := (queue_is_first_none p heap [] hq).2 rfl
  simp [tpool_work_get, hf]

theorem spawn_apply (created : Nat → Bool) : ∀ (k i : Nat) (pcs : Nat → Pc) (t : Nat),
    spawn created pcs i k t
      = if i ≤ t ∧ t < i + k ∧ created t = true then Pc.w71 else pcs t
  | 0, i, pcs, t => by
    have : ¬ (i ≤ t ∧ t < i + 0 ∧ created t = true) := by omega
    rw [spawn, if_neg this]
  | k + 1, i, pcs, t => by
    rw [spawn, spawn_apply created k (i + 1) _ t]
    by_cases h1 : i + 1 ≤ t ∧ t < i + 1 + k ∧ created t = true
    · have h2 : i ≤ t ∧ t < i + (k + 1) ∧ created t = true := ⟨by omega, by omega, h1.2.2⟩
      rw [if_pos h1, if_pos h2]
    · rw [if_neg h1]
      by_cases h3 : t = i
      · by_cases hc : created i = true
        · have h2 : i ≤ t ∧ t < i + (k + 1) ∧ created t = true := ⟨by omega, by omega, h3 ▸ hc⟩
          rw [if_pos h2, if_pos hc]; simp [setPc, h3]
        · have h2 : ¬ (i ≤ t ∧ t < i + (k + 1) ∧ created t = true) := by
            intro h; exact hc (h3 ▸ h.2.2)
          rw [if_neg h2, if_neg hc]
      · have h2 : ¬ (i ≤ t ∧ t < i + (k + 1) ∧ created t = true) := by
          intro h; exact h1 ⟨by omega, by omega, h.2.2⟩
        rw [if_neg h2]
        by_cases hc : created i = true
        · rw [if_pos hc]; simp [setPc, h3]
        · rw [if_neg hc]

/-! ## Claims on the sequential layer -/

/-- C2 (successful submit): with a non-null handle, a non-null action and a
successful allocation of a block `m` outside the queue, `tpool_add_work` returns
`true`, the queue becomes the old queue followed by the one new item carrying the
given action and payload, the payloads already queued are kept, and `thread_cnt`,
`active_cnt` and `stop` are unchanged. -/
theorem tpool_add_work_success (p : tpool) (heap : Heap) (l : List Nat) (f arg m : Nat)
    (hq : queue_is p heap l) (hm : m ∉ l) :
    ∃ p1 heap1, tpool_add_work (some p) heap (some f) arg (some m) = some (some p1, heap1, true) ∧
      queue_is p1 heap1 (l ++ [m]) ∧ item heap1 m = (some f, arg) ∧
      (∀ a ∈ l, item heap1 a = item heap a) ∧
      p1.thread_cnt = p.thread_cnt ∧ p1.active_cnt = p.active_cnt ∧ p1.stop = p.stop :=
  add_work_enqueues p heap l f arg m hq hm

theorem tpool_add_work_success_witness :
    queue_is demoPool demoHeap [5] ∧ 7 ∉ [5] ∧
    ∃ p1 heap1, tpool_add_work (some demoPool) demoHeap (some 3) 9 (some 7)
        = some (some p1, heap1, true) ∧
      queue_is p1 heap1 ([5] ++ [7]) ∧ item heap1 7 = (some 3, 9) ∧
      (∀ a ∈ [5], item heap1 a = item demoHeap a) ∧
      p1.thread_cnt = demoPool.thread_cnt ∧ p1.active_cnt = demoPool.active_cnt ∧
      p1.stop = demoPool.stop :=
  ⟨by decide, by decide,
    tpool_add_work_success demoPool demoHeap [5] 3 9 7 (by decide) (by decide)⟩

/-- C3 (rejected submit): if the handle is null, the action is null or the
allocation fails, `tpool_add_work` returns `false` and leaves the pool and the
heap as they were; and whenever it returns `false`, one of these three holds. -/
theorem tpool_add_work_rejected (tm : Option tpool) (heap : Heap) (func : thread_func_t)
    (arg : Nat) (m : Option Nat) :
    (tm = none ∨ func = none ∨ m = none →
      tpool_add_work tm heap func arg m = some (tm, heap, false)) ∧
    (∀ tm1 heap1, tpool_add_work tm heap func arg m = some (tm1, heap1, false) →
      tm = none ∨ func = none ∨ m = none) := by
  constructor
  · intro h
    cases tm with
    | none => simp [tpool_add_work]
    | some p =>
      cases func with
      | none => simp [tpool_add_work]
      | some f =>
        cases m with
        | none => simp [tpool_add_work, tpool_work_create]
        | some w => simp at h
  · intro tm1 heap1 h
    cases tm with
    | none => exact Or.inl rfl
    | some p =>
      cases func with
      | none => exact Or.inr (Or.inl rfl)
      | some f =>
        cases m with
        | none => exact Or.inr (Or.inr rfl)
        | some w =>
          exfalso
          simp only [tpool_add_work, tpool_work_create] at h
          cases he : enqueue p (heap.set w { func := some f, arg := arg, next := none }) w with
          | none => rw [he] at h; simp at h
          | some r => rw [he] at h; simp at h

/-- C8 (dequeue): with a null handle `tpool_work_get` returns `NULL`; with a pool
whose queue is `l` it returns `NULL` exactly when the queue is empty, and then the
pool is unchanged; otherwise it returns the head, the queue that remains is the old
queue without its head, and `thread_cnt`, `active_cnt` and `stop` are unchanged. -/
theorem tpool_work_get_spec (heap : Heap) (p : tpool) (l : List Nat)
    (hq : queue_is p heap l) :
    tpool_work_get none heap = (none, none) ∧
    ((tpool_work_get (some p) heap).2 = none ↔ l = []) ∧
    ((tpool_work_get (some p) heap).2 = none ↔ p.work_first = none) ∧
    (l = [] → tpool_work_get (some p) heap = (some p, none)) ∧
    (∀ a l1, l = a :: l1 →
      ∃ p1, tpool_work_get (some p) heap = (some p1, some a) ∧ queue_is p1 heap l1 ∧
        p1.thread_cnt = p.thread_cnt ∧ p1.active_cnt = p.active_cnt ∧ p1.stop = p.stop) := by
  have hcons : ∀ a l1, l = a :: l1 →
      ∃ p1, tpool_work_get (some p) heap = (some p1, some a) ∧ queue_is p1 heap l1 ∧
        p1.thread_cnt = p.thread_cnt ∧ p1.active_cnt = p.active_cnt ∧ p1.stop = p.stop := by
    intro a l1 e
    subst e
    exact work_get_cons p heap a l1 hq
  have hnil : l = [] → tpool_work_get (some p) heap = (some p, none) := by
    intro e
    subst e
    exact work_get_nil p heap hq
  have hiff : (tpool_work_get (some p) heap).2 = none ↔ l = [] := by
    constructor
    · intro h
      cases l with
      | nil => rfl
      | cons a l1 =>
        obtain ⟨p1, he, _⟩ := hcons a l1 rfl
        rw [he] at h; simp at h
    · intro e; rw [hnil e]
  exact ⟨rfl, hiff, hiff.trans (queue_is_first_none p heap l hq).symm, hnil, hcons⟩

theorem tpool_work_get_spec_witness :
    queue_is demoPool demoHeap [5] ∧
    (tpool_work_get none demoHeap = (none, none) ∧
    ((tpool_work_get (some demoPool) demoHeap).2 = none ↔ [5] = []) ∧
    ((tpool_work_get (some demoPool) demoHeap).2 = none ↔ demoPool.work_first = none) ∧
    ([5] = [] → tpool_work_get (some demoPool) demoHeap = (some demoPool, none)) ∧
    (∀ a l1, [5] = a :: l1 →
      ∃ p1, tpool_work_get (some demoPool) demoHeap = (some p1, some a) ∧
        queue_is p1 demoHeap l1 ∧
        p1.thread_cnt = demoPool.thread_cnt ∧ p1.active_cnt = demoPool.active_cnt ∧
        p1.stop = demoPool.stop)) :=
  ⟨by decide, tpool_work_get_spec demoHeap demoPool [5] (by decide)⟩


/-- Invariant of a run of queue operations: the queue stays well formed and the
initial payloads followed by the accepted ones are the returned payloads followed
by the payloads still queued. -/
theorem runOps_fifo : ∀ (ops : List QOp) (p : tpool) (heap : Heap) (l : List Nat),
    queue_is p heap l → FreshOps l ops →
    ∃ r l1, runOps ops p heap = some r ∧ queue_is r.tm r.heap l1 ∧
      l.map (item heap) ++ r.accepted = r.returned ++ l1.map (item r.heap)
  | [], p, heap, l, hq, _ => ⟨_, l, rfl, hq, by simp⟩
  | QOp.enq none arg m :: ops, p, heap, l, hq, hf => by
    obtain ⟨r, l1, hr, hq1, he⟩ := runOps_fifo ops p heap l hq hf
    have hrun : runOps (QOp.enq none arg m :: ops) p heap
        = some { r with accepted := [] ++ r.accepted } := by
      simp [runOps, tpool_add_work, hr]
    exact ⟨_, l1, hrun, hq1, by simpa using he⟩
  | QOp.enq (some f) arg none :: ops, p, heap, l, hq, hf => by
    obtain ⟨r, l1, hr, hq1, he⟩ := runOps_fifo ops p heap l hq hf
    have hrun : runOps (QOp.enq (some f) arg none :: ops) p heap
        = some { r with accepted := [] ++ r.accepted } := by
      simp [runOps, tpool_add_work, tpool_work_create, hr]
    exact ⟨_, l1, hrun, hq1, by simpa using he⟩
  | QOp.enq (some f) arg (some w) :: ops, p, heap, l, hq, hf => by
    obtain ⟨hw, hf1⟩ : w ∉ l ∧ FreshOps (l ++ [w]) ops := hf
    obtain ⟨p1, heap1, hadd, hq1, hitem, hold, _⟩ := add_work_enqueues p heap l f arg w hq hw
    obtain ⟨r, l1, hr, hq2, he⟩ := runOps_fifo ops p1 heap1 (l ++ [w]) hq1 hf1
    have hrun : runOps (QOp.enq (some f) arg (some w) :: ops) p heap
        = some { r with accepted := [(some f, arg)] ++ r.accepted } := by
      simp [runOps, hadd, hr]
    have hmap : (l ++ [w]).map (item heap1) = l.map (item heap) ++ [(some f, arg)] := by
      rw [List.map_append, List.map_singleton, hitem]
      congr 1
      exact List.map_congr_left hold
    rw [hmap] at he
    exact ⟨_, l1, hrun, hq2, by simpa using he⟩
  | QOp.deq :: ops, p, heap, [], hq, hf => by
    obtain ⟨r, l1, hr, hq1, he⟩ := runOps_fifo ops p heap [] hq hf
    refine ⟨r, l1, ?_, hq1, he⟩
    simp only [runOps, work_get_nil p heap hq, hr]
  | QOp.deq :: ops, p, heap, a :: l, hq, hf => by
    obtain ⟨p1, hget, hq1, _⟩ := work_get_cons p heap a l hq
    obtain ⟨r, l1, hr, hq2, he⟩ := runOps_fifo ops p1 heap l hq1 hf
    have hrun : runOps (QOp.deq :: ops) p heap
        = some { r with returned := item heap a :: r.returned } := by
      simp [runOps, hget, hr]
    refine ⟨_, l1, hrun, hq2, ?_⟩
    simp only [List.map_cons, List.cons_append]
    rw [he]

/-! ## Basic facts about the transition function -/

theorem setPc_same (pcs : Nat → Pc) (t : Nat) (pc : Pc) : setPc pcs t pc t = pc := by
  simp [setPc]

theorem setPc_other (pcs : Nat → Pc) (t u : Nat) (pc : Pc) (h : u ≠ t) :
    setPc pcs t pc u = pcs u := by
  simp [setPc, h]

theorem lock_eq_some (s s1 : State) (t : Nat) (pc : Pc) :
    lock s t pc = some s1 ↔
      s.work_mutex = none ∧ s1 = goto { s with work_mutex := some t } t pc := by
  unfold lock
  split
  · rename_i h; simp [h, eq_comm]
  · rename_i h; simp [h]

theorem cond_signal_eq_some (s s1 : State) (u : Option Nat) :
    cond_signal s u = some s1 ↔
      (u = none ∧ s.work_cond = [] ∧ s1 = s) ∨
      (∃ v, u = some v ∧ v ∈ s.work_cond ∧
        s1 = { s with work_cond := s.work_cond.erase v,
                      pcs := setPc s.pcs v (wake (s.pcs v)) }) := by
  cases u with
  | none =>
    unfold cond_signal
    by_cases h : s.work_cond = [] <;> simp [h, eq_comm]
  | some v =>
    unfold cond_signal
    by_cases h : v ∈ s.work_cond <;> simp [h, eq_comm]

theorem signal_goto_eq_some (s s1 : State) (t : Nat) (pc : Pc) (u : Option Nat) :
    (cond_signal s u).map (fun s2 => goto s2 t pc) = some s1 ↔
      (u = none ∧ s.work_cond = [] ∧ s1 = goto s t pc) ∨
      (∃ v, u = some v ∧ v ∈ s.work_cond ∧
        s1 = goto { s with work_cond := s.work_cond.erase v,
                           pcs := setPc s.pcs v (wake (s.pcs v)) } t pc) := by
  rw [Option.map_eq_some']
  constructor
  · rintro ⟨a, ha, rfl⟩
    rcases (cond_signal_eq_some s a u).1 ha with ⟨h1, h2, rfl⟩ | ⟨v, h1, h2, rfl⟩
    · exact Or.inl ⟨h1, h2, rfl⟩
    · exact Or.inr ⟨v, h1, h2, rfl⟩
  · rintro (⟨h1, h2, rfl⟩ | ⟨v, h1, h2, rfl⟩)
    · exact ⟨s, (cond_signal_eq_some s s u).2 (Or.inl ⟨h1, h2, rfl⟩), rfl⟩
    · exact ⟨_, (cond_signal_eq_some s _ u).2 (Or.inr ⟨v, h1, h2, rfl⟩), rfl⟩

/-- Every transition of `step` is one of the transitions listed by `Effect`. -/
theorem step_effect (s s1 : State) (lab : Label) (h : step s lab = some s1) :
    Effect s lab s1 := by
  cases lab with
  | call t c =>
    simp only [step] at h
    split at h
    · rename_i hidle
      cases c with
      | add func arg m =>
        simp only [enter] at h
        split at h
        · cases h; exact Effect.add_reject t _ arg m hidle (Or.inl rfl)
        · rename_i f
          cases m with
          | none =>
            simp only [tpool_work_create] at h
            cases h; exact Effect.add_reject t _ arg _ hidle (Or.inr rfl)
          | some w =>
            simp only [tpool_work_create] at h
            split at h
            · rename_i hl; cases h; exact Effect.add_alloc t f arg w hidle hl
            · cases h
      | wait => cases h; exact Effect.enter_wait t hidle
      | destroy => cases h; exact Effect.enter_destroy t hidle
    · cases h
  | exec t u =>
    simp only [step] at h
    split at h
    · cases h
    · generalize hpc : s.pcs t = pc at h
      cases pc <;> cases u <;>
        simp only [stmt, lock_eq_some, signal_goto_eq_some, Option.some.injEq,
          reduceCtorEq] at h
      case w75.none =>
        split at h
        · rename_i hs; subst h
          exact Effect.unlock t _ (by rw [hpc]; simp [unlockNext, hs])
        · rename_i hs; subst h
          exact Effect.pure t _ (by rw [hpc]; simp [pureNext, hs])
      case w79.none =>
        split at h
        · rename_i p work hg; cases h; exact Effect.get_some t p work hpc hg
        · rename_i p hg; cases h; exact Effect.get_none t p hpc hg
        · cases h
      case w85.none work =>
        cases work with
        | none => simp only [stmt] at h; cases h; exact Effect.pure t _ (by rw [hpc]; rfl)
        | some w => simp only [stmt] at h; cases h; exact Effect.action t w hpc
      case w92.none =>
        split at h
        · rename_i hc
          rcases (signal_goto_eq_some s s1 t _ none).1 h with ⟨_, hw, rfl⟩ | ⟨v, hv, _⟩
          · exact Effect.signal_none t _ (by rw [hpc]; simp [signalNext, hc]) hw
          · cases hv
        · rename_i hc
          simp only [if_true, Option.some.injEq] at h
          subst h
          exact Effect.pure t _ (by rw [hpc]; simp [pureNext, hc])
      case w92.some v =>
        split at h
        · rename_i hc
          rcases (signal_goto_eq_some s s1 t _ (some v)).1 h with ⟨hv, _⟩ | ⟨v1, hv1, hv, rfl⟩
          · cases hv
          · cases hv1
            exact Effect.signal_wake t _ _ (by rw [hpc]; simp [signalNext, hc]) hv
        · simp at h
      case w99.none =>
        split at h
        · rename_i hc
          rcases (signal_goto_eq_some s s1 t _ none).1 h with ⟨_, hw, rfl⟩ | ⟨v, hv, _⟩
          · exact Effect.signal_none t _ (by rw [hpc]; simp [signalNext, hc]) hw
          · cases hv
        · rename_i hc
          simp only [if_true, Option.some.injEq] at h
          subst h
          exact Effect.pure t _ (by rw [hpc]; simp [pureNext, hc])
      case w99.some v =>
        split at h
        · rename_i hc
          rcases (signal_goto_eq_some s s1 t _ (some v)).1 h with ⟨hv, _⟩ | ⟨v1, hv1, hv, rfl⟩
          · cases hv
          · cases hv1
            exact Effect.signal_wake t _ _ (by rw [hpc]; simp [signalNext, hc]) hv
        · simp at h
      case a169.none =>
        rcases h with ⟨_, hw, rfl⟩ | ⟨v, hv, _⟩
        · exact Effect.signal_none t _ (by rw [hpc]; rfl) hw
        · cases hv
      case a169.some v =>
        rcases h with ⟨hv, _⟩ | ⟨v1, hv1, hv, rfl⟩
        · cases hv
        · cases hv1
          exact Effect.signal_wake t _ _ (by rw [hpc]; rfl) hv
      case a162.none work func arg =>
        split at h
        · cases h
        · rename_i p heap he; cases h; exact Effect.enq t work func arg p heap hpc he
      case w87.none w => subst h; exact Effect.free t w hpc
      case w91s.none v => subst h; exact Effect.dec_active t v hpc
      case w98s.none v => subst h; exact Effect.dec_thread t v hpc
      case d137.none => subst h; exact Effect.set_stop t hpc
      case d138.none => subst h; exact Effect.broadcast t hpc
      case d143.none => subst h; exact Effect.release t hpc
      all_goals first
        | (obtain ⟨hm, rfl⟩ := h; exact Effect.lock t _ (by rw [hpc]; rfl) hm)
        | (subst h; exact Effect.pure t _ (by rw [hpc]; rfl))
        | (subst h; exact Effect.unlock t _ (by rw [hpc]; rfl))
        | (subst h; exact Effect.wait t _ (by rw [hpc]; rfl))

/-! ## Shutdown races -/

/-- C9 (destroy outlives the workers) fails on the code: after `tpool_create(1)`
and `tpool_destroy`, a reachable state has the pool released (`tpool_destroy` has
returned, having seen `thread_cnt == 0`) while worker 0 still has to run the
`pthread_mutex_unlock` of line 102 on the released pool. -/
theorem destroy_returns_before_worker_done :
    ∃ s, run (init 1) destroyRaceSchedule = some s ∧ s.freed = true ∧
      s.tm.thread_cnt = 0 ∧ s.pcs 1 = Pc.d146 ∧ s.pcs 0 = Pc.w102 ∧
      touches (s.pcs 0) = true := by
  refine ⟨_, rfl, ?_, ?_, ?_, ?_, ?_⟩ <;> decide

/-! ## Frame lemmas -/

theorem work_get_fields (p p1 : tpool) (heap : Heap) (w : Option Nat)
    (h : tpool_work_get (some p) heap = (some p1, w)) :
    p1.stop = p.stop ∧ p1.thread_cnt = p.thread_cnt ∧ p1.active_cnt = p.active_cnt := by
  unfold tpool_work_get at h
  simp only at h
  split at h
  · cases h; exact ⟨rfl, rfl, rfl⟩
  · simp only [Prod.mk.injEq, Option.some.injEq] at h
    obtain ⟨h1, _⟩ := h
    subst h1
    split <;> exact ⟨rfl, rfl, rfl⟩

theorem enqueue_fields (p p1 : tpool) (heap heap1 : Heap) (w : Nat)
    (h : enqueue p heap w = some (p1, heap1)) :
    p1.stop = p.stop ∧ p1.thread_cnt = p.thread_cnt ∧ p1.active_cnt = p.active_cnt := by
  unfold enqueue at h
  split at h
  · cases h; exact ⟨rfl, rfl, rfl⟩
  · split at h
    · cases h
    · cases h; exact ⟨rfl, rfl, rfl⟩

/-- A step changes the program counter of another thread only by waking it. -/
theorem effect_pcs_other (s s1 : State) (lab : Label) (h : Effect s lab s1) (x : Nat)
    (hx : x ≠ lab.tid) : s1.pcs x = s.pcs x ∨ s1.pcs x = wake (s.pcs x) := by
  cases h <;> simp only [Label.tid] at hx
  case add_reject => exact Or.inl rfl
  case signal_wake t pc v _ _ =>
    simp only [goto, setPc_other _ _ _ _ hx]
    by_cases hv : x = v
    · subst hv; right; simp [setPc]
    · left; simp [setPc, hv]
  case broadcast t _ =>
    simp only [goto, setPc_other _ _ _ _ hx, cond_broadcast]
    by_cases hv : x ∈ s.work_cond
    · right; simp [hv]
    · left; simp [hv]
  all_goals (left; simp [goto, cond_wait, unlock, setPc_other _ _ _ _ hx])

/-- The flag `stop` is only ever set. -/
theorem effect_stop (s s1 : State) (lab : Label) (h : Effect s lab s1)
    (hs : s.tm.stop = true) : s1.tm.stop = true := by
  cases h
  case get_some t p work _ hg =>
    have := (work_get_fields _ _ _ _ hg).1
    show p.stop = true
    rw [this]; exact hs
  case get_none t p _ hg =>
    have := (work_get_fields _ _ _ _ hg).1
    show p.stop = true
    rw [this]; exact hs
  case enq t work func arg p heap _ he =>
    have := (enqueue_fields _ _ _ _ _ he).1
    show p.stop = true
    rw [this]; exact hs
  case set_stop => rfl
  all_goals exact hs

theorem effect_stop_false (s s1 : State) (lab : Label) (h : Effect s lab s1)
    (hs : s1.tm.stop = false) : s.tm.stop = false := by
  cases hstop : s.tm.stop with
  | false => rfl
  | true => rw [effect_stop s s1 lab h hstop] at hs; cases hs

/-- A property of program counters that waking preserves holds for every thread
after a step as soon as it holds for the thread that took the step. -/
theorem effect_pointwise (P : Pc → Prop) (hwake : ∀ pc, P pc → P (wake pc))
    (s s1 : State) (lab : Label) (h : Effect s lab s1) (hall : ∀ x, P (s.pcs x))
    (hself : P (s1.pcs lab.tid)) (x : Nat) : P (s1.pcs x) := by
  by_cases hx : x = lab.tid
  · rw [hx]; exact hself
  · rcases effect_pcs_other s s1 lab h x hx with e | e
    · rw [e]; exact hall x
    · rw [e]; exact hwake _ (hall x)

/-- An invariant of single steps holds along every schedule. -/
theorem run_invariant (I : State → Prop)
    (hstep : ∀ s lab s1, I s → step s lab = some s1 → I s1) :
    ∀ (labs : List Label) (s s1 : State), I s → run s labs = some s1 → I s1
  | [], s, s1, hi, h => by
    simp only [run, Option.some.injEq] at h
    rw [← h]; exact hi
  | lab :: labs, s, s1, hi, h => by
    simp only [run] at h
    cases hs : step s lab with
    | none => rw [hs] at h; cases h
    | some s2 =>
      rw [hs] at h
      exact run_invariant I hstep labs s2 s1 (hstep s lab s2 hi hs) h

theorem run_append : ∀ (labs1 labs2 : List Label) (s : State),
    run s (labs1 ++ labs2) = (run s labs1).bind fun s1 => run s1 labs2
  | [], _, _ => rfl
  | lab :: labs1, labs2, s => by
    simp only [List.cons_append, run]
    cases step s lab with
    | none => rfl
    | some s2 => exact run_append labs1 labs2 s2

/-- A step from a reachable state leads to a reachable state. -/
theorem reachable_step (num : Nat) (s s1 : State) (lab : Label) (hr : Reachable num s)
    (h : step s lab = some s1) : Reachable num s1 := by
  obtain ⟨labs, hl⟩ := hr
  refine ⟨labs ++ [lab], ?_⟩
  rw [run_append, hl]
  show (step s lab).bind (fun s2 => run s2 []) = some s1
  rw [h]; rfl

/-- Induction over the reachable states, with reachability of the state before
the step at hand. -/
theorem reachable_induction (num : Nat) (I : State → Prop) (h0 : I (init num))
    (hstep : ∀ s lab s1, Reachable num s → I s → step s lab = some s1 → I s1)
    (s : State) (hr : Reachable num s) : I s := by
  obtain ⟨labs, hrun⟩ := hr
  have := run_invariant (fun s => Reachable num s ∧ I s)
    (fun s lab s1 hi h => ⟨reachable_step num s s1 lab hi.1 h, hstep s lab s1 hi.1 hi.2 h⟩)
    labs (init num) s ⟨⟨[], rfl⟩, h0⟩ hrun
  exact this.2

theorem okPc_wake (pc : Pc) (h : okPc pc = true) : okPc (wake pc) = true := by
  cases pc <;> exact h

theorem inCS_wake (pc : Pc) : inCS (wake pc) = inCS pc := by
  cases pc <;> rfl

theorem pureNext_ok (s : State) (pc pc1 : Pc) (hs : s.tm.stop = false)
    (h : pureNext s pc = some pc1) (hok : okPc pc = true) :
    okPc pc1 = true ∧ inCS pc1 = inCS pc := by
  cases pc <;> simp only [pureNext, hs, Option.some.injEq, reduceCtorEq] at h
  case w72 => subst h; split <;> exact ⟨rfl, rfl⟩
  case w75 => simp at h; subst h; exact ⟨rfl, rfl⟩
  case w85 work =>
    cases work with
    | none => cases hok
    | some w => simp [pureNext] at h
  case w91 => subst h; exact ⟨rfl, rfl⟩
  case w92 => split at h <;> cases h; exact ⟨rfl, rfl⟩
  case w98 => cases hok
  case w99 => cases hok
  case t179 => subst h; split <;> exact ⟨rfl, rfl⟩
  case d139 => cases hok

theorem lockNext_ok (pc pc1 : Pc) (h : lockNext pc = some pc1) (hok : okPc pc = true) :
    okPc pc1 = true ∧ inCS pc = false ∧ inCS pc1 = true := by
  cases pc <;> simp only [lockNext, Option.some.injEq, reduceCtorEq] at h <;>
    first | (subst h; exact ⟨rfl, rfl, rfl⟩) | cases hok

theorem unlockNext_ok (s : State) (pc pc1 : Pc) (hs : s.tm.stop = false)
    (h : unlockNext s pc = some pc1) (hok : okPc pc = true) :
    okPc pc1 = true ∧ inCS pc = true ∧ inCS pc1 = false := by
  cases pc <;> simp only [unlockNext, hs, Option.some.injEq, reduceCtorEq] at h
  case w75 => simp at h
  case w83 work =>
    subst h
    cases work with
    | none => cases hok
    | some w => exact ⟨rfl, rfl, rfl⟩
  case w95 => subst h; exact ⟨rfl, rfl, rfl⟩
  case w102 => cases hok
  case a170 => subst h; exact ⟨rfl, rfl, rfl⟩
  case t182 => subst h; exact ⟨rfl, rfl, rfl⟩
  case d142 => cases hok

theorem waitNext_ok (pc pc1 : Pc) (h : waitNext pc = some pc1) (hok : okPc pc = true) :
    okPc pc1 = true ∧ inCS pc = true ∧ inCS pc1 = false := by
  cases pc <;> simp only [waitNext, Option.some.injEq, reduceCtorEq] at h <;>
    first | (subst h; exact ⟨rfl, rfl, rfl⟩) | cases hok

theorem signalNext_ok (s : State) (pc pc1 : Pc)
    (h : signalNext s pc = some pc1) (hok : okPc pc = true) :
    okPc pc1 = true ∧ inCS pc = true ∧ inCS pc1 = true := by
  cases pc <;> simp only [signalNext, Option.some.injEq, reduceCtorEq] at h
  case w92 => split at h <;> cases h; exact ⟨rfl, rfl, rfl⟩
  case w99 => cases hok
  case a169 => subst h; exact ⟨rfl, rfl, rfl⟩

theorem goto_pcs_self (s : State) (t : Nat) (pc : Pc) : (goto s t pc).pcs t = pc :=
  setPc_same _ _ _

theorem cond_wait_pcs_self (s : State) (t : Nat) (pc : Pc) : (cond_wait s t pc).pcs t = pc :=
  setPc_same _ _ _

/-- Before shutdown the stepping thread stays at an allowed position and moves the
mutex in step with its critical sections. -/
theorem effect_ctl_self (s s1 : State) (lab : Label) (h : Effect s lab s1)
    (hok : okPc (s.pcs lab.tid) = true) (hne : s.pcs lab.tid = Pc.w79 → s.tm.work_first ≠ none)
    (hs1 : s1.tm.stop = false) :
    okPc (s1.pcs lab.tid) = true ∧ MutexMove s s1 lab.tid := by
  have hs : s.tm.stop = false := effect_stop_false s s1 lab h hs1
  cases h <;> simp only [Label.tid] at hok hne ⊢
  case add_reject => exact ⟨hok, MutexMove.keep rfl rfl⟩
  case add_alloc t f arg w hpc _ =>
    rw [goto_pcs_self]; exact ⟨rfl, MutexMove.keep rfl (by rw [goto_pcs_self, hpc]; rfl)⟩
  case enter_wait t hpc =>
    rw [goto_pcs_self]; exact ⟨rfl, MutexMove.keep rfl (by rw [goto_pcs_self, hpc]; rfl)⟩
  case enter_destroy t hpc =>
    rw [goto_pcs_self]; exact ⟨rfl, MutexMove.keep rfl (by rw [goto_pcs_self, hpc]; rfl)⟩
  case pure t pc hnext =>
    obtain ⟨h1, h2⟩ := pureNext_ok s _ pc hs hnext hok
    rw [goto_pcs_self]
    exact ⟨h1, MutexMove.keep rfl (by rw [goto_pcs_self]; exact h2)⟩
  case lock t pc hnext hfree =>
    obtain ⟨h1, h2, h3⟩ := lockNext_ok _ pc hnext hok
    rw [goto_pcs_self]
    exact ⟨h1, MutexMove.acquire hfree rfl h2 (by rw [goto_pcs_self]; exact h3)⟩
  case unlock t pc hnext =>
    obtain ⟨h1, h2, h3⟩ := unlockNext_ok s _ pc hs hnext hok
    rw [goto_pcs_self]
    exact ⟨h1, MutexMove.release h2 rfl (by rw [goto_pcs_self]; exact h3)⟩
  case wait t pc hnext =>
    obtain ⟨h1, h2, h3⟩ := waitNext_ok _ pc hnext hok
    rw [cond_wait_pcs_self]
    exact ⟨h1, MutexMove.release h2 rfl (by rw [cond_wait_pcs_self]; exact h3)⟩
  case signal_none t pc hnext _ =>
    obtain ⟨h1, h2, h3⟩ := signalNext_ok s _ pc hnext hok
    rw [goto_pcs_self]
    exact ⟨h1, MutexMove.keep rfl (by rw [goto_pcs_self, h2, h3])⟩
  case signal_wake t pc v hnext _ =>
    obtain ⟨h1, h2, h3⟩ := signalNext_ok s _ pc hnext hok
    rw [goto_pcs_self]
    exact ⟨h1, MutexMove.keep rfl (by rw [goto_pcs_self, h2, h3])⟩
  case get_some t p work hpc _ =>
    rw [goto_pcs_self]
    exact ⟨rfl, MutexMove.keep rfl (by rw [goto_pcs_self, hpc]; rfl)⟩
  case get_none t p hpc hget =>
    exfalso
    have hf := hne hpc
    cases hw : s.tm.work_first with
    | none => exact hf hw
    | some w =>
      simp only [tpool_work_get, hw, Prod.mk.injEq, reduceCtorEq, and_false] at hget
  case action t w hpc =>
    rw [goto_pcs_self]
    exact ⟨rfl, MutexMove.keep rfl (by rw [goto_pcs_self, hpc]; rfl)⟩
  case free t w hpc =>
    rw [goto_pcs_self]
    exact ⟨rfl, MutexMove.keep rfl (by rw [goto_pcs_self, hpc]; rfl)⟩
  case dec_active t v hpc =>
    rw [goto_pcs_self]
    exact ⟨rfl, MutexMove.keep rfl (by rw [goto_pcs_self, hpc]; rfl)⟩
  case dec_thread t v hpc => rw [hpc] at hok; cases hok
  case enq t work func arg p heap hpc _ =>
    rw [goto_pcs_self]
    exact ⟨rfl, MutexMove.keep rfl (by rw [goto_pcs_self, hpc]; rfl)⟩
  case set_stop t hpc => cases hs1
  case broadcast t hpc => rw [hpc] at hok; cases hok
  case release t hpc => rw [hpc] at hok; cases hok

theorem guarded_wake (pc : Pc) (h : guarded (wake pc) = true) : wake pc = pc := by
  cases pc <;> first | rfl | cases h

theorem lockNext_guarded (pc pc1 : Pc) (h : lockNext pc = some pc1) : guarded pc1 = false := by
  cases pc <;> simp only [lockNext, Option.some.injEq, reduceCtorEq] at h <;> subst h <;> rfl

theorem unlockNext_guarded (s : State) (pc pc1 : Pc) (h : unlockNext s pc = some pc1) :
    guarded pc1 = false := by
  cases pc <;> simp only [unlockNext, Option.some.injEq, reduceCtorEq] at h
  case w75 => split at h <;> cases h; rfl
  all_goals (subst h; rfl)

theorem waitNext_guarded (pc pc1 : Pc) (h : waitNext pc = some pc1) : guarded pc1 = false := by
  cases pc <;> simp only [waitNext, Option.some.injEq, reduceCtorEq] at h <;> subst h <;> rfl

theorem signalNext_guarded (s : State) (pc pc1 : Pc) (h : signalNext s pc = some pc1) :
    guarded pc1 = false := by
  cases pc <;> simp only [signalNext, Option.some.injEq, reduceCtorEq] at h
  case w92 => split at h <;> cases h; rfl
  case w99 => split at h <;> cases h; rfl
  case a169 => subst h; rfl

/-- Outside a critical section a step leaves the pool record alone. -/
theorem effect_tm_frame (s s1 : State) (lab : Label) (h : Effect s lab s1)
    (hok : okPc (s.pcs lab.tid) = true) (hout : inCS (s.pcs lab.tid) = false) :
    s1.tm = s.tm := by
  cases h <;> simp only [Label.tid] at hok hout
  case get_some t p work hpc _ => rw [hpc] at hout; cases hout
  case get_none t p hpc _ => rw [hpc] at hout; cases hout
  case dec_active t v hpc => rw [hpc] at hout; cases hout
  case dec_thread t v hpc => rw [hpc] at hok; cases hok
  case enq t work func arg p heap hpc _ => rw [hpc] at hout; cases hout
  case set_stop t hpc => rw [hpc] at hout; cases hout
  all_goals rfl

/-- After a step the stepping thread is past a queue test only if the test held. -/
theorem effect_guard_self (s s1 : State) (lab : Label) (h : Effect s lab s1)
    (hne : s.pcs lab.tid = Pc.w75 → s.tm.work_first ≠ none) (hs : s.tm.stop = false)
    (hg : guarded (s1.pcs lab.tid) = true) :
    (s1.pcs lab.tid = Pc.t182 → s1.tm.work_first = none ∧ s1.tm.active_cnt = 0) ∧
    (s1.pcs lab.tid = Pc.w75 ∨ s1.pcs lab.tid = Pc.w79 → s1.tm.work_first ≠ none) := by
  cases h <;> simp only [Label.tid] at hne hg ⊢
  case add_reject t func arg m hpc _ => rw [hpc] at hg; cases hg
  case pure t pc hnext =>
    rw [goto_pcs_self] at hg ⊢
    show (pc = Pc.t182 → s.tm.work_first = none ∧ s.tm.active_cnt = 0) ∧
      (pc = Pc.w75 ∨ pc = Pc.w79 → s.tm.work_first ≠ none)
    generalize hq : s.pcs t = q at hnext hne
    cases q <;> simp only [pureNext, hs, Option.some.injEq, reduceCtorEq] at hnext
    case w72 =>
      subst hnext
      split
      · rename_i hc; simp
      · rename_i hc; simp only [reduceCtorEq, false_implies, true_and]
        intro _ hf; exact hc ⟨hf, trivial⟩
    case w75 =>
      simp at hnext; subst hnext
      simp only [reduceCtorEq, false_implies, true_and]
      intro _; exact hne rfl
    case w85 work =>
      cases work with
      | none => simp only [pureNext, Option.some.injEq] at hnext; subst hnext; cases hg
      | some w => simp [pureNext] at hnext
    case w91 => subst hnext; cases hg
    case w92 => split at hnext <;> cases hnext; cases hg
    case w98 => subst hnext; cases hg
    case w99 => split at hnext <;> cases hnext; cases hg
    case t179 =>
      subst hnext
      split
      · rename_i hc; simp
      · rename_i hc
        simp only [reduceCtorEq, or_self, false_implies, and_true]
        intro _
        constructor
        · by_contra hf; exact hc (Or.inl hf)
        · by_contra hf; exact hc (Or.inr (Nat.pos_of_ne_zero hf))
    case d139 => subst hnext; split at hg <;> cases hg
  case lock t pc hnext _ =>
    rw [goto_pcs_self] at hg; rw [lockNext_guarded _ _ hnext] at hg; cases hg
  case unlock t pc hnext =>
    rw [goto_pcs_self] at hg; rw [unlockNext_guarded _ _ _ hnext] at hg; cases hg
  case wait t pc hnext =>
    rw [cond_wait_pcs_self] at hg; rw [waitNext_guarded _ _ hnext] at hg; cases hg
  case signal_none t pc hnext _ =>
    rw [goto_pcs_self] at hg; rw [signalNext_guarded _ _ _ hnext] at hg; cases hg
  case signal_wake t pc v hnext _ =>
    rw [goto_pcs_self] at hg; rw [signalNext_guarded _ _ _ hnext] at hg; cases hg
  all_goals (rw [goto_pcs_self] at hg; cases hg)

theorem guarded_inCS (pc : Pc) (h : guarded pc = true) : inCS pc = true := by
  cases pc <;> first | rfl | cases h

theorem guarded_cases (pc : Pc) (h : guarded pc = true) :
    pc = Pc.w75 ∨ pc = Pc.w79 ∨ pc = Pc.t182 := by
  cases pc <;> first | exact Or.inl rfl | exact Or.inr (Or.inl rfl) |
    exact Or.inr (Or.inr rfl) | cases h

theorem effect_freed (s s1 : State) (lab : Label) (h : Effect s lab s1)
    (hok : okPc (s.pcs lab.tid) = true) : s1.freed = s.freed := by
  cases h <;> simp only [Label.tid] at hok
  case release t hpc => rw [hpc] at hok; cases hok
  all_goals rfl

/-- The control invariant is kept by every step that ends with `stop` false. -/
theorem ctl_step (s s1 : State) (lab : Label) (hinv : CtlInv s) (h : Effect s lab s1)
    (hs1 : s1.tm.stop = false) : CtlInv s1 := by
  have hs : s.tm.stop = false := effect_stop_false s s1 lab h hs1
  obtain ⟨hok1, hmove⟩ := effect_ctl_self s s1 lab h (hinv.ok _)
    (fun e => hinv.nonempty _ (Or.inr e)) hs1
  have hother : ∀ x, x ≠ lab.tid → inCS (s1.pcs x) = inCS (s.pcs x) := by
    intro x hx
    rcases effect_pcs_other s s1 lab h x hx with e | e
    · rw [e]
    · rw [e, inCS_wake]
  have hmutex : ∀ x, inCS (s1.pcs x) = true ↔ s1.work_mutex = some x := by
    intro x
    by_cases hx : x = lab.tid
    · subst hx
      cases hmove with
      | keep hm hcs => rw [hm, hcs]; exact hinv.mutex _
      | acquire hfree hm hout hin => rw [hm, hin]; simp
      | release hin hm hout => rw [hm, hout]; simp
    · rw [hother x hx]
      cases hmove with
      | keep hm hcs => rw [hm]; exact hinv.mutex x
      | acquire hfree hm hout hin =>
        rw [hm]
        have h1 : ¬ inCS (s.pcs x) = true := by
          rw [hinv.mutex x, hfree]; simp
        have h2 : ¬ (some lab.tid = some x) := by
          intro e; exact hx (Option.some.inj e).symm
        exact ⟨fun a => absurd a h1, fun a => absurd a h2⟩
      | release hin hm hout =>
        rw [hm]
        have h1 : ¬ inCS (s.pcs x) = true := by
          rw [hinv.mutex x, (hinv.mutex _).1 hin]
          intro e; exact hx (Option.some.inj e).symm
        exact ⟨fun a => absurd a h1, fun a => by cases a⟩
  have hguard : ∀ x, guarded (s1.pcs x) = true →
      (s1.pcs x = Pc.t182 → s1.tm.work_first = none ∧ s1.tm.active_cnt = 0) ∧
      (s1.pcs x = Pc.w75 ∨ s1.pcs x = Pc.w79 → s1.tm.work_first ≠ none) := by
    intro x hg
    by_cases hx : x = lab.tid
    · subst hx
      exact effect_guard_self s s1 _ h (fun e => hinv.nonempty _ (Or.inl e)) hs hg
    · have hpc : s1.pcs x = s.pcs x := by
        rcases effect_pcs_other s s1 lab h x hx with e | e
        · exact e
        · rw [e] at hg ⊢; exact guarded_wake _ hg
      rw [hpc] at hg ⊢
      have hown : s.work_mutex = some x := (hinv.mutex x).1 (guarded_inCS _ hg)
      have hout : inCS (s.pcs lab.tid) = false := by
        cases hc : inCS (s.pcs lab.tid) with
        | false => rfl
        | true =>
          have := (hinv.mutex _).1 hc
          rw [hown] at this
          exact absurd (Option.some.inj this) hx
      rw [effect_tm_frame s s1 lab h (hinv.ok _) hout]
      exact ⟨hinv.drained x, hinv.nonempty x⟩
  refine ⟨?_, hmutex, ?_, ?_, ?_⟩
  · exact effect_pointwise (fun pc => okPc pc = true) okPc_wake s s1 lab h hinv.ok hok1
  · intro x hx
    have hg : guarded (s1.pcs x) = true := by
      rcases hx with e | e <;> rw [e] <;> rfl
    exact (hguard x hg).2 hx
  · intro x hx
    have hg : guarded (s1.pcs x) = true := by rw [hx]; rfl
    exact (hguard x hg).1 hx
  · rw [effect_freed s s1 lab h (hinv.ok _)]; exact hinv.notfreed

/-- Threads of the pool made by `tpool_create num`. -/
theorem init_pcs (num : Nat) (t : Nat) :
    (init num).pcs t = if t < nworkers num then Pc.w71 else Pc.idle := by
  show spawn (fun _ => true) (fun _ => Pc.idle) 0 (if num = 0 then 2 else num) t = _
  rw [spawn_apply]
  simp only [Nat.zero_le, true_and, Nat.zero_add, and_true, nworkers]

theorem init_pcs_cases (num : Nat) (t : Nat) :
    (init num).pcs t = Pc.w71 ∨ (init num).pcs t = Pc.idle := by
  rw [init_pcs]
  by_cases h : t < nworkers num
  · rw [if_pos h]; exact Or.inl rfl
  · rw [if_neg h]; exact Or.inr rfl

theorem ctl_init (num : Nat) : CtlInv (init num) := by
  refine ⟨?_, ?_, ?_, ?_, rfl⟩
  · intro t
    rcases init_pcs_cases num t with e | e <;> rw [e] <;> rfl
  · intro t
    have hm : (init num).work_mutex = none := rfl
    rw [hm]
    rcases init_pcs_cases num t with e | e <;> rw [e] <;> simp [inCS]
  · intro t h
    rcases init_pcs_cases num t with e | e <;> rw [e] at h <;> simp at h
  · intro t h
    rcases init_pcs_cases num t with e | e <;> rw [e] at h <;> simp at h

/-- Every state reached while `stop` is false satisfies the control invariant. -/
theorem reachable_ctl (num : Nat) (s : State) (hr : Reachable num s)
    (hs : s.tm.stop = false) : CtlInv s := by
  obtain ⟨labs, hrun⟩ := hr
  have := run_invariant (fun s => s.tm.stop = false → CtlInv s)
    (fun s lab s1 hi hstep hs1 =>
      ctl_step s s1 lab (hi (effect_stop_false s s1 lab (step_effect s s1 lab hstep) hs1))
        (step_effect s s1 lab hstep) hs1)
    labs (init num) s (fun _ => ctl_init num) hrun
  exact this hs

/-! ## Sums over the threads -/

theorem threadSum_congr {α : Type} [AddCommMonoid α] (f g : Pc → α) (pcs pcs1 : Nat → Pc) :
    ∀ n, (∀ x, x < n → g (pcs1 x) = f (pcs x)) → threadSum g pcs1 n = threadSum f pcs n
  | 0, _ => rfl
  | n + 1, h => by
    show threadSum g pcs1 n + g (pcs1 n) = threadSum f pcs n + f (pcs n)
    rw [threadSum_congr f g pcs pcs1 n (fun x hx => h x (Nat.lt_succ_of_lt hx)),
      h n (Nat.lt_succ_self n)]

/-- Changing one thread changes the sum by that thread's contribution. -/
theorem threadSum_update {α : Type} [AddCommMonoid α] (f g : Pc → α) (pcs pcs1 : Nat → Pc)
    (t : Nat) : ∀ n, t < n → (∀ x, x ≠ t → x < n → g (pcs1 x) = f (pcs x)) →
    threadSum g pcs1 n + f (pcs t) = threadSum f pcs n + g (pcs1 t)
  | 0, ht, _ => absurd ht (Nat.not_lt_zero t)
  | n + 1, ht, h => by
    show threadSum g pcs1 n + g (pcs1 n) + f (pcs t) = threadSum f pcs n + f (pcs n) + g (pcs1 t)
    by_cases hn : t = n
    · subst hn
      rw [threadSum_congr f g pcs pcs1 t
        (fun x hx => h x (Nat.ne_of_lt hx) (Nat.lt_succ_of_lt hx))]
      rw [add_assoc, add_assoc, add_comm (g (pcs1 t))]
    · have ht1 : t < n := by omega
      have ih := threadSum_update f g pcs pcs1 t n ht1
        (fun x hx hxn => h x hx (Nat.lt_succ_of_lt hxn))
      have hn1 : g (pcs1 n) = f (pcs n) := h n (fun e => hn e.symm) (Nat.lt_succ_self n)
      rw [hn1, add_right_comm, ih, add_right_comm]

theorem threadSum_activeNum_le (pcs : Nat → Pc) : ∀ n, threadSum activeNum pcs n ≤ n
  | 0 => Nat.le_refl 0
  | n + 1 => by
    show threadSum activeNum pcs n + activeNum (pcs n) ≤ n + 1
    have := threadSum_activeNum_le pcs n
    have h1 : activeNum (pcs n) ≤ 1 := by unfold activeNum; split <;> omega
    omega

theorem threadSum_activeNum_lt (pcs : Nat → Pc) (t : Nat) :
    ∀ n, t < n → activeNum (pcs t) = 0 → threadSum activeNum pcs n < n
  | 0, ht, _ => absurd ht (Nat.not_lt_zero t)
  | n + 1, ht, h0 => by
    show threadSum activeNum pcs n + activeNum (pcs n) < n + 1
    by_cases hn : t = n
    · subst hn
      have := threadSum_activeNum_le pcs t
      omega
    · have := threadSum_activeNum_lt pcs t n (by omega) h0
      have h1 : activeNum (pcs n) ≤ 1 := by unfold activeNum; split <;> omega
      omega

theorem threadSum_activeNum_pos (pcs : Nat → Pc) (t : Nat) :
    ∀ n, t < n → activeNum (pcs t) = 1 → 0 < threadSum activeNum pcs n
  | 0, ht, _ => absurd ht (Nat.not_lt_zero t)
  | n + 1, ht, h1 => by
    show 0 < threadSum activeNum pcs n + activeNum (pcs n)
    by_cases hn : t = n
    · subst hn; omega
    · have := threadSum_activeNum_pos pcs t n (by omega) h1
      omega

theorem sig_wake (pc : Pc) : sig (wake pc) = sig pc := by
  cases pc <;> rfl

theorem isWorker_wake (pc : Pc) : isWorker (wake pc) = isWorker pc := by
  cases pc <;> rfl

theorem pureNext_sig (s : State) (pc pc1 : Pc) (h : pureNext s pc = some pc1) :
    sig pc1 = sig pc := by
  cases pc <;> simp only [pureNext, Option.some.injEq, reduceCtorEq] at h
  case w72 => subst h; split <;> rfl
  case w75 => split at h <;> cases h; rfl
  case w85 work =>
    cases work with
    | none => simp only [pureNext, Option.some.injEq] at h; subst h; rfl
    | some w => simp [pureNext] at h
  case w91 => subst h; rfl
  case w92 => split at h <;> cases h; rfl
  case w98 => subst h; rfl
  case w99 => split at h <;> cases h; rfl
  case t179 => subst h; split <;> rfl
  case d139 => subst h; split <;> rfl

theorem lockNext_sig (pc pc1 : Pc) (h : lockNext pc = some pc1) : sig pc1 = sig pc := by
  cases pc <;> simp only [lockNext, Option.some.injEq, reduceCtorEq] at h <;> subst h <;> rfl

theorem unlockNext_sig (s : State) (pc pc1 : Pc) (h : unlockNext s pc = some pc1) :
    sig pc1 = sig pc := by
  cases pc <;> simp only [unlockNext, Option.some.injEq, reduceCtorEq] at h
  case w75 => split at h <;> cases h; rfl
  case w83 work => subst h; cases work <;> rfl
  all_goals (subst h; rfl)

theorem waitNext_sig (pc pc1 : Pc) (h : waitNext pc = some pc1) : sig pc1 = sig pc := by
  cases pc <;> simp only [waitNext, Option.some.injEq, reduceCtorEq] at h <;> subst h <;> rfl

theorem signalNext_sig (s : State) (pc pc1 : Pc) (h : signalNext s pc = some pc1) :
    sig pc1 = sig pc := by
  cases pc <;> simp only [signalNext, Option.some.injEq, reduceCtorEq] at h
  case w92 => split at h <;> cases h; rfl
  case w99 => split at h <;> cases h; rfl
  case a169 => subst h; rfl

theorem sig_owns {pc pc1 : Pc} (h : sig pc1 = sig pc) : owns pc1 = owns pc :=
  congrArg Prod.fst h

theorem sig_held {pc pc1 : Pc} (h : sig pc1 = sig pc) : held pc1 = held pc :=
  congrArg (fun x => x.2.1) h

theorem sig_active {pc pc1 : Pc} (h : sig pc1 = sig pc) : active pc1 = active pc :=
  congrArg (fun x => x.2.2.1) h

theorem sig_isWorker {pc pc1 : Pc} (h : sig pc1 = sig pc) : isWorker pc1 = isWorker pc :=
  congrArg (fun x => x.2.2.2.1) h

theorem sig_pend {pc pc1 : Pc} (h : sig pc1 = sig pc) : pend pc1 = pend pc :=
  congrArg (fun x => x.2.2.2.2) h

theorem pend_owns (pc : Pc) (w : Nat) (i : Item) (h : pend pc = some (w, i)) :
    owns pc = some w := by
  cases pc <;> simp only [pend, reduceCtorEq, Option.some.injEq, Prod.mk.injEq] at h <;>
    (obtain ⟨rfl, _⟩ := h; rfl)

theorem held_owns (pc : Pc) (w : Nat) (h : held pc = some w) : owns pc = some w := by
  cases pc <;> simp only [held, reduceCtorEq] at h
  case w83 work => cases work <;> simp only [held, reduceCtorEq] at h; exact h
  case w85 work => cases work <;> simp only [held, reduceCtorEq] at h; exact h

theorem setPc_cases (pcs : Nat → Pc) (t : Nat) (pc : Pc) (x : Nat) :
    (x = t ∧ setPc pcs t pc x = pc) ∨ (x ≠ t ∧ setPc pcs t pc x = pcs x) := by
  by_cases h : x = t
  · exact Or.inl ⟨h, by rw [h, setPc_same]⟩
  · exact Or.inr ⟨h, setPc_other _ _ _ _ h⟩

theorem queue_is_fields (p p1 : tpool) (heap : Heap) (l : List Nat) (h : queue_is p heap l)
    (h1 : p1.work_first = p.work_first) (h2 : p1.work_last = p.work_last) :
    queue_is p1 heap l := by
  unfold queue_is
  rw [h1, h2]; exact h

/-- Allocation of a work item by a submitter keeps the data invariant. -/
theorem data_add_alloc (n : Nat) (s : State) (l : List Nat) (t f arg w : Nat)
    (hinv : DataInv n s l) (hpc : s.pcs t = Pc.idle) (hlive : s.live w = false) :
    DataInv n (goto { s with heap := s.heap.set w { func := some f, arg := arg, next := none },
                             live := fun a => if a = w then true else s.live a } t
          (Pc.a161 w (some f) arg))
      l := by
  have hne_live : ∀ a, s.live a = true → a ≠ w := by
    intro a ha e; rw [e, hlive] at ha; cases ha
  have hheap : ∀ a, s.live a = true →
      (s.heap.set w { func := some f, arg := arg, next := none }) a = s.heap a :=
    fun a ha => heap_set_other _ _ _ _ (hne_live a ha)
  have hsig0 : ∀ x, x ≠ t → sig (setPc s.pcs t (Pc.a161 w (some f) arg) x) = sig (s.pcs x) := by
    intro x hx; rw [setPc_other _ _ _ _ hx]
  refine ⟨?_, hinv.nlt, ?_, ?_, ?_, ?_, ?_, ?_, ?_, ?_, ?_⟩
  · intro x
    show isWorker (setPc s.pcs t (Pc.a161 w (some f) arg) x) = _
    rcases setPc_cases s.pcs t (Pc.a161 w (some f) arg) x with ⟨e, h⟩ | ⟨_, h⟩
    · rw [h, e, ← hinv.role t, hpc]; rfl
    · rw [h]; exact hinv.role x
  · exact queue_is_congr _ _ _ _ (fun a ha => hheap a (hinv.qlive a ha)) hinv.queue
  · intro a ha
    show (if a = w then true else s.live a) = true
    rw [if_neg (hne_live a (hinv.qlive a ha))]; exact hinv.qlive a ha
  · intro x a h
    change owns (setPc s.pcs t (Pc.a161 w (some f) arg) x) = some a at h
    rcases setPc_cases s.pcs t (Pc.a161 w (some f) arg) x with ⟨_, e⟩ | ⟨_, e⟩
    · rw [e] at h
      have : w = a := Option.some.inj h
      subst this
      intro hm; exact hne_live w (hinv.qlive w hm) rfl
    · rw [e] at h; exact hinv.own_out x a h
  · intro x a h
    change owns (setPc s.pcs t (Pc.a161 w (some f) arg) x) = some a at h
    show (if a = w then true else s.live a) = true
    rcases setPc_cases s.pcs t (Pc.a161 w (some f) arg) x with ⟨_, e⟩ | ⟨_, e⟩
    · rw [e] at h
      have : w = a := Option.some.inj h
      rw [if_pos this.symm]
    · rw [e] at h
      split
      · rfl
      · exact hinv.own_live x a h
  · intro x x1 a h h1
    change owns (setPc s.pcs t (Pc.a161 w (some f) arg) x) = some a at h
    change owns (setPc s.pcs t (Pc.a161 w (some f) arg) x1) = some a at h1
    rcases setPc_cases s.pcs t (Pc.a161 w (some f) arg) x with ⟨ex, e⟩ | ⟨_, e⟩ <;>
      rcases setPc_cases s.pcs t (Pc.a161 w (some f) arg) x1 with ⟨ex1, e1⟩ | ⟨_, e1⟩ <;>
      rw [e] at h <;> rw [e1] at h1
    · rw [ex, ex1]
    · have : w = a := Option.some.inj h
      subst this
      exact absurd rfl (hne_live w (hinv.own_live x1 w h1))
    · have : w = a := Option.some.inj h1
      subst this
      exact absurd rfl (hne_live w (hinv.own_live x w h))
    · exact hinv.own_inj x x1 a h h1
  · intro x a h hw
    change owns (setPc s.pcs t (Pc.a161 w (some f) arg) x) = some a at h
    change isWorker (setPc s.pcs t (Pc.a161 w (some f) arg) x) = false at hw
    show ((s.heap.set w { func := some f, arg := arg, next := none }) a).next = none
    rcases setPc_cases s.pcs t (Pc.a161 w (some f) arg) x with ⟨_, e⟩ | ⟨_, e⟩
    · rw [e] at h
      have : w = a := Option.some.inj h
      subst this
      rw [heap_set_same]
    · rw [e] at h hw
      rw [hheap a (hinv.own_live x a h)]
      exact hinv.pending x a h hw
  · intro x a i h
    change pend (setPc s.pcs t (Pc.a161 w (some f) arg) x) = some (a, i) at h
    show item (s.heap.set w { func := some f, arg := arg, next := none }) a = i
    rcases setPc_cases s.pcs t (Pc.a161 w (some f) arg) x with ⟨_, e⟩ | ⟨_, e⟩
    · rw [e] at h
      simp only [pend, Option.some.injEq, Prod.mk.injEq] at h
      obtain ⟨rfl, rfl⟩ := h
      unfold item
      rw [heap_set_same]
    · rw [e] at h
      unfold item
      rw [hheap a (hinv.own_live x a (pend_owns _ _ _ h))]
      exact hinv.pending_item x a i h
  · show (s.accepted : Multiset Item) = (s.executed : Multiset Item)
      + threadSum (heldItems (s.heap.set w { func := some f, arg := arg, next := none }))
          (setPc s.pcs t (Pc.a161 w (some f) arg)) n
      + ((l.map (item (s.heap.set w { func := some f, arg := arg, next := none })) : List Item)
          : Multiset Item)
    have h1 : l.map (item (s.heap.set w { func := some f, arg := arg, next := none }))
        = l.map (item s.heap) :=
      List.map_congr_left (fun a ha => by unfold item; rw [hheap a (hinv.qlive a ha)])
    have h2 : threadSum (heldItems (s.heap.set w { func := some f, arg := arg, next := none }))
        (setPc s.pcs t (Pc.a161 w (some f) arg)) n = threadSum (heldItems s.heap) s.pcs n := by
      refine threadSum_congr _ _ s.pcs _ n (fun x _ => ?_)
      rcases setPc_cases s.pcs t (Pc.a161 w (some f) arg) x with ⟨ex, e⟩ | ⟨_, e⟩
      · rw [e, ex, hpc]; rfl
      · rw [e]
        unfold heldItems
        cases hh : held (s.pcs x) with
        | none => rfl
        | some a =>
          show ({item _ a} : Multiset Item) = {item _ a}
          unfold item
          rw [hheap a (hinv.own_live x a (held_owns _ _ hh))]
    rw [h1, h2]; exact hinv.account
  · intro h1
    have hf := hinv.fifo h1
    show s.accepted = s.executed
      ++ heldList (s.heap.set w { func := some f, arg := arg, next := none })
          (setPc s.pcs t (Pc.a161 w (some f) arg) 0)
      ++ l.map (item (s.heap.set w { func := some f, arg := arg, next := none }))
    have hl : l.map (item (s.heap.set w { func := some f, arg := arg, next := none }))
        = l.map (item s.heap) :=
      List.map_congr_left (fun a ha => by unfold item; rw [hheap a (hinv.qlive a ha)])
    have hh : heldList (s.heap.set w { func := some f, arg := arg, next := none })
        (setPc s.pcs t (Pc.a161 w (some f) arg) 0) = heldList s.heap (s.pcs 0) := by
      rcases setPc_cases s.pcs t (Pc.a161 w (some f) arg) 0 with ⟨ex, e⟩ | ⟨_, e⟩
      · rw [e, ex, hpc]; rfl
      · rw [e]
        unfold heldList
        cases hheld : held (s.pcs 0) with
        | none => rfl
        | some a =>
          show [item _ a] = [item _ a]
          unfold item
          rw [hheap a (hinv.own_live 0 a (held_owns _ _ hheld))]
    rw [hl, hh]; exact hf

theorem size_inc_eq (x : Nat) (h : x + 1 < SIZE_MOD) : size_inc x = x + 1 :=
  Nat.mod_eq_of_lt h

theorem size_dec_eq (x : Nat) (h0 : 0 < x) (h : x < SIZE_MOD) : size_dec x = x - 1 := by
  unfold size_dec
  have e : SIZE_MOD + x - 1 = (x - 1) + SIZE_MOD := by omega
  rw [e, Nat.add_mod_right]
  exact Nat.mod_eq_of_lt (by omega)

/-- The dequeue of line 79 keeps the data invariant; the queue loses its head. -/
theorem data_get_some (n : Nat) (s : State) (l : List Nat) (t : Nat) (p : tpool) (work : Nat)
    (hinv : DataInv n s l) (hpc : s.pcs t = Pc.w79)
    (hget : tpool_work_get (some s.tm) s.heap = (some p, some work)) :
    ∃ l1, l = work :: l1 ∧
      DataInv n (goto { s with tm := { p with active_cnt := size_inc p.active_cnt } } t
        (Pc.w83 (some work))) l1 := by
  cases l with
  | nil =>
    rw [work_get_nil s.tm s.heap hinv.queue] at hget
    simp only [Prod.mk.injEq, reduceCtorEq, and_false] at hget
  | cons a l1 =>
    obtain ⟨p1, hg, hq1, _, hact, _⟩ := work_get_cons s.tm s.heap a l1 hinv.queue
    rw [hg] at hget
    simp only [Prod.mk.injEq, Option.some.injEq] at hget
    obtain ⟨rfl, rfl⟩ := hget
    refine ⟨l1, rfl, ?_⟩
    have hnd := List.nodup_cons.mp hinv.queue.2.1
    have ht : t < n := by
      have := hinv.role t
      rw [hpc] at this
      exact of_decide_eq_true this.symm
    refine ⟨?_, hinv.nlt, ?_, ?_, ?_, ?_, ?_, ?_, ?_, ?_, ?_⟩
    · intro x
      show isWorker (setPc s.pcs t (Pc.w83 (some a)) x) = _
      rcases setPc_cases s.pcs t (Pc.w83 (some a)) x with ⟨e, h⟩ | ⟨_, h⟩
      · rw [h, e, ← hinv.role t, hpc]; rfl
      · rw [h]; exact hinv.role x
    · exact queue_is_fields p1 _ s.heap l1 hq1 rfl rfl
    · intro b hb; exact hinv.qlive b (List.mem_cons_of_mem a hb)
    · intro x b h
      change owns (setPc s.pcs t (Pc.w83 (some a)) x) = some b at h
      rcases setPc_cases s.pcs t (Pc.w83 (some a)) x with ⟨_, e⟩ | ⟨_, e⟩
      · rw [e] at h
        have : a = b := Option.some.inj h
        subst this; exact hnd.1
      · rw [e] at h
        exact fun hm => hinv.own_out x b h (List.mem_cons_of_mem a hm)
    · intro x b h
      change owns (setPc s.pcs t (Pc.w83 (some a)) x) = some b at h
      show s.live b = true
      rcases setPc_cases s.pcs t (Pc.w83 (some a)) x with ⟨_, e⟩ | ⟨_, e⟩
      · rw [e] at h
        have : a = b := Option.some.inj h
        subst this; exact hinv.qlive a (List.mem_cons_self a l1)
      · rw [e] at h; exact hinv.own_live x b h
    · intro x x1 b h h1
      change owns (setPc s.pcs t (Pc.w83 (some a)) x) = some b at h
      change owns (setPc s.pcs t (Pc.w83 (some a)) x1) = some b at h1
      rcases setPc_cases s.pcs t (Pc.w83 (some a)) x with ⟨ex, e⟩ | ⟨_, e⟩ <;>
        rcases setPc_cases s.pcs t (Pc.w83 (some a)) x1 with ⟨ex1, e1⟩ | ⟨_, e1⟩ <;>
        rw [e] at h <;> rw [e1] at h1
      · rw [ex, ex1]
      · have : a = b := Option.some.inj h
        subst this
        exact absurd (List.mem_cons_self a l1) (hinv.own_out x1 a h1)
      · have : a = b := Option.some.inj h1
        subst this
        exact absurd (List.mem_cons_self a l1) (hinv.own_out x a h)
      · exact hinv.own_inj x x1 b h h1
    · intro x b h hw
      change owns (setPc s.pcs t (Pc.w83 (some a)) x) = some b at h
      change isWorker (setPc s.pcs t (Pc.w83 (some a)) x) = false at hw
      show (s.heap b).next = none
      rcases setPc_cases s.pcs t (Pc.w83 (some a)) x with ⟨_, e⟩ | ⟨_, e⟩
      · rw [e] at hw; cases hw
      · rw [e] at h hw; exact hinv.pending x b h hw
    · intro x b i h
      change pend (setPc s.pcs t (Pc.w83 (some a)) x) = some (b, i) at h
      show item s.heap b = i
      rcases setPc_cases s.pcs t (Pc.w83 (some a)) x with ⟨_, e⟩ | ⟨_, e⟩
      · rw [e] at h; cases h
      · rw [e] at h; exact hinv.pending_item x b i h
    · show (s.accepted : Multiset Item) = (s.executed : Multiset Item)
        + threadSum (heldItems s.heap) (setPc s.pcs t (Pc.w83 (some a))) n
        + ((l1.map (item s.heap) : List Item) : Multiset Item)
      have hup := threadSum_update (heldItems s.heap) (heldItems s.heap) s.pcs
        (setPc s.pcs t (Pc.w83 (some a))) t n ht (fun x hx _ => by rw [setPc_other _ _ _ _ hx])
      rw [setPc_same, hpc] at hup
      have h0 : heldItems s.heap Pc.w79 = 0 := rfl
      have h1 : heldItems s.heap (Pc.w83 (some a)) = {item s.heap a} := rfl
      rw [h0, h1, add_zero] at hup
      rw [hup, hinv.account, List.map_cons, ← Multiset.cons_coe, ← Multiset.singleton_add]
      simp only [add_assoc]
    · intro h1
      have ht0 : t = 0 := by omega
      subst ht0
      have hf := hinv.fifo h1
      rw [hpc] at hf
      show s.accepted = s.executed ++ heldList s.heap (setPc s.pcs 0 (Pc.w83 (some a)) 0)
        ++ l1.map (item s.heap)
      rw [setPc_same, hf]
      simp [heldList, held]

/-- The data invariant carries over when the queue, the heap, the allocation map
and the owners are the same, given the two counting parts for the new state. -/
theorem data_rebuild (n : Nat) (s s1 : State) (l : List Nat) (hinv : DataInv n s l)
    (hfirst : s1.tm.work_first = s.tm.work_first) (hlast : s1.tm.work_last = s.tm.work_last)
    (hheap : s1.heap = s.heap) (hlive : s1.live = s.live)
    (howns : ∀ x, owns (s1.pcs x) = owns (s.pcs x))
    (hworker : ∀ x, isWorker (s1.pcs x) = isWorker (s.pcs x))
    (hpend : ∀ x, pend (s1.pcs x) = pend (s.pcs x))
    (haccount : (s1.accepted : Multiset Item)
      = (s1.executed : Multiset Item) + threadSum (heldItems s1.heap) s1.pcs n
        + ((l.map (item s1.heap) : List Item) : Multiset Item))
    (hfifo : n = 1 →
      s1.accepted = s1.executed ++ heldList s1.heap (s1.pcs 0) ++ l.map (item s1.heap)) :
    DataInv n s1 l := by
  refine ⟨?_, hinv.nlt, ?_, ?_, ?_, ?_, ?_, ?_, ?_, haccount, hfifo⟩
  · intro t; rw [hworker t]; exact hinv.role t
  · rw [hheap]; exact queue_is_fields _ _ _ _ hinv.queue hfirst hlast
  · rw [hlive]; exact hinv.qlive
  · intro t w h; rw [howns t] at h; exact hinv.own_out t w h
  · intro t w h; rw [howns t] at h; rw [hlive]; exact hinv.own_live t w h
  · intro t t1 w h h1
    rw [howns t] at h; rw [howns t1] at h1
    exact hinv.own_inj t t1 w h h1
  · intro t w h hw
    rw [howns t] at h; rw [hworker t] at hw
    rw [hheap]; exact hinv.pending t w h hw
  · intro t w i h
    rw [hpend t] at h
    rw [hheap]; exact hinv.pending_item t w i h

theorem role_lt (n : Nat) (s : State) (l : List Nat) (hinv : DataInv n s l) (t : Nat)
    (h : isWorker (s.pcs t) = true) : t < n := by
  have := hinv.role t
  rw [h] at this
  exact of_decide_eq_true this.symm

/-- Running the action of line 86 keeps the data invariant. -/
theorem data_action (n : Nat) (s : State) (l : List Nat) (t w : Nat)
    (hinv : DataInv n s l) (hpc : s.pcs t = Pc.w85 (some w)) :
    DataInv n (goto { s with executed := s.executed ++ [item s.heap w] } t (Pc.w87 w)) l := by
  have ht : t < n := role_lt n s l hinv t (by rw [hpc]; rfl)
  refine data_rebuild n s _ l hinv rfl rfl rfl rfl ?_ ?_ ?_ ?_ ?_
  · intro x
    show owns (setPc s.pcs t (Pc.w87 w) x) = _
    rcases setPc_cases s.pcs t (Pc.w87 w) x with ⟨ex, e⟩ | ⟨_, e⟩
    · rw [e, ex, hpc]; rfl
    · rw [e]
  · intro x
    show isWorker (setPc s.pcs t (Pc.w87 w) x) = _
    rcases setPc_cases s.pcs t (Pc.w87 w) x with ⟨ex, e⟩ | ⟨_, e⟩
    · rw [e, ex, hpc]; rfl
    · rw [e]
  · intro x
    show pend (setPc s.pcs t (Pc.w87 w) x) = _
    rcases setPc_cases s.pcs t (Pc.w87 w) x with ⟨ex, e⟩ | ⟨_, e⟩
    · rw [e, ex, hpc]; rfl
    · rw [e]
  · show (s.accepted : Multiset Item)
        = ((s.executed ++ [item s.heap w] : List Item) : Multiset Item)
        + threadSum (heldItems s.heap) (setPc s.pcs t (Pc.w87 w)) n
        + ((l.map (item s.heap) : List Item) : Multiset Item)
    have hup := threadSum_update (heldItems s.heap) (heldItems s.heap) s.pcs
      (setPc s.pcs t (Pc.w87 w)) t n ht (fun x hx _ => by rw [setPc_other _ _ _ _ hx])
    rw [setPc_same, hpc] at hup
    have h0 : heldItems s.heap (Pc.w87 w) = 0 := rfl
    have h1 : heldItems s.heap (Pc.w85 (some w)) = {item s.heap w} := rfl
    rw [h0, h1, add_zero] at hup
    have e : ((s.executed ++ [item s.heap w] : List Item) : Multiset Item)
        = (s.executed : Multiset Item) + {item s.heap w} := by
      rw [← Multiset.coe_singleton, Multiset.coe_add]
    rw [hinv.account, ← hup, e]
    abel
  · intro h1
    have ht0 : t = 0 := by omega
    subst ht0
    have hf := hinv.fifo h1
    rw [hpc] at hf
    show s.accepted = (s.executed ++ [item s.heap w])
      ++ heldList s.heap (setPc s.pcs 0 (Pc.w87 w) 0) ++ l.map (item s.heap)
    rw [setPc_same, hf]
    simp [heldList, held]

/-- The `free` of line 87 keeps the data invariant. -/
theorem data_free (n : Nat) (s : State) (l : List Nat) (t w : Nat)
    (hinv : DataInv n s l) (hpc : s.pcs t = Pc.w87 w) :
    DataInv n (goto { s with live := fun a => if a = w then false else s.live a } t Pc.w90)
      l := by
  have hown : owns (s.pcs t) = some w := by rw [hpc]; rfl
  have hsame : ∀ x b, x ≠ t → owns (s.pcs x) = some b → b ≠ w := by
    intro x b hx h e
    rw [e] at h
    exact hx (hinv.own_inj x t w h hown)
  refine ⟨?_, hinv.nlt, hinv.queue, ?_, ?_, ?_, ?_, ?_, ?_, ?_, ?_⟩
  · intro x
    show isWorker (setPc s.pcs t Pc.w90 x) = _
    rcases setPc_cases s.pcs t Pc.w90 x with ⟨e, h⟩ | ⟨_, h⟩
    · rw [h, e, ← hinv.role t, hpc]; rfl
    · rw [h]; exact hinv.role x
  · intro a ha
    show (if a = w then false else s.live a) = true
    have : a ≠ w := fun e => hinv.own_out t w hown (e ▸ ha)
    rw [if_neg this]; exact hinv.qlive a ha
  · intro x b h
    change owns (setPc s.pcs t Pc.w90 x) = some b at h
    rcases setPc_cases s.pcs t Pc.w90 x with ⟨_, e⟩ | ⟨_, e⟩
    · rw [e] at h; cases h
    · rw [e] at h; exact hinv.own_out x b h
  · intro x b h
    change owns (setPc s.pcs t Pc.w90 x) = some b at h
    show (if b = w then false else s.live b) = true
    rcases setPc_cases s.pcs t Pc.w90 x with ⟨_, e⟩ | ⟨hx, e⟩
    · rw [e] at h; cases h
    · rw [e] at h
      rw [if_neg (hsame x b hx h)]; exact hinv.own_live x b h
  · intro x x1 b h h1
    change owns (setPc s.pcs t Pc.w90 x) = some b at h
    change owns (setPc s.pcs t Pc.w90 x1) = some b at h1
    rcases setPc_cases s.pcs t Pc.w90 x with ⟨_, e⟩ | ⟨_, e⟩
    · rw [e] at h; cases h
    · rcases setPc_cases s.pcs t Pc.w90 x1 with ⟨_, e1⟩ | ⟨_, e1⟩
      · rw [e1] at h1; cases h1
      · rw [e] at h; rw [e1] at h1; exact hinv.own_inj x x1 b h h1
  · intro x b h hw
    change owns (setPc s.pcs t Pc.w90 x) = some b at h
    change isWorker (setPc s.pcs t Pc.w90 x) = false at hw
    show (s.heap b).next = none
    rcases setPc_cases s.pcs t Pc.w90 x with ⟨_, e⟩ | ⟨_, e⟩
    · rw [e] at h; cases h
    · rw [e] at h hw; exact hinv.pending x b h hw
  · intro x b i h
    change pend (setPc s.pcs t Pc.w90 x) = some (b, i) at h
    show item s.heap b = i
    rcases setPc_cases s.pcs t Pc.w90 x with ⟨_, e⟩ | ⟨_, e⟩
    · rw [e] at h; cases h
    · rw [e] at h; exact hinv.pending_item x b i h
  · show (s.accepted : Multiset Item) = (s.executed : Multiset Item)
        + threadSum (heldItems s.heap) (setPc s.pcs t Pc.w90) n
        + ((l.map (item s.heap) : List Item) : Multiset Item)
    rw [hinv.account]
    congr 2
    refine (threadSum_congr _ _ s.pcs _ n (fun x _ => ?_)).symm
    rcases setPc_cases s.pcs t Pc.w90 x with ⟨ex, e⟩ | ⟨_, e⟩
    · rw [e, ex, hpc]; rfl
    · rw [e]
  · intro h1
    have hf := hinv.fifo h1
    show s.accepted = s.executed ++ heldList s.heap (setPc s.pcs t Pc.w90 0)
      ++ l.map (item s.heap)
    rcases setPc_cases s.pcs t Pc.w90 0 with ⟨ex, e⟩ | ⟨_, e⟩
    · rw [e, hf, ex, hpc]; rfl
    · rw [e]; exact hf

/-- The decrement of line 91 keeps the data invariant. -/
theorem data_dec_active (n : Nat) (s : State) (l : List Nat) (t v : Nat)
    (hinv : DataInv n s l) (hpc : s.pcs t = Pc.w91s v) :
    DataInv n (goto { s with tm := { s.tm with active_cnt := size_dec v } } t
      Pc.w92) l := by
  have ht : t < n := role_lt n s l hinv t (by rw [hpc]; rfl)
  refine data_rebuild n s _ l hinv rfl rfl rfl rfl ?_ ?_ ?_ ?_ ?_
  · intro x
    show owns (setPc s.pcs t Pc.w92 x) = _
    rcases setPc_cases s.pcs t Pc.w92 x with ⟨ex, e⟩ | ⟨_, e⟩
    · rw [e, ex, hpc]; rfl
    · rw [e]
  · intro x
    show isWorker (setPc s.pcs t Pc.w92 x) = _
    rcases setPc_cases s.pcs t Pc.w92 x with ⟨ex, e⟩ | ⟨_, e⟩
    · rw [e, ex, hpc]; rfl
    · rw [e]
  · intro x
    show pend (setPc s.pcs t Pc.w92 x) = _
    rcases setPc_cases s.pcs t Pc.w92 x with ⟨ex, e⟩ | ⟨_, e⟩
    · rw [e, ex, hpc]; rfl
    · rw [e]
  · show (s.accepted : Multiset Item) = (s.executed : Multiset Item)
        + threadSum (heldItems s.heap) (setPc s.pcs t Pc.w92) n
        + ((l.map (item s.heap) : List Item) : Multiset Item)
    rw [hinv.account]
    congr 2
    refine (threadSum_congr _ _ s.pcs _ n (fun x _ => ?_)).symm
    rcases setPc_cases s.pcs t Pc.w92 x with ⟨ex, e⟩ | ⟨_, e⟩
    · rw [e, ex, hpc]; rfl
    · rw [e]
  · intro h1
    have ht0 : t = 0 := by omega
    subst ht0
    have hf := hinv.fifo h1
    rw [hpc] at hf
    show s.accepted = s.executed ++ heldList s.heap (setPc s.pcs 0 Pc.w92 0)
      ++ l.map (item s.heap)
    rw [setPc_same, hf]
    simp [heldList, held]

/-- The enqueue of lines 162-168 keeps the data invariant; the queue gains the
new item at its end. -/
theorem data_enq (n : Nat) (s : State) (l : List Nat) (t work : Nat) (func : thread_func_t)
    (arg : Nat) (p : tpool) (heap : Heap)
    (hinv : DataInv n s l) (hpc : s.pcs t = Pc.a162 work func arg)
    (henq : enqueue s.tm s.heap work = some (p, heap)) :
    DataInv n (goto { s with tm := p, heap := heap,
                             accepted := s.accepted ++ [(func, arg)] } t Pc.a169)
      (l ++ [work]) := by
  have hown : owns (s.pcs t) = some work := by rw [hpc]; rfl
  have hout : work ∉ l := hinv.own_out t work hown
  have hnext : (s.heap work).next = none := hinv.pending t work hown (by rw [hpc]; rfl)
  obtain ⟨p1, heap1, he, hq1, hitem, hframe, _, hact, _⟩ :=
    enqueue_queue_is s.tm s.heap l work hinv.queue hout hnext
  rw [he] at henq
  simp only [Option.some.injEq, Prod.mk.injEq] at henq
  obtain ⟨rfl, rfl⟩ := henq
  have hsame : ∀ x b, x ≠ t → owns (s.pcs x) = some b → b ≠ work := by
    intro x b hx h e
    rw [e] at h
    exact hx (hinv.own_inj x t work h hown)
  have hpi : item s.heap work = (func, arg) :=
    hinv.pending_item t work (func, arg) (by rw [hpc]; rfl)
  refine ⟨?_, hinv.nlt, hq1, ?_, ?_, ?_, ?_, ?_, ?_, ?_, ?_⟩
  · intro x
    show isWorker (setPc s.pcs t Pc.a169 x) = _
    rcases setPc_cases s.pcs t Pc.a169 x with ⟨e, h⟩ | ⟨_, h⟩
    · rw [h, e, ← hinv.role t, hpc]; rfl
    · rw [h]; exact hinv.role x
  · intro a ha
    show s.live a = true
    rcases List.mem_append.mp ha with h | h
    · exact hinv.qlive a h
    · have : a = work := by simpa using h
      rw [this]; exact hinv.own_live t work hown
  · intro x b h
    change owns (setPc s.pcs t Pc.a169 x) = some b at h
    rcases setPc_cases s.pcs t Pc.a169 x with ⟨_, e⟩ | ⟨hx, e⟩
    · rw [e] at h; cases h
    · rw [e] at h
      intro hm
      rcases List.mem_append.mp hm with h1 | h1
      · exact hinv.own_out x b h h1
      · have : b = work := by simpa using h1
        exact hsame x b hx h this
  · intro x b h
    change owns (setPc s.pcs t Pc.a169 x) = some b at h
    show s.live b = true
    rcases setPc_cases s.pcs t Pc.a169 x with ⟨_, e⟩ | ⟨_, e⟩
    · rw [e] at h; cases h
    · rw [e] at h; exact hinv.own_live x b h
  · intro x x1 b h h1
    change owns (setPc s.pcs t Pc.a169 x) = some b at h
    change owns (setPc s.pcs t Pc.a169 x1) = some b at h1
    rcases setPc_cases s.pcs t Pc.a169 x with ⟨_, e⟩ | ⟨_, e⟩
    · rw [e] at h; cases h
    · rcases setPc_cases s.pcs t Pc.a169 x1 with ⟨_, e1⟩ | ⟨_, e1⟩
      · rw [e1] at h1; cases h1
      · rw [e] at h; rw [e1] at h1; exact hinv.own_inj x x1 b h h1
  · intro x b h hw
    change owns (setPc s.pcs t Pc.a169 x) = some b at h
    change isWorker (setPc s.pcs t Pc.a169 x) = false at hw
    show (heap1 b).next = none
    rcases setPc_cases s.pcs t Pc.a169 x with ⟨_, e⟩ | ⟨_, e⟩
    · rw [e] at h; cases h
    · rw [e] at h hw
      rw [hframe b (hinv.own_out x b h)]
      exact hinv.pending x b h hw
  · intro x b i h
    change pend (setPc s.pcs t Pc.a169 x) = some (b, i) at h
    show item heap1 b = i
    rcases setPc_cases s.pcs t Pc.a169 x with ⟨_, e⟩ | ⟨_, e⟩
    · rw [e] at h; cases h
    · rw [e] at h; rw [hitem b]; exact hinv.pending_item x b i h
  · show ((s.accepted ++ [(func, arg)] : List Item) : Multiset Item)
        = (s.executed : Multiset Item)
        + threadSum (heldItems heap1) (setPc s.pcs t Pc.a169) n
        + (((l ++ [work]).map (item heap1) : List Item) : Multiset Item)
    have hi : item heap1 = item s.heap := funext hitem
    have h2 : threadSum (heldItems heap1) (setPc s.pcs t Pc.a169) n
        = threadSum (heldItems s.heap) s.pcs n := by
      refine threadSum_congr _ _ s.pcs _ n (fun x _ => ?_)
      unfold heldItems
      rw [hi]
      rcases setPc_cases s.pcs t Pc.a169 x with ⟨ex, e⟩ | ⟨_, e⟩
      · rw [e, ex, hpc]; rfl
      · rw [e]
    rw [h2, hi, List.map_append, List.map_singleton, hpi, ← Multiset.coe_add,
      ← Multiset.coe_add, hinv.account]
    abel
  · intro h1
    have hf := hinv.fifo h1
    have hi : item heap1 = item s.heap := funext hitem
    show s.accepted ++ [(func, arg)] = s.executed
      ++ heldList heap1 (setPc s.pcs t Pc.a169 0) ++ (l ++ [work]).map (item heap1)
    have hh : heldList heap1 (setPc s.pcs t Pc.a169 0) = heldList s.heap (s.pcs 0) := by
      unfold heldList
      rw [hi]
      rcases setPc_cases s.pcs t Pc.a169 0 with ⟨ex, e⟩ | ⟨_, e⟩
      · rw [e, ex, hpc]; rfl
      · rw [e]
    rw [hh, hi, List.map_append, List.map_singleton, hpi, hf]
    simp only [List.append_assoc]

theorem sig_all (s s1 : State) (lab : Label) (h : Effect s lab s1)
    (hself : sig (s1.pcs lab.tid) = sig (s.pcs lab.tid)) (x : Nat) :
    sig (s1.pcs x) = sig (s.pcs x) := by
  by_cases hx : x = lab.tid
  · rw [hx]; exact hself
  · rcases effect_pcs_other s s1 lab h x hx with e | e
    · rw [e]
    · rw [e, sig_wake]
/-- The data invariant only looks at the queue pointers, the heap, the
allocation map, the history and the signature of the program counters. -/
theorem data_transfer (n : Nat) (s s1 : State) (l : List Nat) (hinv : DataInv n s l)
    (hfirst : s1.tm.work_first = s.tm.work_first) (hlast : s1.tm.work_last = s.tm.work_last)
    (hheap : s1.heap = s.heap) (hlive : s1.live = s.live)
    (hacc : s1.accepted = s.accepted) (hexe : s1.executed = s.executed)
    (hsig : ∀ x, sig (s1.pcs x) = sig (s.pcs x)) : DataInv n s1 l := by
  refine data_rebuild n s s1 l hinv hfirst hlast hheap hlive (fun x => sig_owns (hsig x))
    (fun x => sig_isWorker (hsig x)) (fun x => sig_pend (hsig x)) ?_ ?_
  · rw [hacc, hexe, hheap, hinv.account]
    congr 2
    exact (threadSum_congr (heldItems s.heap) (heldItems s.heap) s.pcs s1.pcs n
      (fun x _ => by unfold heldItems; rw [sig_held (hsig x)])).symm
  · intro h1
    have e : heldList s1.heap (s1.pcs 0) = heldList s.heap (s.pcs 0) := by
      unfold heldList; rw [sig_held (hsig 0), hheap]
    rw [hacc, hexe, e, hheap]; exact hinv.fifo h1

/-- The data invariant is kept by every step, provided a worker at line 79 finds
the queue non-empty. -/
theorem data_step (n : Nat) (s s1 : State) (l : List Nat) (lab : Label)
    (hinv : DataInv n s l) (h : Effect s lab s1)
    (hne : s.pcs lab.tid = Pc.w79 → s.tm.work_first ≠ none) :
    ∃ l1, DataInv n s1 l1 ∧ QueueMove s lab.tid l l1 := by
  have hall := sig_all s s1 lab h
  cases h <;> simp only [Label.tid] at hall hne ⊢
  case add_reject => exact ⟨l, hinv, QueueMove.same rfl⟩
  case add_alloc t f arg w hpc hlive =>
    exact ⟨l, data_add_alloc n s l t f arg w hinv hpc hlive, QueueMove.same rfl⟩
  case enter_wait t hpc =>
    exact ⟨l, data_transfer n s _ l hinv rfl rfl rfl rfl rfl rfl
      (hall (by rw [goto_pcs_self, hpc]; rfl)), QueueMove.same rfl⟩
  case enter_destroy t hpc =>
    exact ⟨l, data_transfer n s _ l hinv rfl rfl rfl rfl rfl rfl
      (hall (by rw [goto_pcs_self, hpc]; rfl)), QueueMove.same rfl⟩
  case pure t pc hnext =>
    exact ⟨l, data_transfer n s _ l hinv rfl rfl rfl rfl rfl rfl
      (hall (by rw [goto_pcs_self]; exact pureNext_sig s _ _ hnext)), QueueMove.same rfl⟩
  case lock t pc hnext _ =>
    exact ⟨l, data_transfer n s _ l hinv rfl rfl rfl rfl rfl rfl
      (hall (by rw [goto_pcs_self]; exact lockNext_sig _ _ hnext)), QueueMove.same rfl⟩
  case unlock t pc hnext =>
    exact ⟨l, data_transfer n s _ l hinv rfl rfl rfl rfl rfl rfl
      (hall (by rw [goto_pcs_self]; exact unlockNext_sig s _ _ hnext)), QueueMove.same rfl⟩
  case wait t pc hnext =>
    exact ⟨l, data_transfer n s _ l hinv rfl rfl rfl rfl rfl rfl
      (hall (by rw [cond_wait_pcs_self]; exact waitNext_sig _ _ hnext)), QueueMove.same rfl⟩
  case signal_none t pc hnext _ =>
    exact ⟨l, data_transfer n s _ l hinv rfl rfl rfl rfl rfl rfl
      (hall (by rw [goto_pcs_self]; exact signalNext_sig s _ _ hnext)), QueueMove.same rfl⟩
  case signal_wake t pc v hnext _ =>
    exact ⟨l, data_transfer n s _ l hinv rfl rfl rfl rfl rfl rfl
      (hall (by rw [goto_pcs_self]; exact signalNext_sig s _ _ hnext)), QueueMove.same rfl⟩
  case get_some t p work hpc hget =>
    obtain ⟨l1, hl, h1⟩ := data_get_some n s l t p work hinv hpc hget
    exact ⟨l1, h1, QueueMove.pop work hl hpc⟩
  case get_none t p hpc hget =>
    exfalso
    have hf := hne hpc
    cases hw : s.tm.work_first with
    | none => exact hf hw
    | some w =>
      simp only [tpool_work_get, hw, Prod.mk.injEq, reduceCtorEq, and_false] at hget
  case action t w hpc => exact ⟨l, data_action n s l t w hinv hpc, QueueMove.same rfl⟩
  case free t w hpc => exact ⟨l, data_free n s l t w hinv hpc, QueueMove.same rfl⟩
  case dec_active t v hpc =>
    exact ⟨l, data_dec_active n s l t v hinv hpc, QueueMove.same rfl⟩
  case dec_thread t v hpc =>
    exact ⟨l, data_transfer n s _ l hinv rfl rfl rfl rfl rfl rfl
      (hall (by rw [goto_pcs_self, hpc]; rfl)), QueueMove.same rfl⟩
  case enq t work func arg p heap hpc henq =>
    exact ⟨_, data_enq n s l t work func arg p heap hinv hpc henq, QueueMove.push work rfl⟩
  case set_stop t hpc =>
    exact ⟨l, data_transfer n s _ l hinv rfl rfl rfl rfl rfl rfl
      (hall (by rw [goto_pcs_self, hpc]; rfl)), QueueMove.same rfl⟩
  case broadcast t hpc =>
    exact ⟨l, data_transfer n s _ l hinv rfl rfl rfl rfl rfl rfl
      (hall (by rw [goto_pcs_self, hpc]; rfl)), QueueMove.same rfl⟩
  case release t hpc =>
    exact ⟨l, data_transfer n s _ l hinv rfl rfl rfl rfl rfl rfl
      (hall (by rw [goto_pcs_self, hpc]; rfl)), QueueMove.same rfl⟩

theorem threadSum_zero {α : Type} [AddCommMonoid α] (f : Pc → α) (pcs : Nat → Pc) :
    ∀ n, (∀ x, x < n → f (pcs x) = 0) → threadSum f pcs n = 0
  | 0, _ => rfl
  | n + 1, h => by
    show threadSum f pcs n + f (pcs n) = 0
    rw [threadSum_zero f pcs n (fun x hx => h x (Nat.lt_succ_of_lt hx)),
      h n (Nat.lt_succ_self n), add_zero]

theorem data_init (num : Nat) (hnum : nworkers num < SIZE_MOD) :
    DataInv (nworkers num) (init num) [] := by
  have hown : ∀ t, owns ((init num).pcs t) = none := by
    intro t; rcases init_pcs_cases num t with e | e <;> rw [e] <;> rfl
  refine ⟨?_, hnum, ⟨rfl, List.nodup_nil, rfl⟩, ?_, ?_, ?_, ?_, ?_, ?_, ?_, ?_⟩
  · intro t
    rw [init_pcs]
    by_cases h : t < nworkers num
    · rw [if_pos h]; simp [isWorker, h]
    · rw [if_neg h]; simp [isWorker, h]
  · intro w hw; cases hw
  · intro t w h; rw [hown t] at h; cases h
  · intro t w h; rw [hown t] at h; cases h
  · intro t t1 w h; rw [hown t] at h; cases h
  · intro t w h; rw [hown t] at h; cases h
  · intro t w i h
    rcases init_pcs_cases num t with e | e <;> rw [e] at h <;> cases h
  · show ((([] : List Item) : Multiset Item)) = (([] : List Item) : Multiset Item) + _ + _
    rw [threadSum_zero]
    · rfl
    · intro x _
      rcases init_pcs_cases num x with e | e <;> rw [e] <;> rfl
  · intro _
    show ([] : List Item) = [] ++ heldList _ ((init num).pcs 0) ++ []
    rcases init_pcs_cases num 0 with e | e <;> rw [e] <;> rfl

/-- Every state reached while `stop` is false satisfies the control invariant and,
for some queue contents, the data invariant. -/
theorem reachable_inv (num : Nat) (hnum : nworkers num < SIZE_MOD) (s : State)
    (hr : Reachable num s) (hs : s.tm.stop = false) :
    CtlInv s ∧ ∃ l, DataInv (nworkers num) s l := by
  obtain ⟨labs, hrun⟩ := hr
  have := run_invariant
    (fun s => s.tm.stop = false → CtlInv s ∧ ∃ l, DataInv (nworkers num) s l)
    (fun s lab s1 hi hstep hs1 => by
      have he := step_effect s s1 lab hstep
      obtain ⟨hc, l, hd⟩ := hi (effect_stop_false s s1 lab he hs1)
      obtain ⟨l1, hd1, _⟩ := data_step _ s s1 l lab hd he (fun e => hc.nonempty _ (Or.inr e))
      exact ⟨ctl_step s s1 lab hc he hs1, l1, hd1⟩)
    labs (init num) s (fun _ => ⟨ctl_init num, [], data_init num hnum⟩) hrun
  exact this hs

/-! ## The counter `active_cnt` -/

theorem load_wake (pc : Pc) (v : Nat) (h : wake pc = Pc.w91s v) : pc = Pc.w91s v := by
  cases pc <;> first | exact h | cases h

theorem active_wake (pc : Pc) : active (wake pc) = active pc := by
  cases pc <;> rfl

/-- A jump leads to the store of line 91 only from its load. -/
theorem pureNext_load (s : State) (pc pc1 : Pc) (h : pureNext s pc = some pc1) (v : Nat)
    (e : pc1 = Pc.w91s v) : v = s.tm.active_cnt := by
  subst e
  cases pc <;> simp only [pureNext, Option.some.injEq, reduceCtorEq] at h
  case w72 => split at h <;> cases h
  case w75 => split at h <;> cases h
  case w85 work => cases work <;> simp [pureNext] at h
  case w91 => cases h; rfl
  case w92 => split at h <;> cases h
  case w99 => split at h <;> cases h
  case t179 => split at h <;> cases h
  case d139 => split at h <;> cases h

theorem lockNext_load (pc pc1 : Pc) (h : lockNext pc = some pc1) (v : Nat) :
    pc1 ≠ Pc.w91s v := by
  intro e; subst e
  cases pc <;> simp [lockNext] at h

theorem unlockNext_load (s : State) (pc pc1 : Pc) (h : unlockNext s pc = some pc1) (v : Nat) :
    pc1 ≠ Pc.w91s v := by
  intro e; subst e
  cases pc <;> simp [unlockNext] at h

theorem waitNext_load (pc pc1 : Pc) (h : waitNext pc = some pc1) (v : Nat) :
    pc1 ≠ Pc.w91s v := by
  intro e; subst e
  cases pc <;> simp [waitNext] at h

theorem signalNext_load (s : State) (pc pc1 : Pc) (h : signalNext s pc = some pc1) (v : Nat) :
    pc1 ≠ Pc.w91s v := by
  intro e; subst e
  cases pc <;> simp [signalNext] at h

/-- A step of a thread that is neither at the dequeue of line 79 nor at the
store of line 91 leaves `active_cnt` and the thread's being active unchanged. -/
theorem effect_active_self (s s1 : State) (lab : Label) (h : Effect s lab s1)
    (h79 : s.pcs lab.tid ≠ Pc.w79) (h91 : ∀ v, s.pcs lab.tid ≠ Pc.w91s v) :
    s1.tm.active_cnt = s.tm.active_cnt ∧ active (s1.pcs lab.tid) = active (s.pcs lab.tid) := by
  cases h <;> simp only [Label.tid] at h79 h91 ⊢
  case add_reject t func arg m hpc _ => simp
  case add_alloc t f arg w hpc _ => rw [goto_pcs_self, hpc]; exact ⟨rfl, rfl⟩
  case enter_wait t hpc => rw [goto_pcs_self, hpc]; exact ⟨rfl, rfl⟩
  case enter_destroy t hpc => rw [goto_pcs_self, hpc]; exact ⟨rfl, rfl⟩
  case pure t pc hnext =>
    rw [goto_pcs_self]; exact ⟨rfl, sig_active (pureNext_sig s _ _ hnext)⟩
  case lock t pc hnext _ =>
    rw [goto_pcs_self]; exact ⟨rfl, sig_active (lockNext_sig _ _ hnext)⟩
  case unlock t pc hnext =>
    rw [goto_pcs_self]; exact ⟨rfl, sig_active (unlockNext_sig s _ _ hnext)⟩
  case wait t pc hnext =>
    rw [cond_wait_pcs_self]; exact ⟨rfl, sig_active (waitNext_sig _ _ hnext)⟩
  case signal_none t pc hnext _ =>
    rw [goto_pcs_self]; exact ⟨rfl, sig_active (signalNext_sig s _ _ hnext)⟩
  case signal_wake t pc v hnext _ =>
    rw [goto_pcs_self]; exact ⟨rfl, sig_active (signalNext_sig s _ _ hnext)⟩
  case get_some t p work hpc _ => exact absurd hpc h79
  case get_none t p hpc _ => exact absurd hpc h79
  case action t w hpc => rw [goto_pcs_self, hpc]; exact ⟨rfl, rfl⟩
  case free t w hpc => rw [goto_pcs_self, hpc]; exact ⟨rfl, rfl⟩
  case dec_active t v hpc => exact absurd hpc (h91 v)
  case dec_thread t v hpc => rw [goto_pcs_self, hpc]; exact ⟨rfl, rfl⟩
  case enq t work func arg p heap hpc he =>
    rw [goto_pcs_self, hpc]; exact ⟨(enqueue_fields _ _ _ _ _ he).2.2, rfl⟩
  case set_stop t hpc => rw [goto_pcs_self, hpc]; exact ⟨rfl, rfl⟩
  case broadcast t hpc => rw [goto_pcs_self, hpc]; exact ⟨rfl, rfl⟩
  case release t hpc => rw [goto_pcs_self, hpc]; exact ⟨rfl, rfl⟩

/-- A worker that stands before the store of line 91 has just loaded
`active_cnt`. -/
theorem effect_load_self (s s1 : State) (lab : Label) (h : Effect s lab s1) (v : Nat)
    (hpc1 : s1.pcs lab.tid = Pc.w91s v) : v = s.tm.active_cnt := by
  cases h <;> simp only [Label.tid] at hpc1
  case add_reject t func arg m hpc _ => rw [hpc] at hpc1; cases hpc1
  case pure t pc hnext =>
    rw [goto_pcs_self] at hpc1; exact pureNext_load s _ _ hnext v hpc1
  case lock t pc hnext _ =>
    rw [goto_pcs_self] at hpc1; exact absurd hpc1 (lockNext_load _ _ hnext v)
  case unlock t pc hnext =>
    rw [goto_pcs_self] at hpc1; exact absurd hpc1 (unlockNext_load s _ _ hnext v)
  case wait t pc hnext =>
    rw [cond_wait_pcs_self] at hpc1; exact absurd hpc1 (waitNext_load _ _ hnext v)
  case signal_none t pc hnext _ =>
    rw [goto_pcs_self] at hpc1; exact absurd hpc1 (signalNext_load s _ _ hnext v)
  case signal_wake t pc u hnext _ =>
    rw [goto_pcs_self] at hpc1; exact absurd hpc1 (signalNext_load s _ _ hnext v)
  all_goals (rw [goto_pcs_self] at hpc1; cases hpc1)

/-- The step of a worker that stands before the store of line 91 is that store. -/
theorem effect_dec_active (s s1 : State) (lab : Label) (h : Effect s lab s1) (v : Nat)
    (hv : s.pcs lab.tid = Pc.w91s v) :
    s1.pcs lab.tid = Pc.w92 ∧ s1.tm.active_cnt = size_dec v := by
  cases h <;> simp only [Label.tid] at hv ⊢
  case dec_active t u h0 =>
    rw [h0] at hv
    have e : u = v := by cases hv; rfl
    rw [goto_pcs_self, e]; exact ⟨rfl, rfl⟩
  case pure t pc hnext => rw [hv] at hnext; cases hnext
  case lock t pc hnext _ => rw [hv] at hnext; cases hnext
  case unlock t pc hnext => rw [hv] at hnext; cases hnext
  case wait t pc hnext => rw [hv] at hnext; cases hnext
  case signal_none t pc hnext _ => rw [hv] at hnext; cases hnext
  case signal_wake t pc u hnext _ => rw [hv] at hnext; cases hnext
  case add_reject t func arg m hpc _ => rw [hv] at hpc; cases hpc
  case add_alloc t f arg w hpc _ => rw [hv] at hpc; cases hpc
  case enter_wait t hpc => rw [hv] at hpc; cases hpc
  case enter_destroy t hpc => rw [hv] at hpc; cases hpc
  case get_some t p work hpc _ => rw [hv] at hpc; cases hpc
  case get_none t p hpc _ => rw [hv] at hpc; cases hpc
  case action t w hpc => rw [hv] at hpc; cases hpc
  case free t w hpc => rw [hv] at hpc; cases hpc
  case dec_thread t u hpc => rw [hv] at hpc; cases hpc
  case enq t work func arg p heap hpc _ => rw [hv] at hpc; cases hpc
  case set_stop t hpc => rw [hv] at hpc; cases hpc
  case broadcast t hpc => rw [hv] at hpc; cases hpc
  case release t hpc => rw [hv] at hpc; cases hpc

/-- The step of a worker that stands before the dequeue of line 79 with a
non-empty queue takes an item and increments `active_cnt`. -/
theorem effect_get (s s1 : State) (lab : Label) (h : Effect s lab s1)
    (hv : s.pcs lab.tid = Pc.w79) (hne : s.tm.work_first ≠ none) :
    (∃ w, s1.pcs lab.tid = Pc.w83 (some w)) ∧
    s1.tm.active_cnt = size_inc s.tm.active_cnt := by
  cases h <;> simp only [Label.tid] at hv ⊢
  case get_some t p work hpc hget =>
    rw [goto_pcs_self]
    refine ⟨⟨work, rfl⟩, ?_⟩
    show size_inc p.active_cnt = _
    rw [(work_get_fields _ _ _ _ hget).2.2]
  case get_none t p hpc hget =>
    exfalso
    simp only [tpool_work_get] at hget
    cases hw : s.tm.work_first with
    | none => exact hne hw
    | some a => rw [hw] at hget; simp at hget
  case pure t pc hnext => rw [hv] at hnext; cases hnext
  case lock t pc hnext _ => rw [hv] at hnext; cases hnext
  case unlock t pc hnext => rw [hv] at hnext; cases hnext
  case wait t pc hnext => rw [hv] at hnext; cases hnext
  case signal_none t pc hnext _ => rw [hv] at hnext; cases hnext
  case signal_wake t pc u hnext _ => rw [hv] at hnext; cases hnext
  case add_reject t func arg m hpc _ => rw [hv] at hpc; cases hpc
  case add_alloc t f arg w hpc _ => rw [hv] at hpc; cases hpc
  case enter_wait t hpc => rw [hv] at hpc; cases hpc
  case enter_destroy t hpc => rw [hv] at hpc; cases hpc
  case action t w hpc => rw [hv] at hpc; cases hpc
  case free t w hpc => rw [hv] at hpc; cases hpc
  case dec_active t u hpc => rw [hv] at hpc; cases hpc
  case dec_thread t u hpc => rw [hv] at hpc; cases hpc
  case enq t work func arg p heap hpc _ => rw [hv] at hpc; cases hpc
  case set_stop t hpc => rw [hv] at hpc; cases hpc
  case broadcast t hpc => rw [hv] at hpc; cases hpc
  case release t hpc => rw [hv] at hpc; cases hpc

/-- How a step changes the number of active workers and `active_cnt`, seen from
the thread that takes it: both go up by one at the dequeue, the store of line 91
takes one worker out and writes the loaded value minus one, and every other step
changes neither. -/
theorem effect_active_others (s s1 : State) (lab : Label) (h : Effect s lab s1) :
    (∀ x, x ≠ lab.tid → activeNum (s1.pcs x) = activeNum (s.pcs x)) ∧
    (∀ x v, x ≠ lab.tid → s1.pcs x = Pc.w91s v → s.pcs x = Pc.w91s v) := by
  constructor
  · intro x hx
    rcases effect_pcs_other s s1 lab h x hx with e | e
    · rw [e]
    · rw [e]; unfold activeNum; rw [active_wake]
  · intro x v hx hv
    rcases effect_pcs_other s s1 lab h x hx with e | e
    · rw [← e]; exact hv
    · rw [e] at hv; exact load_wake _ v hv

/-- While at most one thread holds the mutex, every step keeps the counting
invariant of `active_cnt`. -/
theorem act_step (n : Nat) (hn : n < SIZE_MOD) (s s1 : State) (lab : Label)
    (hc : CtlInv s) (hrole : ∀ x, isWorker (s.pcs x) = true → x < n) (hinv : ActInv n s)
    (h : Effect s lab s1) : ActInv n s1 := by
  obtain ⟨hact, hload⟩ := effect_active_others s s1 lab h
  have hmx : ∀ x, x ≠ lab.tid → inCS (s.pcs lab.tid) = true → inCS (s.pcs x) = true →
      False := by
    intro x hx h1 h2
    have e1 := (hc.mutex _).1 h1
    have e2 := (hc.mutex _).1 h2
    rw [e1] at e2
    exact hx (Option.some.inj e2).symm
  have hle := threadSum_activeNum_le s.pcs n
  by_cases h79 : s.pcs lab.tid = Pc.w79
  · obtain ⟨⟨w, hw⟩, hcnt⟩ := effect_get s s1 lab h h79 (hc.nonempty _ (Or.inr h79))
    have ht : lab.tid < n := hrole _ (by rw [h79]; rfl)
    have hsum := threadSum_update activeNum activeNum s.pcs s1.pcs lab.tid n ht
      (fun x hx _ => hact x hx)
    rw [h79, hw] at hsum
    have e0 : activeNum Pc.w79 = 0 := rfl
    have e1 : activeNum (Pc.w83 (some w)) = 1 := rfl
    rw [e0, e1] at hsum
    have hlt := threadSum_activeNum_lt s.pcs lab.tid n ht (by rw [h79]; rfl)
    have heq := hinv.eq
    constructor
    · rw [hcnt, size_inc_eq _ (by omega)]; omega
    · intro x v hx
      exfalso
      have hxne : x ≠ lab.tid := by
        intro e; rw [e, hw] at hx; cases hx
      exact hmx x hxne (by rw [h79]; rfl) (by rw [hload x v hxne hx]; rfl)
  · by_cases hd : ∃ v, s.pcs lab.tid = Pc.w91s v
    · obtain ⟨v, hv⟩ := hd
      obtain ⟨hpc1, hcnt⟩ := effect_dec_active s s1 lab h v hv
      have ht : lab.tid < n := hrole _ (by rw [hv]; rfl)
      have hsum := threadSum_update activeNum activeNum s.pcs s1.pcs lab.tid n ht
        (fun x hx _ => hact x hx)
      rw [hv, hpc1] at hsum
      have e0 : activeNum (Pc.w91s v) = 1 := rfl
      have e1 : activeNum Pc.w92 = 0 := rfl
      rw [e0, e1] at hsum
      have heq := hinv.eq
      have hve := hinv.loaded _ v hv
      constructor
      · rw [hcnt, size_dec_eq v (by omega) (by omega)]; omega
      · intro x w hx
        exfalso
        have hxne : x ≠ lab.tid := by
          intro e; rw [e, hpc1] at hx; cases hx
        exact hmx x hxne (by rw [hv]; rfl) (by rw [hload x w hxne hx]; rfl)
    · have h91 : ∀ v, s.pcs lab.tid ≠ Pc.w91s v := fun v e => hd ⟨v, e⟩
      obtain ⟨hcnt, hself⟩ := effect_active_self s s1 lab h h79 h91
      have hsum : threadSum activeNum s1.pcs n = threadSum activeNum s.pcs n := by
        refine threadSum_congr activeNum activeNum s.pcs s1.pcs n ?_
        intro x _
        by_cases hx : x = lab.tid
        · rw [hx]; unfold activeNum; rw [hself]
        · exact hact x hx
      constructor
      · rw [hcnt, hsum]; exact hinv.eq
      · intro x v hx
        rw [hcnt]
        by_cases hxt : x = lab.tid
        · rw [hxt] at hx
          exact effect_load_self s s1 lab h v hx
        · exact hinv.loaded x v (hload x v hxt hx)

theorem act_init (num : Nat) : ActInv (nworkers num) (init num) := by
  constructor
  · show (0 : Nat) = _
    rw [threadSum_zero]
    intro x _
    rcases init_pcs_cases num x with e | e <;> rw [e] <;> rfl
  · intro t v h
    rcases init_pcs_cases num t with e | e <;> rw [e] at h <;> cases h

/-- In every state reached while `stop` is false, `active_cnt` is the number of
workers between increment and decrement. -/
theorem reachable_act (num : Nat) (hnum : nworkers num < SIZE_MOD) (s : State)
    (hr : Reachable num s) (hs : s.tm.stop = false) : ActInv (nworkers num) s := by
  refine reachable_induction num (fun s => s.tm.stop = false → ActInv (nworkers num) s)
    (fun _ => act_init num) ?_ s hr hs
  intro s lab s1 hrs hi hstep hs1
  have he := step_effect s s1 lab hstep
  have hs0 := effect_stop_false s s1 lab he hs1
  obtain ⟨hc, l, hd⟩ := reachable_inv num hnum s hrs hs0
  exact act_step _ hnum s s1 lab hc (fun x hx => role_lt _ s l hd x hx) (hi hs0) he

theorem held_active (pc : Pc) (w : Nat) (h : held pc = some w) : activeNum pc = 1 := by
  cases pc <;> simp only [held, reduceCtorEq] at h <;> rfl

theorem threadSum_activeNum_zero (pcs : Nat → Pc) :
    ∀ n, threadSum activeNum pcs n = 0 → ∀ x, x < n → activeNum (pcs x) = 0
  | 0, _, x, hx => absurd hx (Nat.not_lt_zero x)
  | n + 1, h, x, hx => by
    change threadSum activeNum pcs n + activeNum (pcs n) = 0 at h
    by_cases hn : x = n
    · rw [hn]; omega
    · exact threadSum_activeNum_zero pcs n (by omega) x (by omega)

/-- With `active_cnt = 0` no payload is in flight. -/
theorem no_held_of_idle (n : Nat) (s : State)
    (hact : s.tm.active_cnt = threadSum activeNum s.pcs n)
    (h0 : s.tm.active_cnt = 0) : threadSum (heldItems s.heap) s.pcs n = 0 := by
  rw [hact] at h0
  refine threadSum_zero _ _ n (fun x hx => ?_)
  have := threadSum_activeNum_zero s.pcs n h0 x hx
  unfold heldItems
  cases hh : held (s.pcs x) with
  | none => rfl
  | some w => rw [held_active _ w hh] at this; cases this

theorem setPc_self (pcs : Nat → Pc) (t : Nat) (pc : Pc) (h : pcs t = pc) :
    setPc pcs t pc = pcs := by
  funext x
  by_cases hx : x = t
  · rw [hx, setPc_same, h]
  · rw [setPc_other _ _ _ _ hx]

theorem setPc_setPc (pcs : Nat → Pc) (t : Nat) (pc pc1 : Pc) :
    setPc (setPc pcs t pc) t pc1 = setPc pcs t pc1 := by
  funext x
  by_cases hx : x = t
  · rw [hx, setPc_same, setPc_same]
  · rw [setPc_other _ _ _ _ hx, setPc_other _ _ _ _ hx, setPc_other _ _ _ _ hx]

/-- A call of `tpool_wait` on a drained pool with a free mutex runs through
lines 178, 179 and 182 and gives back the state it started from. -/
theorem wait_on_drained (s : State) (t : Nat) (hpc : s.pcs t = Pc.idle)
    (hm : s.work_mutex = none) (hf : s.freed = false) (hq : s.tm.work_first = none)
    (ha : s.tm.active_cnt = 0) :
    run s [Label.call t Call.wait, Label.exec t none, Label.exec t none, Label.exec t none]
      = some s := by
  have h1 : step s (Label.call t Call.wait) = some (goto s t Pc.t178) := by
    simp only [step, hpc, if_true, enter]
  have h2 : step (goto s t Pc.t178) (Label.exec t none)
      = some (goto { s with work_mutex := some t } t Pc.t179) := by
    simp only [step, goto, setPc_same, hf, Bool.false_eq_true, false_and, if_false, stmt,
      lock, hm, if_true, setPc_setPc]
  have h3 : step (goto { s with work_mutex := some t } t Pc.t179) (Label.exec t none)
      = some (goto { s with work_mutex := some t } t Pc.t182) := by
    simp only [step, goto, setPc_same, hf, Bool.false_eq_true, false_and, if_false, stmt,
      hq, ha, setPc_setPc]
    simp
  have h4 : step (goto { s with work_mutex := some t } t Pc.t182) (Label.exec t none)
      = some (goto (unlock (goto { s with work_mutex := some t } t Pc.t182)) t Pc.idle) := by
    simp only [step, goto, setPc_same, hf, Bool.false_eq_true, false_and, if_false, stmt]
  have h5 : goto (unlock (goto { s with work_mutex := some t } t Pc.t182)) t Pc.idle = s := by
    obtain ⟨tm, heap, live, mutex, cond, freed, pcs, acc, exe⟩ := s
    simp only at hm hpc
    subst hm
    simp only [goto, unlock, setPc_setPc, setPc_self _ _ _ hpc]
  rw [h5] at h4
  rw [run, h1, Option.some_bind, run, h2, Option.some_bind, run, h3, Option.some_bind, run, h4,
    Option.some_bind, run]

theorem held_isWorker (pc : Pc) (w : Nat) (h : held pc = some w) : isWorker pc = true := by
  cases pc <;> simp only [held, reduceCtorEq] at h <;> rfl

/-! ## Claims on the concurrent layer -/

/-- C5 (drain completeness): in every state reached while `stop` is false, a
thread of `tpool_wait` that has passed the test of line 179 sees an empty queue
and `active_cnt = 0`, no item is in flight, and the actions executed so far are
exactly the accepted payloads, each as often as it was accepted.  And a call of
`tpool_wait` on a drained pool with a free mutex runs straight through lines
178-182 without blocking and gives back the state it started from. -/
theorem drain_completeness (num : Nat) (hnum : nworkers num < SIZE_MOD) (s : State)
    (hr : Reachable num s) (hs : s.tm.stop = false) (t : Nat) :
    (s.pcs t = Pc.t182 →
      s.tm.work_first = none ∧ s.tm.active_cnt = 0 ∧ (∀ x, held (s.pcs x) = none) ∧
      s.accepted.Perm s.executed) ∧
    (s.pcs t = Pc.idle → s.work_mutex = none → s.tm.work_first = none →
      s.tm.active_cnt = 0 →
      run s [Label.call t Call.wait, Label.exec t none, Label.exec t none, Label.exec t none]
        = some s) := by
  obtain ⟨hctl, l, hd⟩ := reachable_inv num hnum s hr hs
  have hact := (reachable_act num hnum s hr hs).eq
  constructor
  · intro hpc
    obtain ⟨hq, ha⟩ := hctl.drained t hpc
    have hl : l = [] := (queue_is_first_none s.tm s.heap l hd.queue).1 hq
    have hz := no_held_of_idle _ s hact ha
    refine ⟨hq, ha, ?_, ?_⟩
    · intro x
      cases hh : held (s.pcs x) with
      | none => rfl
      | some w =>
        exfalso
        have hx : x < nworkers num := role_lt _ s l hd x (held_isWorker _ w hh)
        have h0 := threadSum_activeNum_zero s.pcs _ (hact ▸ ha) x hx
        rw [held_active _ w hh] at h0
        cases h0
    · have hacc := hd.account
      rw [hz, hl, add_zero] at hacc
      have : (s.accepted : Multiset Item) = (s.executed : Multiset Item) := by
        rw [hacc]; simp
      exact Multiset.coe_eq_coe.mp this
  · intro hpc hm hq ha
    exact wait_on_drained s t hpc hm hctl.notfreed hq ha

theorem drain_completeness_witness :
    nworkers 1 < SIZE_MOD ∧ Reachable 1 drainedState ∧ drainedState.tm.stop = false ∧
    drainedState.pcs 1 = Pc.t182 ∧ drainedState.accepted = [(some 7, 3)] ∧
    (drainedState.tm.work_first = none ∧ drainedState.tm.active_cnt = 0 ∧
      (∀ x, held (drainedState.pcs x) = none) ∧
      drainedState.accepted.Perm drainedState.executed) ∧
    Reachable 1 servedState ∧ servedState.tm.stop = false ∧
    servedState.accepted = [(some 7, 3)] ∧ servedState.pcs 1 = Pc.idle ∧
    run servedState
        [Label.call 1 Call.wait, Label.exec 1 none, Label.exec 1 none, Label.exec 1 none]
      = some servedState :=
  ⟨by decide, ⟨drainedSchedule, rfl⟩, rfl, rfl, rfl,
    (drain_completeness 1 (by decide) drainedState ⟨drainedSchedule, rfl⟩ rfl 1).1 rfl,
    ⟨servedSchedule, rfl⟩, rfl, rfl, rfl,
    (drain_completeness 1 (by decide) servedState ⟨servedSchedule, rfl⟩ rfl 1).2
      rfl rfl rfl rfl⟩

/-- C6 (exactly-once accounting): in every state reached while `stop` is false the
queue is a well-formed list `l`, and every accepted payload is, with its
multiplicity, in exactly one of three places: executed, in flight with a worker, or
queued.  An item owned by a thread is not in the queue and is owned by no other
thread, so `tpool_work_get` never hands one item to two workers; a worker with an
item in flight is counted once in `active_cnt`; and when the accepted payloads are
pairwise distinct, no action has run twice and no executed item is still queued. -/
theorem exactly_once_accounting (num : Nat) (hnum : nworkers num < SIZE_MOD) (s : State)
    (hr : Reachable num s) (hs : s.tm.stop = false) :
    ∃ l, queue_is s.tm s.heap l ∧
      (s.accepted : Multiset Item)
        = (s.executed : Multiset Item) + threadSum (heldItems s.heap) s.pcs (nworkers num)
          + ((l.map (item s.heap) : List Item) : Multiset Item) ∧
      (∀ t w, owns (s.pcs t) = some w → w ∉ l) ∧
      (∀ t t1 w, owns (s.pcs t) = some w → owns (s.pcs t1) = some w → t = t1) ∧
      (∀ t w, held (s.pcs t) = some w → t < nworkers num ∧ activeNum (s.pcs t) = 1) ∧
      s.tm.active_cnt = threadSum activeNum s.pcs (nworkers num) ∧
      (s.accepted.Nodup →
        s.executed.Nodup ∧ ∀ i ∈ s.executed, i ∈ s.accepted ∧ i ∉ l.map (item s.heap)) := by
  obtain ⟨_, l, hd⟩ := reachable_inv num hnum s hr hs
  refine ⟨l, hd.queue, hd.account, hd.own_out, hd.own_inj, ?_,
    (reachable_act num hnum s hr hs).eq, ?_⟩
  · intro t w h
    exact ⟨role_lt _ s l hd t (held_isWorker _ w h), held_active _ w h⟩
  · intro hnd
    have h1 : (s.accepted : Multiset Item).Nodup := Multiset.coe_nodup.mpr hnd
    rw [hd.account, add_assoc] at h1
    obtain ⟨he, hrest, hdisj⟩ := Multiset.nodup_add.mp h1
    refine ⟨Multiset.coe_nodup.mp he, ?_⟩
    intro i hi
    constructor
    · have : i ∈ (s.accepted : Multiset Item) := by
        rw [hd.account]
        exact Multiset.mem_add.mpr (Or.inl (Multiset.mem_add.mpr (Or.inl (Multiset.mem_coe.mpr hi))))
      exact Multiset.mem_coe.mp this
    · intro hq
      have h2 : i ∈ threadSum (heldItems s.heap) s.pcs (nworkers num)
          + ((l.map (item s.heap) : List Item) : Multiset Item) :=
        Multiset.mem_add.mpr (Or.inr (Multiset.mem_coe.mpr hq))
      exact Multiset.disjoint_left.mp hdisj (Multiset.mem_coe.mpr hi) h2

theorem exactly_once_accounting_witness :
    nworkers 1 < SIZE_MOD ∧ Reachable 1 submitState ∧ submitState.tm.stop = false ∧
    submitState.pcs 0 = Pc.w83 (some 10) ∧
    ∃ l, queue_is submitState.tm submitState.heap l ∧
      (submitState.accepted : Multiset Item)
        = (submitState.executed : Multiset Item)
          + threadSum (heldItems submitState.heap) submitState.pcs (nworkers 1)
          + ((l.map (item submitState.heap) : List Item) : Multiset Item) ∧
      (∀ t w, owns (submitState.pcs t) = some w → w ∉ l) ∧
      (∀ t t1 w, owns (submitState.pcs t) = some w → owns (submitState.pcs t1) = some w →
        t = t1) ∧
      (∀ t w, held (submitState.pcs t) = some w →
        t < nworkers 1 ∧ activeNum (submitState.pcs t) = 1) ∧
      submitState.tm.active_cnt = threadSum activeNum submitState.pcs (nworkers 1) ∧
      (submitState.accepted.Nodup →
        submitState.executed.Nodup ∧
          ∀ i ∈ submitState.executed,
            i ∈ submitState.accepted ∧ i ∉ l.map (item submitState.heap)) :=
  ⟨by decide, ⟨submitSchedule, rfl⟩, rfl, rfl,
    exactly_once_accounting 1 (by decide) submitState ⟨submitSchedule, rfl⟩ rfl⟩

theorem onExitWay_wake (pc : Pc) : onExitWay (wake pc) = onExitWay pc := by
  cases pc <;> rfl

theorem pureNext_exit (s : State) (pc pc1 : Pc) (hs : s.tm.stop = true)
    (h : pureNext s pc = some pc1) (he : onExitWay pc = true) : onExitWay pc1 = true := by
  cases pc <;> simp only [pureNext, hs, Option.some.injEq, reduceCtorEq] at h <;>
    first | (exfalso; cases he; done) | skip
  case w72 => subst h; simp [onExitWay]
  case w75 => simp at h
  case w98 => subst h; rfl
  case w99 => split at h <;> cases h; rfl

theorem lockNext_exit (pc pc1 : Pc) (h : lockNext pc = some pc1) (he : onExitWay pc = true) :
    onExitWay pc1 = true := by
  cases pc <;> simp only [lockNext, Option.some.injEq, reduceCtorEq] at h <;>
    first | (subst h; rfl) | (exfalso; cases he)

theorem unlockNext_exit (s : State) (pc pc1 : Pc) (h : unlockNext s pc = some pc1)
    (he : onExitWay pc = true) : onExitWay pc1 = true := by
  cases pc <;> simp only [unlockNext, Option.some.injEq, reduceCtorEq] at h <;>
    first | (exfalso; cases he; done) | skip
  case w75 => split at h <;> cases h; rfl
  case w102 => subst h; rfl

theorem waitNext_exit (pc pc1 : Pc) (h : waitNext pc = some pc1) (he : onExitWay pc = true) :
    onExitWay pc1 = true := by
  cases pc <;> simp only [waitNext, Option.some.injEq, reduceCtorEq] at h <;>
    first | (subst h; rfl) | (exfalso; cases he)

theorem signalNext_exit (s : State) (pc pc1 : Pc) (h : signalNext s pc = some pc1)
    (he : onExitWay pc = true) : onExitWay pc1 = true := by
  cases pc <;> simp only [signalNext, Option.some.injEq, reduceCtorEq] at h <;>
    first | (exfalso; cases he; done) | skip
  case w99 => split at h <;> cases h; rfl

/-- With `stop` set, a step of a worker that is before the test of line 75 or on
its exit path leaves the queue and the history alone and keeps the worker there. -/
theorem exit_step_self (s s1 : State) (lab : Label) (h : Effect s lab s1)
    (hs : s.tm.stop = true) (he : onExitWay (s.pcs lab.tid) = true) :
    onExitWay (s1.pcs lab.tid) = true ∧ s1.tm.work_first = s.tm.work_first ∧
      s1.tm.work_last = s.tm.work_last ∧ s1.heap = s.heap ∧ s1.executed = s.executed := by
  cases h <;> simp only [Label.tid] at he ⊢
  case add_reject => refine ⟨he, ?_, ?_, ?_, ?_⟩ <;> first | rfl | trivial
  case add_alloc t f arg w hpc _ => rw [hpc] at he; cases he
  case enter_wait t hpc => rw [hpc] at he; cases he
  case enter_destroy t hpc => rw [hpc] at he; cases he
  case pure t pc hnext =>
    rw [goto_pcs_self]; exact ⟨pureNext_exit s _ _ hs hnext he, rfl, rfl, rfl, rfl⟩
  case lock t pc hnext _ =>
    rw [goto_pcs_self]; exact ⟨lockNext_exit _ _ hnext he, rfl, rfl, rfl, rfl⟩
  case unlock t pc hnext =>
    rw [goto_pcs_self]; exact ⟨unlockNext_exit s _ _ hnext he, rfl, rfl, rfl, rfl⟩
  case wait t pc hnext =>
    rw [cond_wait_pcs_self]; exact ⟨waitNext_exit _ _ hnext he, rfl, rfl, rfl, rfl⟩
  case signal_none t pc hnext _ =>
    rw [goto_pcs_self]; exact ⟨signalNext_exit s _ _ hnext he, rfl, rfl, rfl, rfl⟩
  case signal_wake t pc v hnext _ =>
    rw [goto_pcs_self]; exact ⟨signalNext_exit s _ _ hnext he, rfl, rfl, rfl, rfl⟩
  case get_some t p work hpc _ => rw [hpc] at he; cases he
  case get_none t p hpc _ => rw [hpc] at he; cases he
  case action t w hpc => rw [hpc] at he; cases he
  case free t w hpc => rw [hpc] at he; cases he
  case dec_active t v hpc => rw [hpc] at he; cases he
  case dec_thread t v hpc => rw [goto_pcs_self]; exact ⟨rfl, rfl, rfl, rfl, rfl⟩
  case enq t work func arg p heap hpc _ => rw [hpc] at he; cases he
  case set_stop t hpc => rw [hpc] at he; cases he
  case broadcast t hpc => rw [hpc] at he; cases he
  case release t hpc => rw [hpc] at he; cases he

/-- With `stop` set, no step of any thread takes such a worker to line 79. -/
theorem exit_step (s s1 : State) (lab : Label) (t : Nat) (h : Effect s lab s1)
    (hs : s.tm.stop = true) (he : onExitWay (s.pcs t) = true) :
    onExitWay (s1.pcs t) = true := by
  by_cases ht : t = lab.tid
  · subst ht; exact (exit_step_self s s1 lab h hs he).1
  · rcases effect_pcs_other s s1 lab h t ht with e | e
    · rw [e]; exact he
    · rw [e, onExitWay_wake]; exact he

theorem exit_run (t : Nat) (labs : List Label) (s s1 : State) (hs : s.tm.stop = true)
    (he : onExitWay (s.pcs t) = true) (hrun : run s labs = some s1) :
    s1.tm.stop = true ∧ onExitWay (s1.pcs t) = true :=
  run_invariant (fun s => s.tm.stop = true ∧ onExitWay (s.pcs t) = true)
    (fun s lab s1 hi hstep =>
      ⟨effect_stop s s1 lab (step_effect s s1 lab hstep) hi.1,
       exit_step s s1 lab t (step_effect s s1 lab hstep) hi.1 hi.2⟩)
    labs s s1 ⟨hs, he⟩ hrun

/-- A step takes its thread to line 79 only with `stop` false. -/
theorem effect_w79 (s s1 : State) (lab : Label) (h : Effect s lab s1)
    (hpc : s1.pcs lab.tid = Pc.w79) : s1.tm.stop = false := by
  have hg : guarded (s1.pcs lab.tid) = true := by rw [hpc]; rfl
  cases h <;> simp only [Label.tid] at hpc hg
  case add_reject t func arg m hidle _ => rw [hidle] at hpc; cases hpc
  case pure t pc hnext =>
    rw [goto_pcs_self] at hpc
    subst hpc
    show s.tm.stop = false
    generalize s.pcs t = q at hnext
    cases q <;> simp only [pureNext, Option.some.injEq, reduceCtorEq] at hnext
    case w72 => split at hnext <;> cases hnext
    case w75 =>
      split at hnext
      · cases hnext
      · rename_i hns; simpa using hns
    case w85 work => cases work <;> simp [pureNext] at hnext
    case w92 => split at hnext <;> cases hnext
    case w99 => split at hnext <;> cases hnext
    case t179 => split at hnext <;> cases hnext
    case d139 => split at hnext <;> cases hnext
  case lock t pc hnext _ =>
    rw [goto_pcs_self] at hg; rw [lockNext_guarded _ _ hnext] at hg; cases hg
  case unlock t pc hnext =>
    rw [goto_pcs_self] at hg; rw [unlockNext_guarded _ _ _ hnext] at hg; cases hg
  case wait t pc hnext =>
    rw [cond_wait_pcs_self] at hg; rw [waitNext_guarded _ _ hnext] at hg; cases hg
  case signal_none t pc hnext _ =>
    rw [goto_pcs_self] at hg; rw [signalNext_guarded _ _ _ hnext] at hg; cases hg
  case signal_wake t pc v hnext _ =>
    rw [goto_pcs_self] at hg; rw [signalNext_guarded _ _ _ hnext] at hg; cases hg
  all_goals (rw [goto_pcs_self] at hg; cases hg)

/-- In every reachable state: before shutdown the control invariant holds, and
once `stop` is set no worker is at the dequeue of line 79. -/
theorem reachable_no_dequeue (num : Nat) (s : State) (hr : Reachable num s) :
    (s.tm.stop = false → CtlInv s) ∧ (s.tm.stop = true → ∀ x, s.pcs x ≠ Pc.w79) := by
  obtain ⟨labs, hrun⟩ := hr
  refine run_invariant
    (fun s => (s.tm.stop = false → CtlInv s) ∧ (s.tm.stop = true → ∀ x, s.pcs x ≠ Pc.w79))
    ?_ labs (init num) s ⟨fun _ => ctl_init num, fun h => by cases h⟩ hrun
  intro s lab s1 hi hstep
  have he := step_effect s s1 lab hstep
  refine ⟨fun hs1 => ctl_step s s1 lab (hi.1 (effect_stop_false s s1 lab he hs1)) he hs1, ?_⟩
  intro hs1 x hx
  by_cases hxt : x = lab.tid
  · subst hxt
    rw [effect_w79 s s1 _ he hx] at hs1; cases hs1
  · have hpc : s.pcs x = Pc.w79 := by
      rcases effect_pcs_other s s1 lab he x hxt with e | e
      · rw [← e]; exact hx
      · rw [e] at hx
        rw [← guarded_wake (s.pcs x) (by rw [hx]; rfl)]; exact hx
    cases hs : s.tm.stop with
    | true => exact hi.2 hs x hpc
    | false =>
      have hc := hi.1 hs
      have hown : s.work_mutex = some x := (hc.mutex x).1 (by rw [hpc]; rfl)
      have hin : inCS (s.pcs lab.tid) = true := by
        cases hcs : inCS (s.pcs lab.tid) with
        | true => rfl
        | false =>
          have := effect_tm_frame s s1 lab he (hc.ok _) hcs
          rw [this, hs] at hs1; cases hs1
      have := (hc.mutex _).1 hin
      rw [hown] at this
      exact hxt (Option.some.inj this)

/-- Once `stop` is set, no step brings a worker to the dequeue of line 79. -/
theorem no_w79_step (s s1 : State) (lab : Label) (h : Effect s lab s1)
    (hs : s.tm.stop = true) (hno : ∀ x, s.pcs x ≠ Pc.w79) (x : Nat) : s1.pcs x ≠ Pc.w79 := by
  intro hx
  have hs1 := effect_stop s s1 lab h hs
  by_cases hxt : x = lab.tid
  · subst hxt
    rw [effect_w79 s s1 _ h hx] at hs1; cases hs1
  · rcases effect_pcs_other s s1 lab h x hxt with e | e
    · rw [e] at hx; exact hno x hx
    · rw [e] at hx
      rw [guarded_wake (s.pcs x) (by rw [hx]; rfl)] at hx
      exact hno x hx

/-- Every reachable state satisfies the data invariant for some queue contents. -/
theorem reachable_data (num : Nat) (hnum : nworkers num < SIZE_MOD) (s : State)
    (hr : Reachable num s) : ∃ l, DataInv (nworkers num) s l := by
  have hctl : ∀ s, Reachable num s →
      (s.tm.stop = false → CtlInv s) ∧ (s.tm.stop = true → ∀ x, s.pcs x ≠ Pc.w79) :=
    fun s h => reachable_no_dequeue num s h
  obtain ⟨labs, hrun⟩ := hr
  have := run_invariant
    (fun s => ((s.tm.stop = false → CtlInv s) ∧ (s.tm.stop = true → ∀ x, s.pcs x ≠ Pc.w79)) ∧
      ∃ l, DataInv (nworkers num) s l)
    (fun s lab s1 hi hstep => by
      have he := step_effect s s1 lab hstep
      obtain ⟨⟨hc, hno⟩, l, hd⟩ := hi
      have hne : s.pcs lab.tid = Pc.w79 → s.tm.work_first ≠ none := by
        intro hpc
        cases hs : s.tm.stop with
        | false => exact (hc hs).nonempty _ (Or.inr hpc)
        | true => exact absurd hpc (hno hs _)
      obtain ⟨l1, hd1, _⟩ := data_step _ s s1 l lab hd he hne
      refine ⟨⟨fun hs1 => ctl_step s s1 lab (hc (effect_stop_false s s1 lab he hs1)) he hs1,
        ?_⟩, l1, hd1⟩
      intro hs1 x
      cases hs : s.tm.stop with
      | true => exact no_w79_step s s1 lab he hs (hno hs) x
      | false =>
        intro hx
        have hcs := hc hs
        by_cases hxt : x = lab.tid
        · subst hxt
          rw [effect_w79 s s1 _ he hx] at hs1; cases hs1
        · have hpc : s.pcs x = Pc.w79 := by
            rcases effect_pcs_other s s1 lab he x hxt with e | e
            · rw [← e]; exact hx
            · rw [e] at hx
              rw [← guarded_wake (s.pcs x) (by rw [hx]; rfl)]; exact hx
          have hown : s.work_mutex = some x := (hcs.mutex x).1 (by rw [hpc]; rfl)
          have hin : inCS (s.pcs lab.tid) = true := by
            cases hin0 : inCS (s.pcs lab.tid) with
            | true => rfl
            | false =>
              have := effect_tm_frame s s1 lab he (hcs.ok _) hin0
              rw [this, hs] at hs1; cases hs1
          have := (hcs.mutex _).1 hin
          rw [hown] at this
          exact hxt (Option.some.inj this))
    labs (init num) s ⟨⟨fun _ => ctl_init num, fun h => by cases h⟩, [], data_init num hnum⟩ hrun
  exact this.2

/-- After `stop` is set the queue is only ever extended: what is queued stays
queued, in the same order, under every schedule. -/
theorem queue_kept_after_stop (n : Nat) (labs : List Label) (s s1 : State) (l : List Nat)
    (hs : s.tm.stop = true) (hno : ∀ x, s.pcs x ≠ Pc.w79) (hd : DataInv n s l)
    (hrun : run s labs = some s1) :
    ∃ l1, DataInv n s1 l1 ∧ l <+: l1 := by
  have := run_invariant
    (fun s => s.tm.stop = true ∧ (∀ x, s.pcs x ≠ Pc.w79) ∧ ∃ l1, DataInv n s l1 ∧ l <+: l1)
    (fun s lab s1 hi hstep => by
      have he := step_effect s s1 lab hstep
      obtain ⟨h1, h2, l1, hd1, hpre⟩ := hi
      obtain ⟨l2, hd2, hmove⟩ := data_step n s s1 l1 lab hd1 he (fun e => absurd e (h2 _))
      refine ⟨effect_stop s s1 lab he h1, no_w79_step s s1 lab he h1 h2, l2, hd2, ?_⟩
      cases hmove with
      | same h => rw [h]; exact hpre
      | push w h => rw [h]; exact hpre.trans (List.prefix_append l1 [w])
      | pop w h hpc => exact absurd hpc (h2 _))
    labs s s1 ⟨hs, hno, l, hd, List.prefix_refl l⟩ hrun
  exact this.2.2

/-- With `stop` set and the mutex free, a worker at the top of its loop reaches its
exit path in three steps of its own (lines 71, 72, 75-77); the pool record and the
heap are unchanged. -/
theorem worker_exits (s : State) (t : Nat) (hs : s.tm.stop = true) (hpc : s.pcs t = Pc.w71)
    (hm : s.work_mutex = none) (hf : s.freed = false) :
    ∃ s1, run s [Label.exec t none, Label.exec t none, Label.exec t none] = some s1 ∧
      s1.pcs t = Pc.w98 ∧ s1.tm = s.tm ∧ s1.heap = s.heap ∧ s1.executed = s.executed := by
  have h1 : step s (Label.exec t none)
      = some (goto { s with work_mutex := some t } t Pc.w72) := by
    simp only [step, hpc, hf, Bool.false_eq_true, false_and, if_false, stmt, lock, hm, if_true]
  have h2 : step (goto { s with work_mutex := some t } t Pc.w72) (Label.exec t none)
      = some (goto (goto { s with work_mutex := some t } t Pc.w72) t Pc.w75) := by
    simp only [step, goto, setPc_same, hf, Bool.false_eq_true, false_and, if_false, stmt, hs,
      Bool.true_eq_false, and_false, if_false]
  have h3 : step (goto (goto { s with work_mutex := some t } t Pc.w72) t Pc.w75)
        (Label.exec t none)
      = some (goto (unlock (goto (goto { s with work_mutex := some t } t Pc.w72) t Pc.w75))
          t Pc.w98) := by
    simp only [step, goto, setPc_same, hf, Bool.false_eq_true, false_and, if_false, stmt, hs,
      if_true]
  refine ⟨goto (unlock (goto (goto { s with work_mutex := some t } t Pc.w72) t Pc.w75))
    t Pc.w98, ?_, ?_, rfl, rfl, rfl⟩
  · rw [run, h1, Option.some_bind, run, h2, Option.some_bind, run, h3, Option.some_bind, run]
  · exact goto_pcs_self _ _ _

/-- An item in flight is executed by the next step of its worker, whatever `stop`
is. -/
theorem inflight_runs (s : State) (t w : Nat) (hpc : s.pcs t = Pc.w85 (some w)) :
    ∃ s1, step s (Label.exec t none) = some s1 ∧ s1.pcs t = Pc.w87 w ∧
      s1.executed = s.executed ++ [item s.heap w] := by
  refine ⟨goto { s with executed := s.executed ++ [item s.heap w] } t (Pc.w87 w), ?_,
    goto_pcs_self _ _ _, rfl⟩
  simp only [step, hpc, touches, Bool.false_eq_true, and_false, if_false, stmt]

/-- C7 (stop prevents new dequeues): in a state with `stop = true`, (1) every step
of a worker that is at the top of its loop (lines 71-75) or on its exit path keeps
it there and leaves the queue, the heap and the executed actions unchanged;
(2) under every schedule such a worker never reaches the `tpool_work_get` of
line 79; (3) from line 71 with the mutex free, three steps of its own take it to
its exit path, whatever the queue holds; (4) a worker whose item is in flight
still runs the action; (5) in every reachable state with `stop = true` no worker
is at line 79; (6) from such a state on, under every schedule, the items that are
queued stay queued in the same order, so they are never dequeued or executed. -/
theorem stop_prevents_dequeue (s : State) (t : Nat) (hstop : s.tm.stop = true) :
    (onExitWay (s.pcs t) = true → ∀ u s1, step s (Label.exec t u) = some s1 →
      onExitWay (s1.pcs t) = true ∧ s1.tm.work_first = s.tm.work_first ∧
      s1.tm.work_last = s.tm.work_last ∧ s1.heap = s.heap ∧ s1.executed = s.executed) ∧
    (onExitWay (s.pcs t) = true → ∀ labs s1, run s labs = some s1 →
      s1.tm.stop = true ∧ onExitWay (s1.pcs t) = true ∧ s1.pcs t ≠ Pc.w79) ∧
    (s.pcs t = Pc.w71 → s.work_mutex = none → s.freed = false →
      ∃ s1, run s [Label.exec t none, Label.exec t none, Label.exec t none] = some s1 ∧
        s1.pcs t = Pc.w98 ∧ s1.tm = s.tm ∧ s1.heap = s.heap ∧ s1.executed = s.executed) ∧
    (∀ w, s.pcs t = Pc.w85 (some w) →
      ∃ s1, step s (Label.exec t none) = some s1 ∧ s1.pcs t = Pc.w87 w ∧
        s1.executed = s.executed ++ [item s.heap w]) ∧
    (∀ num, Reachable num s → ∀ x, s.pcs x ≠ Pc.w79) ∧
    (∀ num, nworkers num < SIZE_MOD → Reachable num s → ∀ labs s1, run s labs = some s1 →
      ∃ l l1, queue_is s.tm s.heap l ∧ queue_is s1.tm s1.heap l1 ∧ l <+: l1) := by
  refine ⟨?_, ?_, ?_, ?_, ?_, ?_⟩
  · intro he u s1 hstep
    exact exit_step_self s s1 _ (step_effect s s1 _ hstep) hstop he
  · intro he labs s1 hrun
    obtain ⟨h1, h2⟩ := exit_run t labs s s1 hstop he hrun
    refine ⟨h1, h2, ?_⟩
    intro e; rw [e] at h2; cases h2
  · intro hpc hm hf
    exact worker_exits s t hstop hpc hm hf
  · intro w hpc
    exact inflight_runs s t w hpc
  · intro num hr
    exact (reachable_no_dequeue num s hr).2 hstop
  · intro num hnum hr labs s1 hrun
    obtain ⟨l, hd⟩ := reachable_data num hnum s hr
    obtain ⟨l1, hd1, hpre⟩ := queue_kept_after_stop _ labs s s1 l hstop
      ((reachable_no_dequeue num s hr).2 hstop) hd hrun
    exact ⟨l, l1, hd.queue, hd1.queue, hpre⟩

theorem stop_prevents_dequeue_witness :
    stopState.tm.stop = true ∧ stopState.tm.work_first = some 10 ∧
    stopState.pcs 0 = Pc.w71 ∧
    ∃ s1, run stopState [Label.exec 0 none, Label.exec 0 none, Label.exec 0 none] = some s1 ∧
      s1.pcs 0 = Pc.w98 ∧ s1.tm = stopState.tm ∧ s1.heap = stopState.heap ∧
      s1.executed = stopState.executed :=
  ⟨rfl, rfl, rfl, (stop_prevents_dequeue stopState 0 rfl).2.2.1 rfl rfl rfl⟩

/-! ## The destroyer after a lost update of `thread_cnt` -/

theorem effect_isWorker_self (s s1 : State) (lab : Label) (h : Effect s lab s1) :
    isWorker (s1.pcs lab.tid) = isWorker (s.pcs lab.tid) := by
  cases h <;> simp only [Label.tid]
  case add_alloc t f arg w hpc _ => rw [goto_pcs_self, hpc]; rfl
  case enter_wait t hpc => rw [goto_pcs_self, hpc]; rfl
  case enter_destroy t hpc => rw [goto_pcs_self, hpc]; rfl
  case pure t pc hnext => rw [goto_pcs_self]; exact sig_isWorker (pureNext_sig s _ _ hnext)
  case lock t pc hnext _ => rw [goto_pcs_self]; exact sig_isWorker (lockNext_sig _ _ hnext)
  case unlock t pc hnext =>
    rw [goto_pcs_self]; exact sig_isWorker (unlockNext_sig s _ _ hnext)
  case wait t pc hnext =>
    rw [cond_wait_pcs_self]; exact sig_isWorker (waitNext_sig _ _ hnext)
  case signal_none t pc hnext _ =>
    rw [goto_pcs_self]; exact sig_isWorker (signalNext_sig s _ _ hnext)
  case signal_wake t pc v hnext _ =>
    rw [goto_pcs_self]; exact sig_isWorker (signalNext_sig s _ _ hnext)
  case get_some t p work hpc _ => rw [goto_pcs_self, hpc]; rfl
  case get_none t p hpc _ => rw [goto_pcs_self, hpc]; rfl
  case action t w hpc => rw [goto_pcs_self, hpc]; rfl
  case free t w hpc => rw [goto_pcs_self, hpc]; rfl
  case dec_active t v hpc => rw [goto_pcs_self, hpc]; rfl
  case dec_thread t v hpc => rw [goto_pcs_self, hpc]; rfl
  case enq t work func arg p heap hpc _ => rw [goto_pcs_self, hpc]; rfl
  case set_stop t hpc => rw [goto_pcs_self, hpc]; rfl
  case broadcast t hpc => rw [goto_pcs_self, hpc]; rfl
  case release t hpc => rw [goto_pcs_self, hpc]; rfl

/-- Every step keeps each thread in its role. -/
theorem effect_isWorker (s s1 : State) (lab : Label) (h : Effect s lab s1) (x : Nat) :
    isWorker (s1.pcs x) = isWorker (s.pcs x) := by
  by_cases hx : x = lab.tid
  · rw [hx]; exact effect_isWorker_self s s1 lab h
  · rcases effect_pcs_other s s1 lab h x hx with e | e
    · rw [e]
    · rw [e, isWorker_wake]

/-- Only the store of line 98 changes `thread_cnt`. -/
theorem effect_thread_cnt (s s1 : State) (lab : Label) (h : Effect s lab s1)
    (hpc : ∀ v, s.pcs lab.tid ≠ Pc.w98s v) : s1.tm.thread_cnt = s.tm.thread_cnt := by
  cases h <;> simp only [Label.tid] at hpc
  case get_some t p work _ hg => exact (work_get_fields _ _ _ _ hg).2.1
  case get_none t p _ hg => exact (work_get_fields _ _ _ _ hg).2.1
  case enq t work func arg p heap _ he => exact (enqueue_fields _ _ _ _ _ he).2.1
  case dec_thread t v h0 => exact absurd h0 (hpc v)
  all_goals rfl

theorem worker_done_self (s s1 : State) (lab : Label) (h : Effect s lab s1)
    (hx : s.pcs lab.tid = Pc.w103) : s1.pcs lab.tid = Pc.w103 := by
  cases h <;> simp only [Label.tid] at hx
  case add_reject => exact hx
  case add_alloc t f arg w hpc _ => rw [hx] at hpc; cases hpc
  case enter_wait t hpc => rw [hx] at hpc; cases hpc
  case enter_destroy t hpc => rw [hx] at hpc; cases hpc
  case pure t pc hnext => rw [hx] at hnext; cases hnext
  case lock t pc hnext _ => rw [hx] at hnext; cases hnext
  case unlock t pc hnext => rw [hx] at hnext; cases hnext
  case wait t pc hnext => rw [hx] at hnext; cases hnext
  case signal_none t pc hnext _ => rw [hx] at hnext; cases hnext
  case signal_wake t pc v hnext _ => rw [hx] at hnext; cases hnext
  case get_some t p work hpc _ => rw [hx] at hpc; cases hpc
  case get_none t p hpc _ => rw [hx] at hpc; cases hpc
  case action t w hpc => rw [hx] at hpc; cases hpc
  case free t w hpc => rw [hx] at hpc; cases hpc
  case dec_active t v hpc => rw [hx] at hpc; cases hpc
  case dec_thread t v hpc => rw [hx] at hpc; cases hpc
  case enq t work func arg p heap hpc _ => rw [hx] at hpc; cases hpc
  case set_stop t hpc => rw [hx] at hpc; cases hpc
  case broadcast t hpc => rw [hx] at hpc; cases hpc
  case release t hpc => rw [hx] at hpc; cases hpc

/-- A worker that has returned takes no further step. -/
theorem worker_done (s s1 : State) (lab : Label) (h : Effect s lab s1) (x : Nat)
    (hx : s.pcs x = Pc.w103) : s1.pcs x = Pc.w103 := by
  by_cases hxt : x = lab.tid
  · subst hxt; exact worker_done_self s s1 _ h hx
  · rcases effect_pcs_other s s1 lab h x hxt with e | e
    · rw [e]; exact hx
    · rw [e, hx]; rfl

theorem destroy_loop_self (s s1 : State) (lab : Label) (h : Effect s lab s1)
    (hcnt : s.tm.thread_cnt = 1) (hx : inDestroyLoop (s.pcs lab.tid) = true) :
    inDestroyLoop (s1.pcs lab.tid) = true := by
  cases h <;> simp only [Label.tid] at hx ⊢
  case add_reject => exact hx
  case add_alloc t f arg w hpc _ => rw [hpc] at hx; cases hx
  case enter_wait t hpc => rw [hpc] at hx; cases hx
  case enter_destroy t hpc => rw [hpc] at hx; cases hx
  case pure t pc hnext =>
    rw [goto_pcs_self]
    generalize s.pcs t = q at hnext hx
    cases q <;> first | (exfalso; cases hx; done) | skip
    case d139 =>
      simp only [pureNext, hcnt, Option.some.injEq] at hnext
      subst hnext; rfl
    case d140 => cases hnext
    case d140b => cases hnext
    case d140r => cases hnext
  case lock t pc hnext _ =>
    rw [goto_pcs_self]
    generalize s.pcs t = q at hnext hx
    cases q <;> first | (exfalso; cases hx; done) | skip
    case d139 => cases hnext
    case d140 => cases hnext
    case d140b => cases hnext
    case d140r => cases hnext; rfl
  case unlock t pc hnext =>
    generalize s.pcs t = q at hnext hx
    cases q <;> first | (exfalso; cases hx; done) | cases hnext
  case wait t pc hnext =>
    rw [cond_wait_pcs_self]
    generalize s.pcs t = q at hnext hx
    cases q <;> first | (exfalso; cases hx; done) | skip
    case d139 => cases hnext
    case d140 => cases hnext; rfl
    case d140b => cases hnext
    case d140r => cases hnext
  case signal_none t pc hnext _ =>
    generalize s.pcs t = q at hnext hx
    cases q <;> first | (exfalso; cases hx; done) | cases hnext
  case signal_wake t pc v hnext _ =>
    generalize s.pcs t = q at hnext hx
    cases q <;> first | (exfalso; cases hx; done) | cases hnext
  case get_some t p work hpc _ => rw [hpc] at hx; cases hx
  case get_none t p hpc _ => rw [hpc] at hx; cases hx
  case action t w hpc => rw [hpc] at hx; cases hx
  case free t w hpc => rw [hpc] at hx; cases hx
  case dec_active t v hpc => rw [hpc] at hx; cases hx
  case dec_thread t v hpc => rw [hpc] at hx; cases hx
  case enq t work func arg p heap hpc _ => rw [hpc] at hx; cases hx
  case set_stop t hpc => rw [hpc] at hx; cases hx
  case broadcast t hpc => rw [hpc] at hx; cases hx
  case release t hpc => rw [hpc] at hx; cases hx

/-- While `thread_cnt` is 1, a thread in the wait loop of `tpool_destroy` stays in
it. -/
theorem destroy_loop_step (s s1 : State) (lab : Label) (h : Effect s lab s1) (x : Nat)
    (hcnt : s.tm.thread_cnt = 1) (hx : inDestroyLoop (s.pcs x) = true) :
    inDestroyLoop (s1.pcs x) = true := by
  by_cases hxt : x = lab.tid
  · subst hxt; exact destroy_loop_self s s1 _ h hcnt hx
  · rcases effect_pcs_other s s1 lab h x hxt with e | e
    · rw [e]; exact hx
    · rw [e]
      generalize s.pcs x = q at hx
      cases q <;> first | rfl | cases hx

/-- Once every worker has returned with `thread_cnt` left at 1, `thread_cnt` stays
1 and a thread in the wait loop of `tpool_destroy` never leaves it. -/
theorem destroy_stuck (x : Nat) (labs : List Label) (s s1 : State)
    (hcnt : s.tm.thread_cnt = 1) (hw : ∀ y, isWorker (s.pcs y) = true → s.pcs y = Pc.w103)
    (hx : inDestroyLoop (s.pcs x) = true) (hrun : run s labs = some s1) :
    s1.tm.thread_cnt = 1 ∧ inDestroyLoop (s1.pcs x) = true := by
  have := run_invariant
    (fun s => s.tm.thread_cnt = 1 ∧ (∀ y, isWorker (s.pcs y) = true → s.pcs y = Pc.w103) ∧
      inDestroyLoop (s.pcs x) = true)
    (fun s lab s1 hi hstep => by
      have he := step_effect s s1 lab hstep
      obtain ⟨h1, h2, h3⟩ := hi
      refine ⟨?_, ?_, destroy_loop_step s s1 lab he x h1 h3⟩
      · rw [effect_thread_cnt s s1 lab he]
        · exact h1
        · intro v hv
          have := h2 lab.tid (by rw [hv]; rfl)
          rw [hv] at this; cases this
      · intro y hy
        rw [effect_isWorker s s1 lab he y] at hy
        exact worker_done s s1 lab he y (h2 y hy))
    labs s s1 ⟨hcnt, hw, hx⟩ hrun
  exact ⟨this.1, this.2.2⟩

/-- In every reachable state the workers are the threads below `nworkers num`. -/
theorem reachable_role (num : Nat) (s : State) (hr : Reachable num s) (x : Nat) :
    isWorker (s.pcs x) = decide (x < nworkers num) := by
  obtain ⟨labs, hrun⟩ := hr
  refine run_invariant (fun s => isWorker (s.pcs x) = decide (x < nworkers num))
    (fun s lab s1 hi hstep => by
      show isWorker (s1.pcs x) = decide (x < nworkers num)
      rw [effect_isWorker s s1 lab (step_effect s s1 lab hstep) x]; exact hi)
    labs (init num) s ?_ hrun
  show isWorker ((init num).pcs x) = decide (x < nworkers num)
  rw [init_pcs]
  by_cases h : x < nworkers num
  · rw [if_pos h]; simp [isWorker, h]
  · rw [if_neg h]; simp [isWorker, h]

/-- C10 (shutdown terminates) fails on the code: after `tpool_create(2)` and
`tpool_destroy`, the schedule `lostUpdateSchedule` reaches a state in which both
workers have returned, `thread_cnt` is stuck at 1, the mutex is free and the
destroyer is blocked in the `pthread_cond_wait` of line 140; and from that state,
under every further schedule, `thread_cnt` stays 1 and the destroyer stays in its
wait loop, so `tpool_destroy` never returns. -/
theorem destroy_deadlock_reachable :
    run (init 2) lostUpdateSchedule = some lostUpdateState ∧
    lostUpdateState.pcs 0 = Pc.w103 ∧ lostUpdateState.pcs 1 = Pc.w103 ∧
    lostUpdateState.pcs 2 = Pc.d140b ∧ lostUpdateState.tm.thread_cnt = 1 ∧
    lostUpdateState.work_cond = [2] ∧ lostUpdateState.work_mutex = none ∧
    lostUpdateState.freed = false ∧
    ∀ labs s1, run lostUpdateState labs = some s1 →
      s1.tm.thread_cnt = 1 ∧ inDestroyLoop (s1.pcs 2) = true ∧ s1.pcs 2 ≠ Pc.d146 := by
  refine ⟨rfl, rfl, rfl, rfl, rfl, rfl, rfl, rfl, ?_⟩
  intro labs s1 hrun
  have hw : ∀ y, isWorker (lostUpdateState.pcs y) = true → lostUpdateState.pcs y = Pc.w103 := by
    intro y hy
    rw [reachable_role 2 lostUpdateState ⟨lostUpdateSchedule, rfl⟩ y] at hy
    have hlt : y < 2 := by
      have := of_decide_eq_true hy
      simpa [nworkers] using this
    have : y = 0 ∨ y = 1 := by omega
    rcases this with e | e <;> rw [e] <;> rfl
  obtain ⟨h1, h2⟩ := destroy_stuck 2 labs lostUpdateState s1 rfl hw rfl hrun
  refine ⟨h1, h2, ?_⟩
  intro e; rw [e] at h2; cases h2

/-! ## FIFO order -/

/-- C1 (FIFO order): from a pool whose queue is `l`, every sequence of enqueues
(`tpool_add_work`) and dequeues (`tpool_work_get`) runs to completion, and the
payloads returned by the dequeues are, in order, a prefix of the initial queue
contents followed by the accepted payloads in enqueue order; what is left of that
sequence is exactly the final queue, and when the pool starts empty and ends empty
the items are dequeued in exactly their submission order.  In the running pool
with a single worker, in every reachable state, the accepted payloads are in
order the executed ones, then the one in flight, then the queued ones; so once the
queue is empty and nothing is in flight, the actions have run in exactly the
submission order. -/
theorem fifo_order (ops : List QOp) (p : tpool) (heap : Heap) (l : List Nat)
    (hq : queue_is p heap l) (hf : FreshOps l ops) :
    (∃ r l1, runOps ops p heap = some r ∧ queue_is r.tm r.heap l1 ∧
      l.map (item heap) ++ r.accepted = r.returned ++ l1.map (item r.heap) ∧
      r.returned <+: l.map (item heap) ++ r.accepted ∧
      (l = [] → l1 = [] → r.returned = r.accepted)) ∧
    (∀ num s, nworkers num = 1 → Reachable num s →
      (∃ q, queue_is s.tm s.heap q ∧
        s.accepted = s.executed ++ heldList s.heap (s.pcs 0) ++ q.map (item s.heap)) ∧
      (s.tm.work_first = none → held (s.pcs 0) = none → s.executed = s.accepted)) := by
  constructor
  · obtain ⟨r, l1, hr, hq1, he⟩ := runOps_fifo ops p heap l hq hf
    refine ⟨r, l1, hr, hq1, he, ⟨_, he.symm⟩, ?_⟩
    intro h1 h2
    subst h1 h2
    simpa using he.symm
  · intro num s h1 hr
    have hnum : nworkers num < SIZE_MOD := by rw [h1]; decide
    obtain ⟨q, hd⟩ := reachable_data num hnum s hr
    have hfifo := hd.fifo h1
    refine ⟨⟨q, hd.queue, hfifo⟩, ?_⟩
    intro hw hh
    have hq0 : q = [] := (queue_is_first_none s.tm s.heap q hd.queue).1 hw
    rw [hq0] at hfifo
    rw [hfifo]
    simp [heldList, hh]

theorem fifo_order_witness :
    queue_is demoPool demoHeap [5] ∧
    FreshOps [5] [QOp.enq (some 3) 9 (some 7), QOp.deq, QOp.deq, QOp.deq] ∧
    ∃ r l1, runOps [QOp.enq (some 3) 9 (some 7), QOp.deq, QOp.deq, QOp.deq]
        demoPool demoHeap = some r ∧
      queue_is r.tm r.heap l1 ∧
      [5].map (item demoHeap) ++ r.accepted = r.returned ++ l1.map (item r.heap) ∧
      r.returned <+: [5].map (item demoHeap) ++ r.accepted ∧
      ([5] = [] → l1 = [] → r.returned = r.accepted) :=
  ⟨by decide, by simp [FreshOps],
    (fifo_order [QOp.enq (some 3) 9 (some 7), QOp.deq, QOp.deq, QOp.deq] demoPool demoHeap [5]
      (by decide) (by simp [FreshOps])).1⟩

/-! ## Unlocked exit path and lost wake-up -/

/-- A thread that takes no step of a schedule and is outside the pool's
functions at its start is still outside them at its end. -/
theorem run_idle (t : Nat) : ∀ (labs : List Label) (s s1 : State),
    run s labs = some s1 → (∀ lab ∈ labs, Label.tid lab ≠ t) → s.pcs t = Pc.idle →
    s1.pcs t = Pc.idle
  | [], s, s1, h, _, hpc => by
    simp only [run, Option.some.injEq] at h
    rw [← h]; exact hpc
  | lab :: labs, s, s1, h, hl, hpc => by
    simp only [run] at h
    cases hs : step s lab with
    | none => rw [hs] at h; cases h
    | some s2 =>
      rw [hs] at h
      have hne : t ≠ Label.tid lab := fun e => hl lab (List.mem_cons_self lab labs) e.symm
      have h2 : s2.pcs t = Pc.idle := by
        rcases effect_pcs_other s s2 lab (step_effect s s2 lab hs) t hne with e | e
        · rw [e, hpc]
        · rw [e, hpc]; rfl
      exact run_idle t labs s2 s1 h (fun l hm => hl l (List.mem_cons_of_mem lab hm)) h2

/-- While `stop` is false, every thread that stands before an access to the
shared fields or before an unlock holds the mutex. -/
theorem lock_discipline_before_stop (num : Nat) (s : State) (hr : Reachable num s)
    (hs : s.tm.stop = false) (t : Nat)
    (h : accessesShared (s.pcs t) = true ∨ isUnlock (s.pcs t) = true) :
    s.work_mutex = some t := by
  have hc := reachable_ctl num s hr hs
  refine (hc.mutex t).1 ?_
  have hok := hc.ok t
  revert h hok
  cases s.pcs t <;> simp [accessesShared, isUnlock, inCS, okPc]

/-- C11 (stop and `thread_cnt` are monotone) fails on the code for `thread_cnt`:
after `tpool_create(3)` and `tpool_destroy`, the schedule `staleStoreSchedule`
reaches a state in which `thread_cnt` is 1 and worker 0 still holds the value 3
that it loaded on line 98; its store then raises `thread_cnt` from 1 to 2.  The
rest of the claim holds: `stop` is false after `tpool_create`, no step resets it,
and every step other than the store of line 98 leaves `thread_cnt` unchanged. -/
theorem thread_cnt_raised_by_stale_store :
    run (init 3) staleStoreSchedule = some staleStoreState ∧
    staleStoreState.pcs 0 = Pc.w98s 3 ∧ staleStoreState.tm.thread_cnt = 1 ∧
    step staleStoreState (Label.exec 0 none) = some staleStoreNext ∧
    staleStoreNext.tm.thread_cnt = 2 ∧
    (∀ num, (init num).tm.stop = false) ∧
    (∀ s lab s1, step s lab = some s1 → s.tm.stop = true → s1.tm.stop = true) ∧
    (∀ s lab s1, step s lab = some s1 → (∀ v, s.pcs (Label.tid lab) ≠ Pc.w98s v) →
      s1.tm.thread_cnt = s.tm.thread_cnt) := by
  refine ⟨rfl, rfl, rfl, rfl, rfl, ?_, ?_, ?_⟩
  · intro num; rfl
  · intro s lab s1 h hs
    exact effect_stop s s1 lab (step_effect s s1 lab h) hs
  · intro s lab s1 h hpc
    exact effect_thread_cnt s s1 lab (step_effect s s1 lab h) hpc

/-- C14 (lock discipline) fails on the code on the worker's exit path: after
`tpool_create(1)` and `tpool_destroy`, worker 0 leaves its loop through the
unlock of line 76 and then loads `thread_cnt` (line 98), stores it, tests it
(line 99), signals and runs the unlock of line 102, and in each of these states
the mutex is free, so worker 0 does not hold it.  While `stop` is false the
discipline holds: every thread that stands before an access to the queue,
`active_cnt`, `thread_cnt` or `stop`, or before an unlock, holds the mutex. -/
theorem exit_path_without_mutex :
    run (init 1) exitPathSchedule = some (exitPathAfter 0) ∧
    step (exitPathAfter 0) (Label.exec 0 none) = some (exitPathAfter 1) ∧
    step (exitPathAfter 1) (Label.exec 0 none) = some (exitPathAfter 2) ∧
    step (exitPathAfter 2) (Label.exec 0 (some 1)) = some (exitPathAfter 3) ∧
    step (exitPathAfter 3) (Label.exec 0 none) = some (exitPathAfter 4) ∧
    (exitPathAfter 0).pcs 0 = Pc.w98 ∧ (exitPathAfter 1).pcs 0 = Pc.w98s 1 ∧
    (exitPathAfter 2).pcs 0 = Pc.w99 ∧ (exitPathAfter 3).pcs 0 = Pc.w102 ∧
    (exitPathAfter 4).pcs 0 = Pc.w103 ∧
    (∀ k, k ≤ 3 → (exitPathAfter k).work_mutex = none ∧
      (accessesShared ((exitPathAfter k).pcs 0) = true ∨
        isUnlock ((exitPathAfter k).pcs 0) = true)) ∧
    (exitPathAfter 0).tm.thread_cnt = 1 ∧ (exitPathAfter 2).tm.thread_cnt = 0 ∧
    (∀ num s t, Reachable num s → s.tm.stop = false →
      accessesShared (s.pcs t) = true ∨ isUnlock (s.pcs t) = true →
      s.work_mutex = some t) := by
  refine ⟨rfl, rfl, rfl, rfl, rfl, rfl, rfl, rfl, rfl, rfl, ?_, rfl, rfl, ?_⟩
  · intro k hk
    have : k = 0 ∨ k = 1 ∨ k = 2 ∨ k = 3 := by omega
    rcases this with e | e | e | e <;> subst e <;> exact ⟨rfl, by decide⟩
  · intro num s t hr hs h
    exact lock_discipline_before_stop num s hr hs t h

/-- C15 (a single signal suffices) fails on the code: on a pool of two workers
with `stop` false, the schedule `lostWakeupSchedule` reaches a state in which the
queue is empty, `active_cnt` is 0 and the submitted item has run, client 3 is
blocked in the `pthread_cond_wait` of `tpool_wait` (line 180), both workers are
blocked on line 73, the mutex is free and no thread can take a step: the only
signal of the finishing worker woke the idle worker 0, which tested its own
predicate and went back to sleep. -/
theorem lost_wakeup_reachable :
    run (init 2) lostWakeupSchedule = some lostWakeupState ∧
    lostWakeupState.tm.stop = false ∧ lostWakeupState.tm.work_first = none ∧
    lostWakeupState.tm.active_cnt = 0 ∧
    lostWakeupState.accepted = [(some 7, 3)] ∧ lostWakeupState.executed = [(some 7, 3)] ∧
    lostWakeupState.pcs 3 = Pc.t180b ∧ lostWakeupState.pcs 0 = Pc.w73b ∧
    lostWakeupState.pcs 1 = Pc.w73b ∧ lostWakeupState.work_cond = [3, 0, 1] ∧
    lostWakeupState.work_mutex = none ∧ lostWakeupState.freed = false ∧
    (∀ t, t ≠ 0 → t ≠ 1 → t ≠ 3 → lostWakeupState.pcs t = Pc.idle) ∧
    (∀ t u, step lostWakeupState (Label.exec t u) = none) := by
  have hidle : ∀ t, t ≠ 0 → t ≠ 1 → t ≠ 3 → lostWakeupState.pcs t = Pc.idle := by
    intro t h0 h1 h3
    by_cases h2 : t = 2
    · rw [h2]; rfl
    · refine run_idle t lostWakeupSchedule (init 2) lostWakeupState rfl ?_ ?_
      · intro lab hl
        simp only [lostWakeupSchedule, List.mem_cons, List.mem_singleton, List.not_mem_nil,
          or_false] at hl
        rcases hl with e | e | e | e | e | e | e | e | e | e | e | e | e | e | e | e | e | e |
          e | e | e | e | e | e | e | e | e | e | e | e <;> rw [e] <;> simp only [Label.tid] <;> omega
      · rw [init_pcs, if_neg]
        have hn : nworkers 2 = 2 := rfl
        rw [hn]; omega
  refine ⟨rfl, rfl, rfl, rfl, rfl, rfl, rfl, rfl, rfl, rfl, rfl, rfl, hidle, ?_⟩
  intro t u
  have hpc : lostWakeupState.pcs t = Pc.w73b ∨ lostWakeupState.pcs t = Pc.t180b ∨
      lostWakeupState.pcs t = Pc.idle := by
    by_cases h0 : t = 0
    · left; rw [h0]; rfl
    · by_cases h1 : t = 1
      · left; rw [h1]; rfl
      · by_cases h3 : t = 3
        · right; left; rw [h3]; rfl
        · right; right; exact hidle t h0 h1 h3
  have hf : ¬ (lostWakeupState.freed = true ∧ touches (lostWakeupState.pcs t) = true) := by
    intro h; exact absurd h.1 (by decide)
  simp only [step, if_neg hf]
  rcases hpc with e | e | e <;> rw [e] <;> cases u <;> rfl

/-! ## Queue well-formedness -/

/-- The part of a list segment that starts at one of its nodes is a list segment. -/
theorem lseg_mid (heap : Heap) (a : Nat) (l2 : List Nat) : ∀ (l1 : List Nat) (p : Option Nat),
    lseg heap p (l1 ++ a :: l2) → lseg heap (some a) (a :: l2)
  | [], p, h => by
    rw [List.nil_append, lseg_cons] at h
    exact (lseg_cons heap (some a) a l2).2 ⟨rfl, h.2⟩
  | b :: l1, p, h => by
    rw [List.cons_append, lseg_cons] at h
    exact lseg_mid heap a l2 l1 _ h.2

/-- A list segment that reaches `NULL` visits no node twice. -/
theorem lseg_nodup (heap : Heap) : ∀ (l : List Nat) (p : Option Nat), lseg heap p l → l.Nodup
  | [], _, _ => List.nodup_nil
  | a :: l, p, h => by
    have h0 := h
    rw [lseg_cons] at h
    refine List.nodup_cons.2 ⟨?_, lseg_nodup heap l _ h.2⟩
    intro hmem
    obtain ⟨l1, l2, e⟩ := List.append_of_mem hmem
    have h1 : lseg heap (some a) (a :: l2) := by
      have := h.2; rw [e] at this
      exact lseg_mid heap a l2 l1 _ this
    have h2 : lseg heap (some a) (a :: l) := (lseg_cons heap (some a) a l).2 ⟨rfl, h.2⟩
    have h3 := lseg_unique heap _ _ _ h1 h2
    have h4 : l2 = l := by simpa using h3
    have h5 := congrArg List.length e
    rw [← h4] at h5
    simp at h5
    omega

/-- The last node of a list segment has a null `next`. -/
theorem lseg_last_next (heap : Heap) (last : Nat) : ∀ (l : List Nat) (p : Option Nat),
    lseg heap p l → l.getLast? = some last → (heap last).next = none
  | [], _, _, hl => by simp at hl
  | [a], p, h, hl => by
    rw [lseg_cons, lseg_nil] at h
    have : a = last := by simpa using hl
    rw [← this]; exact h.2
  | a :: b :: l, p, h, hl => by
    rw [lseg_cons] at h
    have hl1 : (b :: l).getLast? = some last := by
      rw [List.getLast?_cons_cons] at hl; exact hl
    exact lseg_last_next heap last (b :: l) _ h.2 hl1

/-- The well-formedness of the specification is the existence of the node list
used by the queue lemmas. -/
theorem queue_wf_iff (p : tpool) (heap : Heap) :
    queue_wf p heap ↔ ∃ l, queue_is p heap l := by
  constructor
  · intro h
    cases hf : p.work_first with
    | none =>
      refine ⟨[], ?_, List.nodup_nil, ?_⟩
      · rw [hf]; exact (lseg_nil heap none).2 rfl
      · rw [h.1.1 hf]; rfl
    | some a =>
      obtain ⟨l, last, h1, h2, h3, _⟩ := h.2 (by rw [hf]; simp)
      exact ⟨l, h1, lseg_nodup heap l _ h1, by rw [h3, h2]⟩
  · rintro ⟨l, hq⟩
    have hfn := queue_is_first_none p heap l hq
    obtain ⟨h1, _, h3⟩ := hq
    constructor
    · rw [hfn, h3, List.getLast?_eq_none_iff]
    · intro hne
      have hl : l ≠ [] := fun e => hne (hfn.2 e)
      cases hg : l.getLast? with
      | none => exact absurd (List.getLast?_eq_none_iff.1 hg) hl
      | some last =>
        exact ⟨l, last, h1, hg, by rw [h3, hg], lseg_last_next heap last l _ h1 hg⟩

/-- C12 (queue well-formedness): the pool returned by `tpool_create` has a
well-formed queue; `tpool_add_work` with a block from `malloc` that is not a queued
node runs without a null dereference, keeps the queue well formed and, when it
enqueues, makes the new block `work_last` with a null `next`; `tpool_work_get`
keeps the queue well formed; and in every reachable state of the running pool the
queue is well formed.  Well formed means: `work_first` is null exactly when
`work_last` is null, and in a non-empty queue `work_last` is the last node reached
from `work_first` through `next` and its `next` is null. -/
theorem queue_wellformed :
    (∀ num created p pcs heap, tpool_create num true created = some (p, pcs) →
      queue_wf p heap) ∧
    (∀ p heap func arg m, queue_wf p heap →
      (∀ w l, m = some w → lseg heap p.work_first l → w ∉ l) →
      ∃ p1 heap1 ok, tpool_add_work (some p) heap func arg m = some (some p1, heap1, ok) ∧
        queue_wf p1 heap1 ∧
        (ok = true → p1.work_last = m ∧ ∀ w, m = some w → (heap1 w).next = none)) ∧
    (∀ p heap, queue_wf p heap →
      ∃ p1 w, tpool_work_get (some p) heap = (some p1, w) ∧ queue_wf p1 heap) ∧
    (∀ num s, nworkers num < SIZE_MOD → Reachable num s → queue_wf s.tm s.heap) := by
  refine ⟨?_, ?_, ?_, ?_⟩
  · intro num created p pcs heap h
    simp only [tpool_create, if_true, Option.some.injEq, Prod.mk.injEq] at h
    rw [← h.1]
    exact (queue_wf_iff _ heap).2 ⟨[], (lseg_nil heap none).2 rfl, List.nodup_nil, rfl⟩
  · intro p heap func arg m hwf hfresh
    obtain ⟨l, hq⟩ := (queue_wf_iff p heap).1 hwf
    cases func with
    | none =>
      refine ⟨p, heap, false, ?_, hwf, ?_⟩
      · simp [tpool_add_work]
      · intro h; cases h
    | some f =>
      cases m with
      | none =>
        refine ⟨p, heap, false, ?_, hwf, ?_⟩
        · simp [tpool_add_work, tpool_work_create]
        · intro h; cases h
      | some w =>
        have hw : w ∉ l := hfresh w l rfl hq.1
        obtain ⟨p1, heap1, h1, h2, _⟩ := add_work_enqueues p heap l f arg w hq hw
        refine ⟨p1, heap1, true, h1, (queue_wf_iff p1 heap1).2 ⟨_, h2⟩, ?_⟩
        intro _
        have hlast : p1.work_last = some w := by
          rw [h2.2.2]; simp
        refine ⟨hlast, ?_⟩
        intro w1 e
        have e1 : w = w1 := by simpa using e
        rw [← e1]
        exact lseg_last_next heap1 w _ _ h2.1 (by simp)
  · intro p heap hwf
    obtain ⟨l, hq⟩ := (queue_wf_iff p heap).1 hwf
    cases l with
    | nil => exact ⟨p, none, work_get_nil p heap hq, hwf⟩
    | cons a l =>
      obtain ⟨p1, h1, h2, _⟩ := work_get_cons p heap a l hq
      exact ⟨p1, some a, h1, (queue_wf_iff p1 heap).2 ⟨l, h2⟩⟩
  · intro num s hnum hr
    obtain ⟨l, hd⟩ := reachable_data num hnum s hr
    exact (queue_wf_iff s.tm s.heap).2 ⟨l, hd.queue⟩

/-! ## Counters in every reachable state -/

theorem nullWork_wake (pc : Pc) : nullWork (wake pc) = nullWork pc := by
  cases pc <;> rfl

theorem exited_wake (pc : Pc) : exited (wake pc) = exited pc := by
  cases pc <;> rfl

theorem stale_wake (pc : Pc) (v : Nat) (h : wake pc = Pc.w98s v) : pc = Pc.w98s v := by
  cases pc <;> first | exact h | cases h

/-- What a jump does to the classification of a program counter. -/
theorem pureNext_cnt (s : State) (pc pc1 : Pc) (h : pureNext s pc = some pc1) :
    nullWork pc1 = false ∧ exited pc1 = exited pc ∧
    ∀ v, pc1 = Pc.w98s v → v = s.tm.thread_cnt := by
  cases pc <;> simp only [pureNext, Option.some.injEq, reduceCtorEq] at h
  case w72 => subst h; split <;> exact ⟨rfl, rfl, fun v e => by cases e⟩
  case w75 => split at h <;> cases h; exact ⟨rfl, rfl, fun v e => by cases e⟩
  case w85 work =>
    cases work with
    | none =>
      simp only [pureNext, Option.some.injEq] at h; subst h
      exact ⟨rfl, rfl, fun v e => by cases e⟩
    | some w => simp [pureNext] at h
  case w91 => subst h; exact ⟨rfl, rfl, fun v e => by cases e⟩
  case w92 => split at h <;> cases h; exact ⟨rfl, rfl, fun v e => by cases e⟩
  case w98 => subst h; exact ⟨rfl, rfl, fun v e => by cases e; rfl⟩
  case w99 => split at h <;> cases h; exact ⟨rfl, rfl, fun v e => by cases e⟩
  case t179 => subst h; split <;> exact ⟨rfl, rfl, fun v e => by cases e⟩
  case d139 => subst h; split <;> exact ⟨rfl, rfl, fun v e => by cases e⟩

theorem lockNext_cnt (pc pc1 : Pc) (h : lockNext pc = some pc1) :
    nullWork pc1 = false ∧ exited pc1 = exited pc ∧ ∀ v, pc1 ≠ Pc.w98s v := by
  cases pc <;> simp only [lockNext, Option.some.injEq, reduceCtorEq] at h <;> subst h <;>
    exact ⟨rfl, rfl, fun v e => by cases e⟩

theorem unlockNext_cnt (s : State) (pc pc1 : Pc) (h : unlockNext s pc = some pc1) :
    nullWork pc1 = nullWork pc ∧ exited pc1 = exited pc ∧ ∀ v, pc1 ≠ Pc.w98s v := by
  cases pc <;> simp only [unlockNext, Option.some.injEq, reduceCtorEq] at h
  case w75 => split at h <;> cases h; exact ⟨rfl, rfl, fun v e => by cases e⟩
  case w83 work => subst h; cases work <;> exact ⟨rfl, rfl, fun v e => by cases e⟩
  all_goals (subst h; exact ⟨rfl, rfl, fun v e => by cases e⟩)

theorem waitNext_cnt (pc pc1 : Pc) (h : waitNext pc = some pc1) :
    nullWork pc1 = false ∧ exited pc1 = exited pc ∧ ∀ v, pc1 ≠ Pc.w98s v := by
  cases pc <;> simp only [waitNext, Option.some.injEq, reduceCtorEq] at h <;> subst h <;>
    exact ⟨rfl, rfl, fun v e => by cases e⟩

theorem signalNext_cnt (s : State) (pc pc1 : Pc) (h : signalNext s pc = some pc1) :
    nullWork pc1 = false ∧ exited pc1 = exited pc ∧ ∀ v, pc1 ≠ Pc.w98s v := by
  cases pc <;> simp only [signalNext, Option.some.injEq, reduceCtorEq] at h
  case w92 => split at h <;> cases h; exact ⟨rfl, rfl, fun v e => by cases e⟩
  case w99 => split at h <;> cases h; exact ⟨rfl, rfl, fun v e => by cases e⟩
  case a169 => subst h; exact ⟨rfl, rfl, fun v e => by cases e⟩

/-- A worker that dequeues from a non-empty queue does not enter a
`work == NULL` branch, and no other statement leads into one. -/
theorem effect_null_self (s s1 : State) (lab : Label) (h : Effect s lab s1)
    (hnull : nullWork (s.pcs lab.tid) = false)
    (hne : s.pcs lab.tid = Pc.w79 → s.tm.work_first ≠ none) :
    nullWork (s1.pcs lab.tid) = false := by
  cases h <;> simp only [Label.tid] at hnull hne ⊢
  case add_reject t func arg m hpc _ => exact hnull
  case pure t pc hnext => rw [goto_pcs_self]; exact (pureNext_cnt s _ _ hnext).1
  case lock t pc hnext _ => rw [goto_pcs_self]; exact (lockNext_cnt _ _ hnext).1
  case unlock t pc hnext =>
    rw [goto_pcs_self, (unlockNext_cnt s _ _ hnext).1]; exact hnull
  case wait t pc hnext => rw [cond_wait_pcs_self]; exact (waitNext_cnt _ _ hnext).1
  case signal_none t pc hnext _ => rw [goto_pcs_self]; exact (signalNext_cnt s _ _ hnext).1
  case signal_wake t pc v hnext _ => rw [goto_pcs_self]; exact (signalNext_cnt s _ _ hnext).1
  case get_none t p hpc hget =>
    exfalso
    have hf := hne hpc
    simp only [tpool_work_get] at hget
    cases hw : s.tm.work_first with
    | none => exact hf hw
    | some a => rw [hw] at hget; simp at hget
  all_goals (rw [goto_pcs_self]; rfl)

/-- Only the store of line 98 moves a worker past line 98. -/
theorem effect_exited_self (s s1 : State) (lab : Label) (h : Effect s lab s1)
    (hns : ∀ v, s.pcs lab.tid ≠ Pc.w98s v) :
    exited (s1.pcs lab.tid) = exited (s.pcs lab.tid) := by
  cases h <;> simp only [Label.tid] at hns ⊢
  case add_alloc t f arg w hpc _ => rw [goto_pcs_self, hpc]; rfl
  case enter_wait t hpc => rw [goto_pcs_self, hpc]; rfl
  case enter_destroy t hpc => rw [goto_pcs_self, hpc]; rfl
  case pure t pc hnext => rw [goto_pcs_self]; exact (pureNext_cnt s _ _ hnext).2.1
  case lock t pc hnext _ => rw [goto_pcs_self]; exact (lockNext_cnt _ _ hnext).2.1
  case unlock t pc hnext => rw [goto_pcs_self]; exact (unlockNext_cnt s _ _ hnext).2.1
  case wait t pc hnext => rw [cond_wait_pcs_self]; exact (waitNext_cnt _ _ hnext).2.1
  case signal_none t pc hnext _ => rw [goto_pcs_self]; exact (signalNext_cnt s _ _ hnext).2.1
  case signal_wake t pc v hnext _ => rw [goto_pcs_self]; exact (signalNext_cnt s _ _ hnext).2.1
  case get_some t p work hpc _ => rw [goto_pcs_self, hpc]; rfl
  case get_none t p hpc _ => rw [goto_pcs_self, hpc]; rfl
  case action t w hpc => rw [goto_pcs_self, hpc]; rfl
  case free t w hpc => rw [goto_pcs_self, hpc]; rfl
  case dec_active t v hpc => rw [goto_pcs_self, hpc]; rfl
  case dec_thread t v h0 => exact absurd h0 (hns v)
  case enq t work func arg p heap hpc _ => rw [goto_pcs_self, hpc]; rfl
  case set_stop t hpc => rw [goto_pcs_self, hpc]; rfl
  case broadcast t hpc => rw [goto_pcs_self, hpc]; rfl
  case release t hpc => rw [goto_pcs_self, hpc]; rfl

/-- A worker that stands before the store of line 98 has just loaded
`thread_cnt`. -/
theorem effect_stale_self (s s1 : State) (lab : Label) (h : Effect s lab s1) (v : Nat)
    (hpc1 : s1.pcs lab.tid = Pc.w98s v) : v = s.tm.thread_cnt := by
  cases h <;> simp only [Label.tid] at hpc1
  case add_reject t func arg m hpc _ => rw [hpc] at hpc1; cases hpc1
  case pure t pc hnext =>
    rw [goto_pcs_self] at hpc1; exact (pureNext_cnt s _ _ hnext).2.2 v hpc1
  case lock t pc hnext _ =>
    rw [goto_pcs_self] at hpc1; exact absurd hpc1 ((lockNext_cnt _ _ hnext).2.2 v)
  case unlock t pc hnext =>
    rw [goto_pcs_self] at hpc1; exact absurd hpc1 ((unlockNext_cnt s _ _ hnext).2.2 v)
  case wait t pc hnext =>
    rw [cond_wait_pcs_self] at hpc1; exact absurd hpc1 ((waitNext_cnt _ _ hnext).2.2 v)
  case signal_none t pc hnext _ =>
    rw [goto_pcs_self] at hpc1; exact absurd hpc1 ((signalNext_cnt s _ _ hnext).2.2 v)
  case signal_wake t pc u hnext _ =>
    rw [goto_pcs_self] at hpc1; exact absurd hpc1 ((signalNext_cnt s _ _ hnext).2.2 v)
  all_goals (rw [goto_pcs_self] at hpc1; cases hpc1)

/-- The step of a worker that stands before the store of line 98 is that store. -/
theorem effect_dec_thread (s s1 : State) (lab : Label) (h : Effect s lab s1) (v : Nat)
    (hv : s.pcs lab.tid = Pc.w98s v) :
    s1.pcs lab.tid = Pc.w99 ∧ s1.tm.thread_cnt = size_dec v := by
  cases h <;> simp only [Label.tid] at hv ⊢
  case dec_thread t u h0 =>
    rw [h0] at hv
    have e : u = v := by cases hv; rfl
    rw [goto_pcs_self, e]; exact ⟨rfl, rfl⟩
  case pure t pc hnext => rw [hv] at hnext; cases hnext
  case lock t pc hnext _ => rw [hv] at hnext; cases hnext
  case unlock t pc hnext => rw [hv] at hnext; cases hnext
  case wait t pc hnext => rw [hv] at hnext; cases hnext
  case signal_none t pc hnext _ => rw [hv] at hnext; cases hnext
  case signal_wake t pc u hnext _ => rw [hv] at hnext; cases hnext
  case add_reject t func arg m hpc _ => rw [hv] at hpc; cases hpc
  case add_alloc t f arg w hpc _ => rw [hv] at hpc; cases hpc
  case enter_wait t hpc => rw [hv] at hpc; cases hpc
  case enter_destroy t hpc => rw [hv] at hpc; cases hpc
  case get_some t p work hpc _ => rw [hv] at hpc; cases hpc
  case get_none t p hpc _ => rw [hv] at hpc; cases hpc
  case action t w hpc => rw [hv] at hpc; cases hpc
  case free t w hpc => rw [hv] at hpc; cases hpc
  case dec_active t v hpc => rw [hv] at hpc; cases hpc
  case enq t work func arg p heap hpc _ => rw [hv] at hpc; cases hpc
  case set_stop t hpc => rw [hv] at hpc; cases hpc
  case broadcast t hpc => rw [hv] at hpc; cases hpc
  case release t hpc => rw [hv] at hpc; cases hpc

/-- No program counter is both between the increment and the decrement of
`active_cnt` and past line 98. -/
theorem active_exited (pc : Pc) : activeNum pc + exitedNum pc ≤ 1 := by
  cases pc <;> simp [activeNum, exitedNum, active, exited]

/-- The active workers and the workers past line 98 are different workers. -/
theorem threadSum_active_exited (pcs : Nat → Pc) :
    ∀ n, threadSum activeNum pcs n + threadSum exitedNum pcs n ≤ n
  | 0 => Nat.le_refl 0
  | n + 1 => by
    show threadSum activeNum pcs n + activeNum (pcs n) +
      (threadSum exitedNum pcs n + exitedNum (pcs n)) ≤ n + 1
    have := threadSum_active_exited pcs n
    have := active_exited (pcs n)
    omega

/-- A worker that is neither active nor past line 98 is counted in neither sum. -/
theorem threadSum_active_exited_lt (pcs : Nat → Pc) (t : Nat) :
    ∀ n, t < n → activeNum (pcs t) + exitedNum (pcs t) = 0 →
    threadSum activeNum pcs n + threadSum exitedNum pcs n < n
  | 0, ht, _ => absurd ht (Nat.not_lt_zero t)
  | n + 1, ht, h0 => by
    show threadSum activeNum pcs n + activeNum (pcs n) +
      (threadSum exitedNum pcs n + exitedNum (pcs n)) < n + 1
    by_cases hn : t = n
    · subst hn
      have := threadSum_active_exited pcs t
      omega
    · have := threadSum_active_exited_lt pcs t n (by omega) h0
      have := active_exited (pcs n)
      omega

/-- The sum of the contributions `activeNum` is the number of active threads. -/
theorem threadSum_activeNum_count (pcs : Nat → Pc) :
    ∀ n, threadSum activeNum pcs n = (List.range n).countP fun x => active (pcs x)
  | 0 => rfl
  | n + 1 => by
    show threadSum activeNum pcs n + activeNum (pcs n) = _
    rw [threadSum_activeNum_count pcs n, List.range_succ, List.countP_append]
    congr 1
    cases h : active (pcs n) <;> simp [activeNum, h]

theorem cnt_init (num : Nat) : CntInv (nworkers num) (init num) := by
  have hcnt : (init num).tm.thread_cnt = nworkers num := rfl
  refine ⟨?_, ?_, ?_, ?_⟩
  · intro t; rcases init_pcs_cases num t with e | e <;> rw [e] <;> rfl
  · rw [hcnt]
  · rw [hcnt]; exact Nat.le_add_right _ _
  · intro t v h
    rcases init_pcs_cases num t with e | e <;> rw [e] at h <;> cases h

/-- Every step keeps the counter invariant. -/
theorem cnt_step (n : Nat) (hn : n < SIZE_MOD) (s s1 : State) (lab : Label)
    (hrole : ∀ x, isWorker (s.pcs x) = true → x < n) (hinv : CntInv n s)
    (h : Effect s lab s1) (hne : s.pcs lab.tid = Pc.w79 → s.tm.work_first ≠ none) :
    CntInv n s1 := by
  have hexo : ∀ x, x ≠ lab.tid → exitedNum (s1.pcs x) = exitedNum (s.pcs x) := by
    intro x hx
    rcases effect_pcs_other s s1 lab h x hx with e | e
    · rw [e]
    · rw [e]; unfold exitedNum; rw [exited_wake]
  have hstale : ∀ x v, x ≠ lab.tid → s1.pcs x = Pc.w98s v → s.pcs x = Pc.w98s v := by
    intro x v hx hv
    rcases effect_pcs_other s s1 lab h x hx with e | e
    · rw [← e]; exact hv
    · rw [e] at hv; exact stale_wake _ v hv
  have hnull : ∀ x, nullWork (s1.pcs x) = false :=
    effect_pointwise (fun pc => nullWork pc = false)
      (fun pc hp => by show nullWork (wake pc) = false; rw [nullWork_wake]; exact hp)
      s s1 lab h hinv.nonull (effect_null_self s s1 lab h (hinv.nonull _) hne)
  by_cases hd : ∃ v, s.pcs lab.tid = Pc.w98s v
  · obtain ⟨v, hv⟩ := hd
    obtain ⟨hpc1, hcnt⟩ := effect_dec_thread s s1 lab h v hv
    have ht : lab.tid < n := hrole _ (by rw [hv]; rfl)
    obtain ⟨hvle, hvge⟩ := hinv.stale _ v hv
    have hsum := threadSum_update exitedNum exitedNum s.pcs s1.pcs lab.tid n ht
      (fun x hx _ => hexo x hx)
    rw [hv, hpc1] at hsum
    have e0 : exitedNum (Pc.w98s v) = 0 := rfl
    have e1 : exitedNum Pc.w99 = 1 := rfl
    rw [e0, e1] at hsum
    have hlt := threadSum_active_exited_lt s.pcs lab.tid n ht (by rw [hv]; rfl)
    have hv0 : 0 < v := by omega
    have hdec : size_dec v = v - 1 := size_dec_eq v hv0 (by omega)
    refine ⟨hnull, by rw [hcnt, hdec]; omega, by rw [hcnt, hdec]; omega, ?_⟩
    intro x w hx
    have hxne : x ≠ lab.tid := by
      intro e; rw [e, hpc1] at hx; cases hx
    obtain ⟨a, b⟩ := hinv.stale x w (hstale x w hxne hx)
    exact ⟨a, by omega⟩
  · have hns : ∀ v, s.pcs lab.tid ≠ Pc.w98s v := fun v e => hd ⟨v, e⟩
    have hcnt := effect_thread_cnt s s1 lab h hns
    have hex := effect_exited_self s s1 lab h hns
    have hsum : threadSum exitedNum s1.pcs n = threadSum exitedNum s.pcs n := by
      refine threadSum_congr exitedNum exitedNum s.pcs s1.pcs n ?_
      intro x _
      by_cases hx : x = lab.tid
      · rw [hx]; unfold exitedNum; rw [hex]
      · exact hexo x hx
    refine ⟨hnull, by rw [hcnt]; exact hinv.le, by rw [hcnt, hsum]; exact hinv.ge, ?_⟩
    intro x w hx
    rw [hsum]
    by_cases hxt : x = lab.tid
    · rw [hxt] at hx
      rw [effect_stale_self s s1 lab h w hx]
      exact ⟨hinv.le, hinv.ge⟩
    · exact hinv.stale x w (hstale x w hxt hx)

/-- Every reachable state satisfies the counter invariant. -/
theorem reachable_cnt (num : Nat) (hnum : nworkers num < SIZE_MOD) (s : State)
    (hr : Reachable num s) : CntInv (nworkers num) s := by
  refine reachable_induction num (fun s => CntInv (nworkers num) s) (cnt_init num) ?_ s hr
  intro s lab s1 hrs hi hstep
  have he := step_effect s s1 lab hstep
  refine cnt_step _ hnum s s1 lab ?_ hi he ?_
  · intro x hx
    rw [reachable_role num s hrs x] at hx
    exact of_decide_eq_true hx
  · intro hpc
    cases hs : s.tm.stop with
    | false => exact ((reachable_no_dequeue num s hrs).1 hs).nonempty _ (Or.inr hpc)
    | true => exact absurd hpc ((reachable_no_dequeue num s hrs).2 hs _)

/-! ## Bounds on `active_cnt` with and without `stop` -/

theorem active_isWorker (pc : Pc) (h : active pc = true) : isWorker pc = true := by
  cases pc <;> first | rfl | cases h

theorem actbound_of_act (n : Nat) (s : State) (h : ActInv n s) : ActBound n s := by
  have hle := threadSum_activeNum_le s.pcs n
  refine ⟨by rw [h.eq]; exact hle, by rw [h.eq], ?_⟩
  intro t v hv
  rw [h.loaded t v hv, h.eq]
  exact ⟨Nat.le_refl _, hle⟩

/-- Every step of a thread that is not at the dequeue of line 79 keeps the bounds
on `active_cnt`, whoever holds the mutex. -/
theorem actbound_step (n : Nat) (hn : n < SIZE_MOD) (s s1 : State) (lab : Label)
    (hrole : ∀ x, isWorker (s.pcs x) = true → x < n) (hinv : ActBound n s)
    (h : Effect s lab s1) (h79 : s.pcs lab.tid ≠ Pc.w79) : ActBound n s1 := by
  obtain ⟨hact, hload⟩ := effect_active_others s s1 lab h
  by_cases hd : ∃ v, s.pcs lab.tid = Pc.w91s v
  · obtain ⟨v, hv⟩ := hd
    obtain ⟨hpc1, hcnt⟩ := effect_dec_active s s1 lab h v hv
    have ht : lab.tid < n := hrole _ (by rw [hv]; rfl)
    have hsum := threadSum_update activeNum activeNum s.pcs s1.pcs lab.tid n ht
      (fun x hx _ => hact x hx)
    rw [hv, hpc1] at hsum
    have e0 : activeNum (Pc.w91s v) = 1 := rfl
    have e1 : activeNum Pc.w92 = 0 := rfl
    rw [e0, e1] at hsum
    obtain ⟨hv1, hv2⟩ := hinv.stale _ v hv
    have hdec : size_dec v = v - 1 := size_dec_eq v (by omega) (by omega)
    refine ⟨by rw [hcnt, hdec]; omega, by rw [hcnt, hdec]; omega, ?_⟩
    intro x w hx
    have hxne : x ≠ lab.tid := by
      intro e; rw [e, hpc1] at hx; cases hx
    obtain ⟨a, b⟩ := hinv.stale x w (hload x w hxne hx)
    exact ⟨by omega, b⟩
  · have h91 : ∀ v, s.pcs lab.tid ≠ Pc.w91s v := fun v e => hd ⟨v, e⟩
    obtain ⟨hcnt, hself⟩ := effect_active_self s s1 lab h h79 h91
    have hsum : threadSum activeNum s1.pcs n = threadSum activeNum s.pcs n := by
      refine threadSum_congr activeNum activeNum s.pcs s1.pcs n ?_
      intro x _
      by_cases hx : x = lab.tid
      · rw [hx]; unfold activeNum; rw [hself]
      · exact hact x hx
    refine ⟨by rw [hcnt]; exact hinv.le, by rw [hcnt, hsum]; exact hinv.ge, ?_⟩
    intro x v hx
    rw [hsum]
    by_cases hxt : x = lab.tid
    · rw [hxt] at hx
      rw [effect_load_self s s1 lab h v hx]
      exact ⟨hinv.ge, hinv.le⟩
    · exact hinv.stale x v (hload x v hxt hx)

/-- Every reachable state satisfies the bounds on `active_cnt`. -/
theorem reachable_actbound (num : Nat) (hnum : nworkers num < SIZE_MOD) (s : State)
    (hr : Reachable num s) : ActBound (nworkers num) s := by
  refine reachable_induction num (fun s => ActBound (nworkers num) s)
    (actbound_of_act _ _ (act_init num)) ?_ s hr
  intro s lab s1 hrs hi hstep
  have he := step_effect s s1 lab hstep
  have hrole : ∀ x, isWorker (s.pcs x) = true → x < nworkers num := by
    intro x hx
    rw [reachable_role num s hrs x] at hx
    exact of_decide_eq_true hx
  cases hs : s.tm.stop with
  | false =>
    exact actbound_of_act _ _
      (act_step _ hnum s s1 lab (reachable_ctl num s hrs hs) hrole
        (reachable_act num hnum s hrs hs) he)
  | true =>
    exact actbound_step _ hnum s s1 lab hrole hi he
      ((reachable_no_dequeue num s hrs).2 hs _)

/-- In a reachable state an active worker is counted in `active_cnt`, and in the
value that it has loaded on line 91, so the decrement of line 91 does not wrap. -/
theorem active_cnt_pos (num : Nat) (hnum : nworkers num < SIZE_MOD) (s : State)
    (hr : Reachable num s) (t : Nat) (h : active (s.pcs t) = true) :
    t < nworkers num ∧ 0 < s.tm.active_cnt ∧ s.tm.active_cnt ≤ nworkers num ∧
    size_dec s.tm.active_cnt = s.tm.active_cnt - 1 ∧
    ∀ v, s.pcs t = Pc.w91s v → 0 < v ∧ size_dec v = v - 1 := by
  have hb := reachable_actbound num hnum s hr
  have ht : t < nworkers num := by
    have := active_isWorker _ h
    rw [reachable_role num s hr t] at this
    exact of_decide_eq_true this
  have h1 : activeNum (s.pcs t) = 1 := by unfold activeNum; rw [if_pos h]
  have hpos := threadSum_activeNum_pos s.pcs t _ ht h1
  have hge := hb.ge
  have hle := hb.le
  refine ⟨ht, by omega, hle, size_dec_eq _ (by omega) (by omega), ?_⟩
  intro v hv
  obtain ⟨a, b⟩ := hb.stale t v hv
  exact ⟨by omega, size_dec_eq _ (by omega) (by omega)⟩

/-- C13 (range of `active_cnt`) fails on the code once `stop` is set: on a pool of
three workers with two items in flight, `tpool_destroy` sets `stop`, worker 2
leaves through the unlock of line 76 and its unlock of line 102 frees the mutex
that worker 1 holds on line 91, so worker 0 also passes line 90; both workers load
`active_cnt = 2` and both store 1.  After the race `active_cnt` is 1 with no worker
between increment and decrement, and at the end of the shutdown `active_cnt` is 1
while `thread_cnt` is 0.  What holds: while `stop` is false `active_cnt` is the
number of workers between increment and decrement and is at most `thread_cnt`;
and in every reachable state that number is at most `active_cnt`, `active_cnt` and
`thread_cnt` are at most the number of workers, and the store of line 91 never
wraps below zero. -/
theorem active_cnt_lost_decrement :
    run (init 3) lostDecrementPrefix = some lostDecrementBefore ∧
    lostDecrementBefore.tm.stop = true ∧ lostDecrementBefore.tm.active_cnt = 2 ∧
    lostDecrementBefore.pcs 0 = Pc.w91 ∧ lostDecrementBefore.pcs 1 = Pc.w91 ∧
    lostDecrementBefore.pcs 2 = Pc.w103 ∧
    run lostDecrementBefore lostDecrementRace = some lostDecrementAfter ∧
    lostDecrementAfter.tm.active_cnt = 1 ∧
    (List.range 3).countP (fun x => active (lostDecrementAfter.pcs x)) = 0 ∧
    run lostDecrementAfter lostDecrementRest = some lostDecrementEnd ∧
    Reachable 3 lostDecrementEnd ∧
    lostDecrementEnd.tm.active_cnt = 1 ∧ lostDecrementEnd.tm.thread_cnt = 0 ∧
    lostDecrementEnd.pcs 0 = Pc.w103 ∧ lostDecrementEnd.pcs 1 = Pc.w103 ∧
    lostDecrementEnd.pcs 2 = Pc.w103 ∧ lostDecrementEnd.pcs 4 = Pc.d143 ∧
    (∀ num s, nworkers num < SIZE_MOD → Reachable num s → s.tm.stop = false →
      s.tm.active_cnt = (List.range (nworkers num)).countP (fun x => active (s.pcs x)) ∧
      s.tm.active_cnt ≤ s.tm.thread_cnt) ∧
    (∀ num s, nworkers num < SIZE_MOD → Reachable num s →
      (List.range (nworkers num)).countP (fun x => active (s.pcs x)) ≤ s.tm.active_cnt ∧
      s.tm.active_cnt ≤ nworkers num ∧ s.tm.thread_cnt ≤ nworkers num ∧
      (∀ x, active (s.pcs x) = true → x < nworkers num) ∧
      ∀ t v, s.pcs t = Pc.w91s v → 0 < v ∧ size_dec v = v - 1) := by
  refine ⟨rfl, rfl, rfl, rfl, rfl, rfl, rfl, rfl, rfl, rfl,
    ⟨lostDecrementPrefix ++ lostDecrementRace ++ lostDecrementRest, rfl⟩,
    rfl, rfl, rfl, rfl, rfl, rfl, ?_, ?_⟩
  · intro num s hnum hr hs
    have ha := (reachable_act num hnum s hr hs).eq
    have hc := reachable_cnt num hnum s hr
    have hsum := threadSum_active_exited s.pcs (nworkers num)
    have hge := hc.ge
    refine ⟨by rw [ha, threadSum_activeNum_count], ?_⟩
    rw [ha]; omega
  · intro num s hnum hr
    have hb := reachable_actbound num hnum s hr
    have hc := reachable_cnt num hnum s hr
    refine ⟨by rw [← threadSum_activeNum_count]; exact hb.ge, hb.le, hc.le, ?_, ?_⟩
    · intro x hx
      exact (active_cnt_pos num hnum s hr x hx).1
    · intro t v hv
      exact (active_cnt_pos num hnum s hr t (by rw [hv]; rfl)).2.2.2.2 v hv

/-- C16 (the dequeue never comes back empty): in every reachable state of a pool
with fewer than 2^64 workers, a worker that stands before the dequeue of line 79
holds the mutex, `stop` is false and the queue is not empty, so `tpool_work_get`
returns a non-null item and the worker's step takes the branch that increments
`active_cnt`; no worker is ever in a `work == NULL` branch (line 83 or 85 with a
null `work`); and a worker between its increment and its decrement is counted in
`active_cnt`, which is therefore positive when the worker runs the decrement of
line 91, and so is the value that the worker has loaded for that decrement. -/
theorem dequeue_never_empty (num : Nat) (hnum : nworkers num < SIZE_MOD) (s : State)
    (hr : Reachable num s) (t : Nat) :
    (s.pcs t = Pc.w79 →
      s.work_mutex = some t ∧ s.tm.stop = false ∧ s.tm.work_first ≠ none ∧
      ∃ p w, tpool_work_get (some s.tm) s.heap = (some p, some w) ∧
        step s (Label.exec t none)
          = some (goto { s with tm := { p with active_cnt := size_inc p.active_cnt } } t
              (Pc.w83 (some w)))) ∧
    s.pcs t ≠ Pc.w83 none ∧ s.pcs t ≠ Pc.w85 none ∧
    (active (s.pcs t) = true →
      0 < s.tm.active_cnt ∧ size_dec s.tm.active_cnt = s.tm.active_cnt - 1) ∧
    (∀ v, s.pcs t = Pc.w91s v → 0 < v ∧ size_dec v = v - 1) := by
  have hc := reachable_cnt num hnum s hr
  have hn := hc.nonull t
  refine ⟨?_, ?_, ?_, ?_, ?_⟩
  · intro hpc
    have hs : s.tm.stop = false := by
      cases hs : s.tm.stop with
      | false => rfl
      | true => exact absurd hpc ((reachable_no_dequeue num s hr).2 hs t)
    have hctl := (reachable_no_dequeue num s hr).1 hs
    have hne := hctl.nonempty t (Or.inr hpc)
    obtain ⟨l, hd⟩ := reachable_data num hnum s hr
    refine ⟨(hctl.mutex t).1 (by rw [hpc]; rfl), hs, hne, ?_⟩
    cases l with
    | nil => exact absurd ((queue_is_first_none s.tm s.heap [] hd.queue).2 rfl) hne
    | cons a l =>
      obtain ⟨p, hget, _⟩ := work_get_cons s.tm s.heap a l hd.queue
      refine ⟨p, a, hget, ?_⟩
      have hf : ¬ (s.freed = true ∧ touches Pc.w79 = true) := by
        rw [hctl.notfreed]; simp
      simp only [step, hpc, if_neg hf, stmt, hget]
  · intro e; rw [e] at hn; cases hn
  · intro e; rw [e] at hn; cases hn
  · intro ha
    have := active_cnt_pos num hnum s hr t ha
    exact ⟨this.2.1, this.2.2.2.1⟩
  · intro v hv
    exact (active_cnt_pos num hnum s hr t (by rw [hv]; rfl)).2.2.2.2 v hv

theorem dequeue_never_empty_witness :
    nworkers 1 < SIZE_MOD ∧ Reachable 1 dequeueState ∧ dequeueState.pcs 0 = Pc.w79 ∧
    dequeueState.work_mutex = some 0 ∧ dequeueState.tm.stop = false ∧
    dequeueState.tm.work_first ≠ none ∧
    ∃ p w, tpool_work_get (some dequeueState.tm) dequeueState.heap = (some p, some w) ∧
      step dequeueState (Label.exec 0 none)
        = some (goto { dequeueState with
              tm := { p with active_cnt := size_inc p.active_cnt } } 0 (Pc.w83 (some w))) :=
  ⟨by decide, ⟨dequeueSchedule, rfl⟩, rfl,
    (dequeue_never_empty 1 (by decide) dequeueState ⟨dequeueSchedule, rfl⟩ 0).1 rfl⟩

/-- C4 (creation and zero normalisation) fails on the code for the number of
workers: the loop of `tpool_create` ignores the result of `pthread_create`
(tpool.c:126), so when the `pthread_create` of `tpool_create(1)` fails the pool is
returned with `thread_cnt = 1` and no worker; a `tpool_destroy` on that pool then
blocks on line 140 and, under every further schedule, `thread_cnt` stays 1 and the
destroyer stays in its wait loop.  The rest of the claim holds for every `n` and
every outcome of the `pthread_create` calls: `stop` is false, the queue is empty,
`active_cnt` is 0, `thread_cnt` is 2 if `n = 0` and `n` otherwise, the workers are
the threads below `thread_cnt` whose `pthread_create` succeeded, and
`tpool_create 0` and `tpool_create 2` give the same result; when every
`pthread_create` succeeds the workers are exactly the threads below `thread_cnt`. -/
theorem tpool_create_counts_unborn_workers :
    (∃ p pcs, tpool_create 1 true (fun _ => false) = some (p, pcs) ∧ p.thread_cnt = 1 ∧
      ∀ t, pcs t = Pc.idle) ∧
    (run (initWith 1 (fun _ => false)) unbornSchedule = some unbornState ∧
      unbornState.pcs 1 = Pc.d140b ∧ unbornState.tm.thread_cnt = 1 ∧
      unbornState.work_mutex = none ∧
      (∀ t, isWorker (unbornState.pcs t) = false) ∧
      ∀ labs s1, run unbornState labs = some s1 →
        s1.tm.thread_cnt = 1 ∧ inDestroyLoop (s1.pcs 1) = true) ∧
    (∀ n created, ∃ p pcs, tpool_create n true created = some (p, pcs) ∧
      p.stop = false ∧ p.work_first = none ∧ p.work_last = none ∧ p.active_cnt = 0 ∧
      p.thread_cnt = (if n = 0 then 2 else n) ∧
      (∀ t, pcs t = if t < p.thread_cnt ∧ created t = true then Pc.w71 else Pc.idle) ∧
      tpool_create 0 true created = tpool_create 2 true created) ∧
    (∀ n, ∃ p pcs, tpool_create n true (fun _ => true) = some (p, pcs) ∧
      (∀ t, t < p.thread_cnt → pcs t = Pc.w71) ∧
      (∀ t, p.thread_cnt ≤ t → pcs t = Pc.idle)) := by
  have hidle : ∀ t, (initWith 1 (fun _ => false)).pcs t = Pc.idle := by
    intro t
    show spawn (fun _ => false) (fun _ => Pc.idle) 0 1 t = Pc.idle
    rw [spawn_apply]
    simp
  have hw : ∀ t, isWorker (unbornState.pcs t) = false := by
    intro t
    by_cases h1 : t = 1
    · rw [h1]; rfl
    · have : unbornState.pcs t = Pc.idle := by
        refine run_idle t unbornSchedule (initWith 1 (fun _ => false)) unbornState rfl ?_
          (hidle t)
        intro lab hl
        simp only [unbornSchedule, List.mem_cons, List.mem_singleton, List.not_mem_nil,
          or_false] at hl
        rcases hl with e | e | e | e | e | e <;> rw [e] <;> simp only [Label.tid] <;> omega
      rw [this]; rfl
  refine ⟨⟨_, _, rfl, rfl, hidle⟩, ⟨rfl, rfl, rfl, rfl, hw, ?_⟩, ?_, ?_⟩
  · intro labs s1 hrun
    exact destroy_stuck 1 labs unbornState s1 rfl
      (fun y hy => by rw [hw y] at hy; cases hy) rfl hrun
  · intro n created
    refine ⟨_, _, rfl, rfl, rfl, rfl, rfl, rfl, ?_, rfl⟩
    intro t
    rw [spawn_apply]
    simp only [Nat.zero_le, true_and, Nat.zero_add]
  · intro n
    refine ⟨_, _, rfl, ?_, ?_⟩
    · intro t ht
      rw [spawn_apply]
      simp only [Nat.zero_le, true_and, Nat.zero_add, and_true]
      rw [if_pos ht]
    · intro t ht
      change (if n = 0 then 2 else n) ≤ t at ht
      rw [spawn_apply]
      simp only [Nat.zero_le, true_and, Nat.zero_add, and_true]
      rw [if_neg (by omega)]

end Tpool
